import Mathlib

/-!
Verification of the Article Consolidation Pipeline of the news_feed repository:
normalization → deduplication → classification → category-bounded selection.

The Python sources (src/normalizer.py, src/deduper.py, src/classifier.py,
src/selector.py, src/models.py) are shallowly embedded: Python `str` is
modelled as `List Char` (a list of unicode scalars), Python `dict` as an
insertion-ordered association list, timezone-aware `datetime` values as `Int`
(their total order is all the code uses), and Python's stable `list.sort` /
`sorted` as a stable insertion sort.  Fallible code returns `Option`.

Modelling notes, applying throughout:
* `str.lower` is modelled character-wise by `Char.toLower` (exact on ASCII,
  identity elsewhere; Python additionally lowercases some non-ASCII letters,
  which no claim here depends on).
* CPython library functions called by the sources (urllib.parse, hashlib,
  html.unescape, re substitutions) are modelled from the CPython 3.11 sources
  at the granularity the claims need; each model carries a note where it
  abstracts (hash compression function, full HTML5 entity table, the unicode
  `\w` class).
-/

/-- A Python `str`: a list of unicode scalar values. -/
abbrev PyStr := List Char

/-- Model of Python `str.lower` applied to one character: `Char.toLower`
(ASCII-exact; identity on non-ASCII). -/
def pyLowerChar (c : Char) : Char := Char.toLower c

/-- Model of Python `str.lower`. -/
def pyLower (s : PyStr) : PyStr := s.map pyLowerChar

/-- Python's substring test `needle in hay`. -/
def pyIn (n : PyStr) : PyStr → Bool
  | [] => n == []
  | c :: t => n.isPrefixOf (c :: t) || pyIn n t

/-- Split a list at the first occurrence of `t`: `some (before, after)` when
`t` occurs, `none` otherwise (model of Python `s.split(t, 1)` / `s.find(t)`). -/
def breakAtFirst (t : Char) : PyStr → Option (PyStr × PyStr)
  | [] => none
  | c :: cs =>
      if c = t then some ([], cs)
      else (breakAtFirst t cs).map (fun p => (c :: p.1, p.2))

/-- Splitting at the first occurrence decomposes the list: used for
termination of the scanners below and throughout the reassembly proofs. -/
theorem breakAtFirst_length {t : Char} {s a b : PyStr}
    (h : breakAtFirst t s = some (a, b)) : a.length + b.length + 1 = s.length := by
  induction s generalizing a b with
  | nil => simp [breakAtFirst] at h
  | cons c cs ih =>
      simp only [breakAtFirst] at h
      split at h
      · cases h; simp
      · cases hb : breakAtFirst t cs with
        | none => rw [hb] at h; simp at h
        | some p =>
            obtain ⟨p1, p2⟩ := p
            rw [hb] at h
            simp only [Option.map_some', Option.some.injEq, Prod.mk.injEq] at h
            obtain ⟨ha, hbb⟩ := h
            subst ha
            subst hbb
            have := ih hb
            simp only [List.length_cons]
            omega

/-- Split a list at the last occurrence of `t`: `some (before, after)` with
`t ∉ after` when `t` occurs (model of Python `s.rfind(t)`). -/
def breakAtLast (t : Char) (s : PyStr) : Option (PyStr × PyStr) :=
  (breakAtFirst t s.reverse).map (fun p => (p.2.reverse, p.1.reverse))

/-- Python dict lookup `m.get(k)` / `m[k]` over an insertion-ordered
association list. -/
def dGet? {K V : Type} [DecidableEq K] (m : List (K × V)) (k : K) : Option V :=
  match m with
  | [] => none
  | (k', v) :: m' => if k' = k then some v else dGet? m' k

/-- Python dict assignment `m[k] = v`: updates the existing entry in place
(keeping its position) or appends, matching dict insertion-order semantics. -/
def dSet {K V : Type} [DecidableEq K] (m : List (K × V)) (k : K) (v : V) :
    List (K × V) :=
  match m with
  | [] => [(k, v)]
  | (k', v') :: m' => if k' = k then (k, v) :: m' else (k', v') :: dSet m' k v

/-- `collections.defaultdict(list)` append `m[k].append(v)`. -/
def ddAppend {K V : Type} [DecidableEq K] (m : List (K × List V)) (k : K)
    (v : V) : List (K × List V) :=
  match m with
  | [] => [(k, [v])]
  | (k', vs) :: m' =>
      if k' = k then (k', vs ++ [v]) :: m' else (k', vs) :: ddAppend m' k v

/-- Stable insertion used to model Python's stable sorts: an existing element
`y` stays ahead of the inserted `x` exactly when `lt y x`. -/
def sIns {α : Type} (lt : α → α → Bool) (x : α) : List α → List α
  | [] => [x]
  | y :: ys => if lt y x then y :: sIns lt x ys else x :: y :: ys

/-- Model of Python's stable sort (`list.sort` / `sorted`): a stable insertion
sort.  With `lt y x := key y < key x` this is the stable ascending sort by
`key`; with `lt y x := key y > key x` the stable descending sort. -/
def sSort {α : Type} (lt : α → α → Bool) : List α → List α
  | [] => []
  | x :: xs => sIns lt x (sSort lt xs)

/-- The canonical article record (src/models.py, `NormalizedArticle`).
`published` is the UTC timestamp as a point on a total order. -/
structure NormalizedArticle where
  title : PyStr
  link : PyStr
  published : Int
  source_name : PyStr
  language : PyStr
  tab : PyStr
  rss_category : PyStr
  guid : PyStr
  description : Option PyStr := none
  final_category : Option PyStr := none
deriving Repr, DecidableEq

/-! ## Deduplicator (src/deduper.py) -/

/-- Model of the `\w` class of Python's `re` (unicode mode): ASCII letters,
digits and underscore; non-ASCII scalars are treated as word characters (the
real class excludes non-ASCII punctuation, which no claim depends on). -/
def isPyWordChar (c : Char) : Bool :=
  c.isAlpha || c.isDigit || c == '_' || decide (128 ≤ c.toNat)

/-- Model of the `\s` class of Python's `re`: the ASCII whitespace characters
(the real class also has some non-ASCII members, which no claim depends on). -/
def isPySpace (c : Char) : Bool :=
  c == ' ' || c == '\t' || c == '\n' || c == '\r' || c == '\x0b' || c == '\x0c'

/-- The scan of `collapseWs`; the flag records being inside a whitespace
run (whose first character already emitted the single space). -/
def collapseWsGo : Bool → PyStr → PyStr
  | _, [] => []
  | inRun, c :: cs =>
      if isPySpace c then
        (if inRun then collapseWsGo true cs else ' ' :: collapseWsGo true cs)
      else c :: collapseWsGo false cs

/-- Python `re.sub(r'\s+', ' ', s)`: collapse every whitespace run to one
space. -/
def collapseWs (s : PyStr) : PyStr := collapseWsGo false s

/-- Python `str.strip()` (whitespace strip at both ends). -/
def pyStrip (s : PyStr) : PyStr :=
  ((s.dropWhile isPySpace).reverse.dropWhile isPySpace).reverse

/-- `deduper.normalize_title_for_comparison`: lowercase, remove punctuation
(`re.sub(r'[^\w\s]', '', ·)`), collapse whitespace, trim. -/
def normalize_title_for_comparison (title : PyStr) : PyStr :=
  pyStrip (collapseWs ((pyLower title).filter
    (fun c => isPyWordChar c || isPySpace c)))

/-! ## Model of CPython 3.11 urllib.parse, as called by `normalizer.normalize_url`

The model is total.  The CPython branches that raise (`Invalid IPv6 URL`,
`_check_bracketed_host`, `_checknetloc`, and `UnicodeEncodeError` on lone
surrogates — the latter unrepresentable in `Char` anyway) correspond to
`normalize_url`'s `except Exception: return url` branch, on which the
normalizer is the identity; they are noted where they occur. -/

/-- WHATWG C0-control-or-space class: `urlsplit` lstrips these. -/
def isC0OrSpace (c : Char) : Bool := decide (c.toNat ≤ 32)

/-- `_UNSAFE_URL_BYTES_TO_REMOVE`: tab, CR and LF are deleted anywhere. -/
def removeUnsafe (s : PyStr) : PyStr :=
  s.filter (fun c => !(c == '\t' || c == '\r' || c == '\n'))

/-- `urllib.parse.scheme_chars`. -/
def isSchemeChar (c : Char) : Bool :=
  c.isAlpha || c.isDigit || c == '+' || c == '-' || c == '.'

/-- The scheme-splitting step of `urlsplit`: the text before the first `:`
is a scheme when it is nonempty, starts with an ASCII letter and consists of
scheme characters; `urlsplit` lowercases the scheme it extracts. -/
def schemeSplit (url : PyStr) : PyStr × PyStr :=
  match breakAtFirst ':' url with
  | none => ([], url)
  | some (pre, post) =>
      match pre with
      | [] => ([], url)
      | c0 :: rest =>
          if c0.isAlpha && (c0 :: rest).all isSchemeChar then
            (pyLower (c0 :: rest), post)
          else ([], url)

/-- Delimiters ending the netloc in `_splitnetloc`. -/
def isNetlocDelim (c : Char) : Bool := c == '/' || c == '?' || c == '#'

/-- The netloc-splitting step of `urlsplit`: when the remainder starts with
`//`, the netloc runs to the first `/`, `?` or `#`.  (The bracketed-IPv6
validation that may raise here is the identity branch of `normalize_url`.) -/
def netlocSplit (rest : PyStr) : PyStr × PyStr :=
  match rest with
  | '/' :: '/' :: r =>
      (r.takeWhile (fun c => !isNetlocDelim c),
       r.dropWhile (fun c => !isNetlocDelim c))
  | _ => ([], rest)

/-- Split off the fragment at the first `#` (urlsplit, `allow_fragments`). -/
def fragSplit (s : PyStr) : PyStr × PyStr :=
  match breakAtFirst '#' s with
  | none => (s, [])
  | some (a, b) => (a, b)

/-- Split off the query at the first `?`. -/
def querySplit (s : PyStr) : PyStr × PyStr :=
  match breakAtFirst '?' s with
  | none => (s, [])
  | some (a, b) => (a, b)

/-- The six URL components of `urlparse` (params split out of the path). -/
structure UrlParts where
  scheme : PyStr
  netloc : PyStr
  path : PyStr
  params : PyStr
  query : PyStr
  fragment : PyStr
deriving Repr, DecidableEq

/-- Model of `urllib.parse.urlsplit` (CPython 3.11): lstrip C0/space, delete
tab/CR/LF, then split scheme, netloc, fragment and query in that order. -/
def urlsplitM (url0 : PyStr) : UrlParts :=
  let url1 := removeUnsafe (url0.dropWhile isC0OrSpace)
  let sp := schemeSplit url1
  let np := netlocSplit sp.2
  let fp := fragSplit np.2
  let qp := querySplit fp.1
  ⟨sp.1, np.1, qp.1, [], qp.2, fp.2⟩

/-- `urllib.parse.uses_params` (CPython 3.11). -/
def uses_params : List PyStr :=
  [[], "ftp".data, "hdl".data, "prospero".data, "http".data, "imap".data,
   "https".data, "shttp".data, "rtsp".data, "rtsps".data, "rtspu".data,
   "sip".data, "sips".data, "mms".data, "sftp".data, "tel".data]

/-- `urllib.parse.uses_netloc` (CPython 3.11). -/
def uses_netloc : List PyStr :=
  [[], "ftp".data, "http".data, "gopher".data, "nntp".data, "telnet".data,
   "imap".data, "wais".data, "file".data, "mms".data, "https".data,
   "shttp".data, "snews".data, "prospero".data, "rtsp".data, "rtsps".data,
   "rtspu".data, "rsync".data, "svn".data, "svn+ssh".data, "sftp".data,
   "nfs".data, "git".data, "git+ssh".data, "ws".data, "wss".data]

/-- `urllib.parse._splitparams`: split `;params` out of the last path
segment (only called with `;` present in the path). -/
def splitparamsM (p : PyStr) : PyStr × PyStr :=
  match breakAtLast '/' p with
  | some (a, b) =>
      match breakAtFirst ';' b with
      | none => (p, [])
      | some (b1, b2) => (a ++ '/' :: b1, b2)
  | none =>
      match breakAtFirst ';' p with
      | none => (p, [])
      | some (b1, b2) => (b1, b2)

/-- Model of `urllib.parse.urlparse`: `urlsplit` plus params splitting for
schemes in `uses_params`. -/
def urlparseM (url : PyStr) : UrlParts :=
  let s := urlsplitM url
  if s.scheme ∈ uses_params ∧ ';' ∈ s.path then
    let pp := splitparamsM s.path
    { s with path := pp.1, params := pp.2 }
  else s

/-- Model of `urllib.parse.urlunsplit` (CPython 3.11), ignoring `params`. -/
def urlunsplitM (u : UrlParts) : PyStr :=
  let url0 := u.path
  let url1 :=
    if u.netloc ≠ [] ∨
        (u.scheme ≠ [] ∧ u.scheme ∈ uses_netloc ∧ url0.take 2 ≠ ['/', '/'])
    then '/' :: '/' :: (u.netloc ++
      (if url0 ≠ [] ∧ url0.take 1 ≠ ['/'] then '/' :: url0 else url0))
    else url0
  let url2 := if u.scheme ≠ [] then u.scheme ++ ':' :: url1 else url1
  let url3 := if u.query ≠ [] then url2 ++ '?' :: u.query else url2
  if u.fragment ≠ [] then url3 ++ '#' :: u.fragment else url3

/-- Model of `urllib.parse.urlunparse`: re-join `;params` onto the path,
then `urlunsplit`. -/
def urlunparseM (u : UrlParts) : PyStr :=
  let url := if u.params ≠ [] then u.path ++ ';' :: u.params else u.path
  urlunsplitM { u with path := url }

/-- The RFC 3986 unreserved characters, `urllib.parse._ALWAYS_SAFE`. -/
def alwaysSafe (c : Char) : Bool :=
  c.isAlpha || c.isDigit || c == '_' || c == '.' || c == '-' || c == '~'

/-- UTF-8 encoding of one scalar value, as a list of byte values. -/
def utf8Bytes (c : Char) : List Nat :=
  let n := c.toNat
  if n < 0x80 then [n]
  else if n < 0x800 then [0xC0 + n / 64, 0x80 + n % 64]
  else if n < 0x10000 then
    [0xE0 + n / 4096, 0x80 + n / 64 % 64, 0x80 + n % 64]
  else
    [0xF0 + n / 262144, 0x80 + n / 4096 % 64, 0x80 + n / 64 % 64,
     0x80 + n % 64]

/-- Uppercase hex digit, as used by `quote`'s `%XX` escapes. -/
def hexDigitUpper (n : Nat) : Char :=
  if n < 10 then Char.ofNat (48 + n) else Char.ofNat (55 + n)

/-- One `%XX` escape for a byte. -/
def pctByte (b : Nat) : List Char := ['%', hexDigitUpper (b / 16), hexDigitUpper (b % 16)]

/-- Model of `urllib.parse.quote(s, safe)` at character granularity: a
character in `_ALWAYS_SAFE` or in `safe` stands for its (ASCII) byte and is
kept; any other character's UTF-8 bytes are `%XX`-escaped.  This is the
byte-level CPython algorithm restated: the safe sets are ASCII-only, so a
multi-byte character never has a safe byte.  (Lone surrogates, on which
CPython's `str.encode` raises, do not exist in `Char`.) -/
def quoteM (safe : Char → Bool) (s : PyStr) : PyStr :=
  s.flatMap (fun c =>
    if alwaysSafe c || safe c then [c] else (utf8Bytes c).flatMap pctByte)

/-- Model of `urllib.parse.quote_plus`: when the string has a space, quote
with space safe and then turn spaces into `+`; otherwise plain `quote` with
an empty safe set. -/
def quotePlusM (s : PyStr) : PyStr :=
  if ' ' ∈ s then
    (quoteM (fun c => c == ' ') s).map (fun c => if c = ' ' then '+' else c)
  else quoteM (fun _ => false) s

/-- Hex-digit test of `urllib.parse._hexdig` (both cases). -/
def isHexDig (c : Char) : Bool :=
  c.isDigit || (decide ('a' ≤ c) && decide (c ≤ 'f')) ||
    (decide ('A' ≤ c) && decide (c ≤ 'F'))

/-- Value of a hex digit. -/
def hexVal (c : Char) : Nat :=
  if c.isDigit then c.toNat - 48
  else if decide ('a' ≤ c) && decide (c ≤ 'f') then c.toNat - 87
  else c.toNat - 55

/-- Model of `urllib.parse.unquote_to_bytes` on a `%`-split basis, written as
a scanner: a `%` followed by two hex digits yields that byte; a `%` not so
followed stands for its own byte (CPython appends `b'%' + item` on the
`KeyError`); any other character contributes its UTF-8 bytes (CPython first
encodes the string to UTF-8). -/
def pctDecode : List Char → List Nat
  | [] => []
  | '%' :: rest =>
      match rest with
      | a :: b :: rest' =>
          if isHexDig a && isHexDig b then
            (16 * hexVal a + hexVal b) :: pctDecode rest'
          else 0x25 :: pctDecode (a :: b :: rest')
      | [a] => 0x25 :: pctDecode [a]
      | [] => [0x25]
  | c :: rest => utf8Bytes c ++ pctDecode rest
termination_by s => s.length
decreasing_by all_goals simp <;> omega

/-- U+FFFD, the replacement character of `errors='replace'` decoding. -/
def replChar : Char := Char.ofNat 0xFFFD

/-- UTF-8 continuation byte test. -/
def isCont (b : Nat) : Bool := decide (0x80 ≤ b) && decide (b ≤ 0xBF)

/-- Model of `bytes.decode('utf-8', errors='replace')`: the standard UTF-8
decoder with maximal-subpart replacement (overlong forms, surrogates and
out-of-range leads rejected), which is CPython's behaviour. -/
def utf8DecodeReplace : List Nat → List Char
  | [] => []
  | b :: bs =>
      if b < 0x80 then Char.ofNat b :: utf8DecodeReplace bs
      else if b < 0xC2 then replChar :: utf8DecodeReplace bs
      else if b < 0xE0 then
        match bs with
        | b2 :: bs2 =>
            if isCont b2 then
              Char.ofNat ((b - 0xC0) * 64 + (b2 - 0x80)) ::
                utf8DecodeReplace bs2
            else replChar :: utf8DecodeReplace (b2 :: bs2)
        | [] => [replChar]
      else if b < 0xF0 then
        match bs with
        | b2 :: bs2 =>
            if (if b = 0xE0 then decide (0xA0 ≤ b2) && decide (b2 ≤ 0xBF)
                else if b = 0xED then decide (0x80 ≤ b2) && decide (b2 ≤ 0x9F)
                else isCont b2) then
              match bs2 with
              | b3 :: bs3 =>
                  if isCont b3 then
                    Char.ofNat ((b - 0xE0) * 4096 + (b2 - 0x80) * 64 +
                      (b3 - 0x80)) :: utf8DecodeReplace bs3
                  else replChar :: utf8DecodeReplace (b3 :: bs3)
              | [] => [replChar]
            else replChar :: utf8DecodeReplace (b2 :: bs2)
        | [] => [replChar]
      else if b < 0xF5 then
        match bs with
        | b2 :: bs2 =>
            if (if b = 0xF0 then decide (0x90 ≤ b2) && decide (b2 ≤ 0xBF)
                else if b = 0xF4 then decide (0x80 ≤ b2) && decide (b2 ≤ 0x8F)
                else isCont b2) then
              match bs2 with
              | b3 :: bs3 =>
                  if isCont b3 then
                    match bs3 with
                    | b4 :: bs4 =>
                        if isCont b4 then
                          Char.ofNat ((b - 0xF0) * 262144 +
                            (b2 - 0x80) * 4096 + (b3 - 0x80) * 64 +
                            (b4 - 0x80)) :: utf8DecodeReplace bs4
                        else replChar :: utf8DecodeReplace (b4 :: bs4)
                    | [] => [replChar]
                  else replChar :: utf8DecodeReplace (b3 :: bs3)
              | [] => [replChar]
            else replChar :: utf8DecodeReplace (b2 :: bs2)
        | [] => [replChar]
      else replChar :: utf8DecodeReplace bs
termination_by s => s.length
decreasing_by all_goals simp <;> omega

/-- ASCII test, the `[\x00-\x7f]` class of `urllib.parse._asciire`. -/
def isAsciiCh (c : Char) : Bool := decide (c.toNat < 128)

/-- The run-processing loop of `urllib.parse.unquote`: maximal ASCII runs are
percent-decoded to bytes and UTF-8-decoded with replacement; non-ASCII
characters pass through verbatim (this is the `_asciire.split` structure). -/
def unquoteRuns : PyStr → PyStr
  | [] => []
  | c :: cs =>
      if isAsciiCh c then
        utf8DecodeReplace (pctDecode (c :: cs.takeWhile isAsciiCh)) ++
          unquoteRuns (cs.dropWhile isAsciiCh)
      else c :: unquoteRuns cs
termination_by s => s.length
decreasing_by
  · simp only [List.length_cons]
    exact Nat.lt_succ_of_le (List.dropWhile_suffix _).sublist.length_le
  · simp

/-- Model of `urllib.parse.unquote(s, errors='replace')`. -/
def unquoteM (s : PyStr) : PyStr :=
  if '%' ∈ s then unquoteRuns s else s

/-- Python `str.split(sep)` for a one-character separator (keeps empty
pieces; the empty string still yields one empty piece). -/
def pySplit (sep : Char) : PyStr → List PyStr
  | [] => [[]]
  | c :: cs =>
      if c = sep then [] :: pySplit sep cs
      else
        match pySplit sep cs with
        | [] => [[c]]
        | p :: ps => (c :: p) :: ps

/-- `.replace('+', ' ')` as applied by `parse_qsl` to names and values. -/
def plusToSpace (s : PyStr) : PyStr := s.map (fun c => if c = '+' then ' ' else c)

/-- Model of `urllib.parse.parse_qsl(qs)` with the default
`keep_blank_values=False`: split on `&`, skip empty pieces and pieces
without `=` or with an empty raw value, and unquote names and values. -/
def parse_qsl (qs : PyStr) : List (PyStr × PyStr) :=
  let pieces := if qs = [] then [] else pySplit '&' qs
  pieces.foldl
    (fun r nv =>
      if nv = [] then r
      else
        match breakAtFirst '=' nv with
        | none => r
        | some (name, value) =>
            if value = [] then r
            else r ++ [(unquoteM (plusToSpace name), unquoteM (plusToSpace value))])
    []

/-- The grouping step of `parse_qs`: append the value to the name's list, or
start a new entry at the end (dict insertion order). -/
def qsInsert (m : List (PyStr × List PyStr)) (k : PyStr) (v : PyStr) :
    List (PyStr × List PyStr) :=
  match m with
  | [] => [(k, [v])]
  | (k', vs) :: m' =>
      if k' = k then (k', vs ++ [v]) :: m' else (k', vs) :: qsInsert m' k v

/-- Model of `urllib.parse.parse_qs(qs)`. -/
def parse_qsM (qs : PyStr) : List (PyStr × List PyStr) :=
  (parse_qsl qs).foldl (fun m p => qsInsert m p.1 p.2) []

/-- `'&'.join`. -/
def joinAmp : List PyStr → PyStr
  | [] => []
  | [x] => x
  | x :: y :: r => x ++ '&' :: joinAmp (y :: r)

/-- Model of `urllib.parse.urlencode(query, doseq=True)` on a parsed-query
dict: one `quoted_key=quoted_value` piece per value, in order, joined by
`&` (keys and values are strings here, so only the str branches apply). -/
def urlencodeM (m : List (PyStr × List PyStr)) : PyStr :=
  joinAmp (m.flatMap (fun p => p.2.map (fun v => quotePlusM p.1 ++ '=' :: quotePlusM v)))

/-- `normalizer.TRACKING_PARAMS`. -/
def TRACKING_PARAMS : List PyStr :=
  ["utm_source".data, "utm_medium".data, "utm_campaign".data, "utm_term".data,
   "utm_content".data, "fbclid".data, "gclid".data, "ref".data, "source".data,
   "mc_cid".data, "mc_eid".data, "ocid".data]

/-- The dict comprehension of `normalize_url`: drop query keys whose
lowercase form is a tracking parameter, preserving order. -/
def filterTracking (m : List (PyStr × List PyStr)) : List (PyStr × List PyStr) :=
  m.filter (fun p => decide (pyLower p.1 ∉ TRACKING_PARAMS))

/-- Python `str.rstrip('/')`. -/
def rstripSlash (p : PyStr) : PyStr := (p.reverse.dropWhile (· == '/')).reverse

/-- Model of `normalizer.normalize_url`: parse, lowercase scheme and netloc,
strip trailing slashes from the path (an emptied path becomes `/`), drop
tracking query keys and re-encode the query, drop the fragment, and
reassemble.  The CPython raising branches correspond to the source's
`except Exception: return url`, on which this function is the identity. -/
def normalize_url (url : PyStr) : PyStr :=
  if url = [] then []
  else
    let parsed := urlparseM url
    let filtered_query := filterTracking (parse_qsM parsed.query)
    urlunparseM
      { scheme := pyLower parsed.scheme
        netloc := pyLower parsed.netloc
        path := (if rstripSlash parsed.path = [] then ['/'] else rstripSlash parsed.path)
        params := parsed.params
        query := urlencodeM filtered_query
        fragment := [] }

/-- One step of a dedup stage's map building: keep the already-stored
article unless the incoming one has a strictly later `published`
(`article.published > stored.published` in the source). -/
def dedupStep (key : NormalizedArticle → PyStr)
    (m : List (PyStr × NormalizedArticle)) (a : NormalizedArticle) :
    List (PyStr × NormalizedArticle) :=
  match dGet? m (key a) with
  | some cur => if cur.published < a.published then dSet m (key a) a else m
  | none => dSet m (key a) a

/-- The map built by one dedup stage. -/
def dedupFold (key : NormalizedArticle → PyStr)
    (m : List (PyStr × NormalizedArticle)) (articles : List NormalizedArticle) :
    List (PyStr × NormalizedArticle) :=
  articles.foldl (dedupStep key) m

/-- One map-building pass of `deduper.deduplicate`: fold the articles into a
dict keyed by `key`, latest wins; the stage output is the dict's values in
key-insertion order. -/
def dedupStage (key : NormalizedArticle → PyStr)
    (articles : List NormalizedArticle) : List NormalizedArticle :=
  (dedupFold key [] articles).map Prod.snd

/-- The three dedup keys: guid, normalized link, and the tab/title/source
composite of the near-duplicate stage. -/
def guidKey (a : NormalizedArticle) : PyStr := a.guid

/-- Stage-2 key: `normalize_url(article.link)`. -/
def urlKey (a : NormalizedArticle) : PyStr := normalize_url a.link

/-- Stage-3 key: `f"{article.tab}|{normalized_title}|{article.source_name}"`. -/
def titleSourceKey (a : NormalizedArticle) : PyStr :=
  a.tab ++ '|' :: (normalize_title_for_comparison a.title ++ '|' :: a.source_name)

/-- Model of `deduper.deduplicate`: the early return on an empty input, then
the three latest-wins stages (guid, normalized URL, tab/title/source). -/
def deduplicate (articles : List NormalizedArticle) : List NormalizedArticle :=
  if articles = [] then []
  else dedupStage titleSourceKey (dedupStage urlKey (dedupStage guidKey articles))

/-! ## Classifier (src/classifier.py) -/

/-- `classifier.VALID_CATEGORIES`, the nine valid zh categories. -/
def VALID_CATEGORIES : List PyStr :=
  ["頭條新聞".data, "產經".data, "股市".data, "全球國際新聞".data,
   "社會".data, "生活".data, "娛樂".data, "運動".data, "房市".data]

/-- The value of a `keyword_rules` entry: either a dict with optional
`keywords` and `priority` keys, or a bare keyword list (the two shapes
`_classify_by_keywords` distinguishes with `isinstance(rule_data, dict)`). -/
inductive RuleData where
  | dictData (keywords : Option (List PyStr)) (priority : Option Int)
  | listData (keywords : List PyStr)
deriving Repr, DecidableEq

/-- One entry of the `rules_list` built by `_classify_by_keywords`:
`(category, priority, keywords)` with the dict defaults
`keywords = []`, `priority = 99`. -/
def ruleEntry : PyStr × RuleData → PyStr × Int × List PyStr
  | (cat, .dictData kws pri) => (cat, pri.getD 99, kws.getD [])
  | (cat, .listData kws) => (cat, 99, kws)

/-- The classifier's rule set: the four attributes `Classifier.__init__`
reads from the rules dict (with their defaults already applied). -/
structure ClassifierRules where
  rss_to_target_mapping : List (PyStr × PyStr)
  keyword_rules : List (PyStr × RuleData)
  source_defaults : List (PyStr × PyStr)
  default_category : PyStr
deriving Repr, DecidableEq

/-- Keyword scan within one rule: the first keyword whose lowercase form is
a substring of `text` and whose category is valid returns the category; a
matching keyword of an invalid category is skipped. -/
def kwFind (cat : PyStr) (text : PyStr) : List PyStr → Option PyStr
  | [] => none
  | kw :: rest =>
      if pyIn (pyLower kw) text ∧ cat ∈ VALID_CATEGORIES then some cat
      else kwFind cat text rest

/-- Scan of the sorted rule list, rules in order, keywords in source order. -/
def kwScan (text : PyStr) : List (PyStr × Int × List PyStr) → Option PyStr
  | [] => none
  | (cat, _, kws) :: rest =>
      match kwFind cat text kws with
      | some c => some c
      | none => kwScan text rest

/-- Model of `Classifier._classify_by_keywords`: lowercase
`f"{title} {description}"`, build the `(category, priority, keywords)` list
in dict order, stably sort it ascending by priority, scan. -/
def classify_by_keywords (r : ClassifierRules) (title description : PyStr) :
    Option PyStr :=
  let text := pyLower (title ++ ' ' :: description)
  let rules_list := r.keyword_rules.map ruleEntry
  let sorted := sSort (fun y x => decide (y.2.1 < x.2.1)) rules_list
  kwScan text sorted

/-- The source-default loop of `Classifier.classify`: first pattern that
occurs in the link and maps to a valid category wins; a matching pattern
with an invalid category is skipped. -/
def sourceDefaultScan (link : PyStr) : List (PyStr × PyStr) → Option PyStr
  | [] => none
  | (pat, cat) :: rest =>
      if pyIn pat link ∧ cat ∈ VALID_CATEGORIES then some cat
      else sourceDefaultScan link rest

/-- Model of `Classifier.classify`:非-zh articles return
`article.rss_category or ''`; zh articles run the four-stage cascade
(RSS mapping, keywords, source defaults, fallback). -/
def classify (r : ClassifierRules) (a : NormalizedArticle) : PyStr :=
  if a.language ≠ "zh".data then (if a.rss_category = [] then [] else a.rss_category)
  else
    let laterStages :=
      match classify_by_keywords r a.title (a.description.getD []) with
      | some c => c
      | none =>
          match sourceDefaultScan a.link r.source_defaults with
          | some c => c
          | none => r.default_category
    match dGet? r.rss_to_target_mapping a.rss_category with
    | some mapped => if mapped ∈ VALID_CATEGORIES then mapped else laterStages
    | none => laterStages

/-- Model of `classifier.classify_articles`: zh articles get
`final_category := classify(...)`; every other article gets
`final_category := rss_category`. -/
def classify_articles (articles : List NormalizedArticle)
    (rules : ClassifierRules) : List NormalizedArticle :=
  articles.map (fun a =>
    if a.language = "zh".data then { a with final_category := some (classify rules a) }
    else { a with final_category := some a.rss_category })

/-! ## Selector (src/selector.py) -/

/-- `selector.TAB_CATEGORIES['zh_news']`. -/
def zhCategories : List PyStr :=
  ["頭條新聞".data, "產經".data, "股市".data, "全球國際新聞".data,
   "社會".data, "生活".data, "娛樂".data, "運動".data, "房市".data]

/-- `selector.TAB_CATEGORIES['en_news']`. -/
def enCategories : List PyStr :=
  ["Startup".data, "Tech News".data, "BBC Top Stories".data, "BBC World".data,
   "BBC Business".data, "BBC Education".data, "BBC Technology".data,
   "BBC Health".data, "BBC Science & Environment".data]

/-- `selector.TAB_CATEGORIES['ja_news']`. -/
def jaCategories : List PyStr :=
  ["頭條".data, "國際".data, "政治".data, "運動".data, "商業".data,
   "文化".data, "娛樂".data]

/-- `selector.TAB_CATEGORIES`. -/
def TAB_CATEGORIES : List (PyStr × List PyStr) :=
  [("zh_news".data, zhCategories), ("en_news".data, enCategories),
   ("ja_news".data, jaCategories)]

/-- An `ITEMS_PER_CATEGORY` entry: a tab-wide capacity or a per-category
table (the two shapes `get_items_per_category` distinguishes with
`isinstance(config, dict)`). -/
inductive CapConfig where
  | flat (n : Nat)
  | table (t : List (PyStr × Nat))
deriving Repr, DecidableEq

/-- `selector.ITEMS_PER_CATEGORY`. -/
def ITEMS_PER_CATEGORY : List (PyStr × CapConfig) :=
  [("zh_news".data, .flat 8),
   ("en_news".data, .table
     [("Startup".data, 8), ("Tech News".data, 8), ("BBC Top Stories".data, 6),
      ("BBC World".data, 6), ("BBC Business".data, 6), ("BBC Education".data, 6),
      ("BBC Technology".data, 6), ("BBC Health".data, 6),
      ("BBC Science & Environment".data, 6)])
   , ("ja_news".data, .flat 8)]

/-- Model of `selector.get_items_per_category`:
`ITEMS_PER_CATEGORY.get(tab, 8)`, then a per-category `get(category, 8)`
when the entry is a table. -/
def get_items_per_category (tab category : PyStr) : Nat :=
  match dGet? ITEMS_PER_CATEGORY tab with
  | some (.table t) => (dGet? t category).getD 8
  | some (.flat n) => n
  | none => 8

/-- The legacy alias table of `map_to_display_category` for en_news. -/
def legacy_mapping : List (PyStr × PyStr) :=
  [("Tech".data, "Tech News".data), ("Tech Media".data, "Tech News".data),
   ("BBC".data, "BBC Top Stories".data)]

/-- Model of `selector.map_to_display_category`. -/
def map_to_display_category (a : NormalizedArticle) : PyStr :=
  let rss_cat := a.rss_category
  let final_cat := a.final_category.getD []
  if a.tab = "zh_news".data then
    (if final_cat ∈ zhCategories then final_cat else "頭條新聞".data)
  else if a.tab = "en_news".data then
    (if rss_cat ∈ enCategories then rss_cat
     else (dGet? legacy_mapping rss_cat).getD ("Tech News".data))
  else if a.tab = "ja_news".data then
    (if rss_cat ∈ jaCategories then rss_cat else "頭條".data)
  else rss_cat

/-- The `category_groups` grouping of `select_by_category`: the tab's
articles by display category, articles whose display category is not in the
tab's list dropped. -/
def categoryGroups (tab_id : PyStr) (tab_items : List NormalizedArticle) :
    List (PyStr × List NormalizedArticle) :=
  let categories_order := (dGet? TAB_CATEGORIES tab_id).getD []
  tab_items.foldl
    (fun g a =>
      let dc := map_to_display_category a
      if dc ∈ categories_order then ddAppend g dc a else g) []

/-- The sorted, truncated bucket one category receives in `selectTab`. -/
def categoryBucket (tab_id cat : PyStr) (tab_items : List NormalizedArticle) :
    List NormalizedArticle :=
  (sSort (fun y x => decide (x.published < y.published))
    ((dGet? (categoryGroups tab_id tab_items) cat).getD [])).take
      (get_items_per_category tab_id cat)

/-- The per-tab body of `select_by_category`: for each configured category in
order, its sorted and truncated bucket; empty buckets are omitted. -/
def selectTab (tab_id : PyStr) (tab_items : List NormalizedArticle) :
    List (PyStr × List NormalizedArticle) :=
  ((dGet? TAB_CATEGORIES tab_id).getD []).foldl
    (fun tr cat =>
      let selected := categoryBucket tab_id cat tab_items
      if selected ≠ [] then tr ++ [(cat, selected)] else tr) []

/-- The grouping of articles by `tab` (`tab_articles` in the source). -/
def tabGroups (articles : List NormalizedArticle) :
    List (PyStr × List NormalizedArticle) :=
  articles.foldl (fun m a => ddAppend m a.tab a) []

/-- Model of `selector.select_by_category`: group by tab (insertion order),
skip tabs without configured categories, run `selectTab` per tab, then add
an empty entry for every configured tab that is missing. -/
def select_by_category (articles : List NormalizedArticle) :
    List (PyStr × List (PyStr × List NormalizedArticle)) :=
  let result := (tabGroups articles).foldl
    (fun res p =>
      if (dGet? TAB_CATEGORIES p.1).getD [] = [] then res
      else res ++ [(p.1, selectTab p.1 p.2)]) []
  TAB_CATEGORIES.foldl
    (fun res p => if (dGet? res p.1).isSome then res else res ++ [(p.1, [])])
    result

/-! ## Normalizer (src/normalizer.py) -/

/-- The tag-removal pass `re.sub(r'<[^>]+>', '', text)`: a `<` followed by at
least one non-`>` character and a `>` is removed together with that span;
a `<` with no such closing `>` stays. -/
def stripTagsF : Nat → PyStr → PyStr
  | 0, s => s
  | _ + 1, [] => []
  | fuel + 1, '<' :: rest =>
      match breakAtFirst '>' rest with
      | some (inner, after) =>
          if inner ≠ [] then stripTagsF fuel after
          else '<' :: stripTagsF fuel rest
      | none => '<' :: stripTagsF fuel rest
  | fuel + 1, c :: rest => c :: stripTagsF fuel rest

/-- The fuel (always sufficient at the list's length, since every step
consumes at least one character) makes the scan structurally recursive. -/
def stripTags (s : PyStr) : PyStr := stripTagsF s.length s

/-- Core named entities of `html.unescape`.  The full HTML5 entity table is
data of the html package and is not reproduced; the claims do not depend on
entity decoding. -/
def namedEntities : List (PyStr × Char) :=
  [("amp".data, '&'), ("lt".data, '<'), ("gt".data, '>'),
   ("quot".data, '"'), ("apos".data, '\x27')]

/-- Model of `html.unescape` restricted to `&name;`, `&#digits;` and
`&#xhex;` forms over the core entity table; anything else passes through. -/
def htmlUnescapeF : Nat → PyStr → PyStr
  | 0, s => s
  | _ + 1, [] => []
  | fuel + 1, '&' :: rest =>
      match breakAtFirst ';' rest with
      | some (body, after) =>
          match body with
          | '#' :: 'x' :: ds =>
              if ds ≠ [] ∧ ds.all isHexDig then
                Char.ofNat (ds.foldl (fun n c => 16 * n + hexVal c) 0) ::
                  htmlUnescapeF fuel after
              else '&' :: htmlUnescapeF fuel rest
          | '#' :: ds =>
              if ds ≠ [] ∧ ds.all Char.isDigit then
                Char.ofNat (ds.foldl (fun n c => 10 * n + (c.toNat - 48)) 0) ::
                  htmlUnescapeF fuel after
              else '&' :: htmlUnescapeF fuel rest
          | _ =>
              match dGet? namedEntities body with
              | some c => c :: htmlUnescapeF fuel after
              | none => '&' :: htmlUnescapeF fuel rest
      | none => '&' :: htmlUnescapeF fuel rest
  | fuel + 1, c :: rest => c :: htmlUnescapeF fuel rest

/-- The fuel (always sufficient at the list's length) makes the entity scan
structurally recursive. -/
def htmlUnescape (s : PyStr) : PyStr := htmlUnescapeF s.length s

/-- Model of `normalizer.strip_html`: empty in, empty out; otherwise remove
tags, decode entities, collapse whitespace and trim. -/
def strip_html (text : PyStr) : PyStr :=
  if text = [] then []
  else pyStrip (collapseWs (htmlUnescape (stripTags text)))

/-- A feed entry's `guid`/`id` value: feedparser delivers either a string or
a small mapping (the `isinstance(guid, dict)` branch of `generate_guid`). -/
inductive GuidVal where
  | s (v : PyStr)
  | d (pairs : List (PyStr × PyStr))
deriving Repr, DecidableEq

/-- Python truthiness of a `GuidVal`: a non-empty string or non-empty dict. -/
def GuidVal.truthy : GuidVal → Bool
  | .s v => v ≠ []
  | .d ps => ps ≠ []

/-- Model of `str(dict)` as far as the claims need it: some printing that
starts with a brace, hence is never empty. -/
def pyDictStr (ps : List (PyStr × PyStr)) : PyStr :=
  '\x7b' :: (joinAmp (ps.map (fun p => '\x27' :: p.1 ++ '\x27' :: ':' :: ' ' :: '\x27' :: p.2 ++ ['\x27']))) ++ ['\x7d']

/-- A raw feedparser entry, with the optional fields `normalize_entry` and
its helpers read (`entry.get(...)` on an absent key is `none`). -/
structure RawEntry where
  title : Option PyStr := none
  link : Option PyStr := none
  summary : Option PyStr := none
  guid : Option GuidVal := none
  id : Option GuidVal := none
  published_parsed : Option Int := none
  published : Option PyStr := none
  _source_name : Option PyStr := none
  source_feed_url : Option PyStr := none
deriving Repr, DecidableEq

/-- Lowercase hex digit. -/
def hexDigitLower (n : Nat) : Char :=
  if n < 10 then Char.ofNat (48 + n) else Char.ofNat (87 + n)

/-- Model of `hashlib.md5((title or "").encode()).hexdigest()`: a
deterministic 32-character lowercase hex digest.  The MD5 compression
function is external library code; the model keeps the digest's shape and
determinism (all the claims depend on) over a simple 128-bit rolling hash. -/
def md5_hexdigest (s : PyStr) : PyStr :=
  let h := s.foldl (fun h c => (h * 131 + c.toNat + 17) % (2 ^ 128)) 1
  (List.range 32).map (fun i => hexDigitLower (h / 16 ^ (31 - i) % 16))

/-- The effective raw id: `entry.get('guid', entry.get('id', ''))`. -/
def effectiveGuid (e : RawEntry) : GuidVal :=
  match e.guid with
  | some v => v
  | none => match e.id with
            | some v => v
            | none => .s []

/-- Model of `normalizer.generate_guid`. -/
def generate_guid (e : RawEntry) (link : PyStr) (title : PyStr) : PyStr :=
  let g := effectiveGuid e
  if g.truthy then
    match g with
    | .s v => v
    | .d ps =>
        match dGet? ps ("value".data) with
        | some v => v
        | none => pyDictStr ps
  else if link ≠ [] then link
  else md5_hexdigest title

/-- Model of `normalizer.parse_datetime`.  The structured-time branch is
`published_parsed` already reduced to a UTC timestamp when the
`mktime`/`fromtimestamp` conversion succeeds; `dateparse` stands for
`dateutil.parser.parse` (an external library), `now` for
`datetime.now(timezone.utc)`. -/
def parse_datetime (dateparse : PyStr → Option Int) (now : Int)
    (e : RawEntry) : Int :=
  match e.published_parsed with
  | some t => t
  | none =>
      match e.published with
      | some ds =>
          if ds ≠ [] then (match dateparse ds with | some t => t | none => now)
          else now
      | none => now

/-- Python `str.replace(pat, rep)` for a non-empty `pat` (the only way the
sources call it): replace non-overlapping occurrences left to right. -/
def replaceSub (pat rep : PyStr) : PyStr → PyStr
  | [] => []
  | c :: cs =>
      if pat ≠ [] ∧ pat.isPrefixOf (c :: cs) then
        rep ++ replaceSub pat rep (cs.drop (pat.length - 1))
      else c :: replaceSub pat rep cs
termination_by s => s.length
decreasing_by
  · simp only [List.length_cons, List.length_drop]
    omega
  · simp

/-- ASCII model of Python `str.title()`: an alphabetic character is
uppercased after a non-alphabetic one and lowercased otherwise. -/
def pyTitleGo : Bool → PyStr → PyStr
  | _, [] => []
  | prevAlpha, c :: cs =>
      (if c.isAlpha then (if prevAlpha then c.toLower else c.toUpper) else c) ::
        pyTitleGo c.isAlpha cs

/-- Python `str.title()`. -/
def pyTitle (s : PyStr) : PyStr := pyTitleGo false s

/-- Model of `normalizer.get_source_name` (with its default `""`): the
explicit `_source_name`, else a readable name from the feed URL's domain,
else `"Unknown"`. -/
def get_source_name (e : RawEntry) : PyStr :=
  let sn := (e._source_name).getD []
  if sn ≠ [] then sn
  else
    let feed_url := (e.source_feed_url).getD []
    if feed_url ≠ [] then
      pyTitle ((replaceSub ("feeds.".data) []
        (replaceSub ("www.".data) [] (urlparseM feed_url).netloc)).takeWhile
          (fun c => c != '.'))
    else "Unknown".data

/-- `description[:500].rsplit(' ', 1)[0]`. -/
def rsplitHead (s : PyStr) : PyStr :=
  match breakAtLast ' ' s with
  | some (a, _) => a
  | none => s

/-- Model of `normalizer.normalize_entry`.  `dateparse` and `now` are the
timestamp collaborators of `parse_datetime`. -/
def normalize_entry (dateparse : PyStr → Option Int) (now : Int)
    (e : RawEntry) (tab language rss_category source_name : PyStr) :
    Option NormalizedArticle :=
  let title := strip_html (e.title.getD [])
  if title = [] then none
  else
    let link := normalize_url (e.link.getD [])
    if link = [] then none
    else
      let published := parse_datetime dateparse now e
      let d0 := strip_html (e.summary.getD [])
      let description : Option PyStr :=
        if d0 ≠ [] then
          some (if 500 < d0.length then rsplitHead (d0.take 500) ++ "...".data else d0)
        else none
      let guid := generate_guid e link title
      let final_source_name := if source_name ≠ [] then source_name else get_source_name e
      some { title := title, link := link, published := published,
             source_name := final_source_name, language := language, tab := tab,
             rss_category := rss_category, guid := guid,
             description := description, final_category := none }

/-- A date parser that always fails, used for concrete evaluations. -/
def noParse : PyStr → Option Int := fun _ => none

/-! ## Definitions taken from the claims' wording (for refinement checks) -/

/-- The matching text exactly as claim C1 words it: the lowercase
concatenation of title and description, with no separator.  The code uses
`f"{title} {description}"`, a single space in between; the two are compared
in the C1 theorems. -/
def kwTextLiteral (title description : PyStr) : PyStr :=
  pyLower (title ++ description)

/-- The keyword stage exactly as claim C1 words it: build the
`(category, priority, keywords)` list, stably sort ascending by priority
(source order breaking ties), scan rules in that order and keywords in
source order, return the category of the first keyword whose lowercase form
is a substring of `kwTextLiteral` and whose category is valid. -/
def keywordStageLiteral (r : ClassifierRules) (title description : PyStr) :
    Option PyStr :=
  kwScan (kwTextLiteral title description)
    (sSort (fun y x => decide (y.2.1 < x.2.1)) (r.keyword_rules.map ruleEntry))

/-- Modelled from claim C9's (amended) wording: the guid is the explicit
source-supplied id/guid when present and truthy (for a mapping-valued guid,
its `value` entry, or its string form when there is none), else the
normalized link, else a stable hash of the title. -/
def guid_spec (e : RawEntry) (link title : PyStr) : PyStr :=
  if (effectiveGuid e).truthy then
    match effectiveGuid e with
    | .s v => v
    | .d ps => ((dGet? ps ("value".data)).getD (pyDictStr ps))
  else if link ≠ [] then link
  else md5_hexdigest title

/-! # Theorems

Helper lemmas about the dict and sort models, then one theorem (plus
witness or counterexample) per claim. -/

section DictLemmas

variable {K V : Type} [DecidableEq K]

theorem dGet?_dSet_self (m : List (K × V)) (k : K) (v : V) :
    dGet? (dSet m k v) k = some v := by
  induction m with
  | nil => simp [dSet, dGet?]
  | cons p m ih =>
      obtain ⟨k', v'⟩ := p
      by_cases h : k' = k
      · subst h; simp [dSet, dGet?]
      · simp [dSet, dGet?, h, ih]

theorem dGet?_dSet_ne (m : List (K × V)) {k k2 : K} (v : V) (h : k2 ≠ k) :
    dGet? (dSet m k v) k2 = dGet? m k2 := by
  induction m with
  | nil =>
      simp only [dSet, dGet?]
      rw [if_neg (fun hh => h hh.symm)]
  | cons p m ih =>
      obtain ⟨k', v'⟩ := p
      by_cases hk : k' = k
      · subst hk
        simp only [dSet, if_pos rfl, dGet?]
        rw [if_neg (fun hh => h hh.symm), if_neg (fun hh => h hh.symm)]
      · simp only [dSet, if_neg hk, dGet?]
        split
        · rfl
        · exact ih

theorem dGet?_eq_none_iff (m : List (K × V)) (k : K) :
    dGet? m k = none ↔ k ∉ m.map Prod.fst := by
  induction m with
  | nil => simp [dGet?]
  | cons p m ih =>
      obtain ⟨k', v'⟩ := p
      by_cases h : k' = k
      · subst h; simp [dGet?]
      · simp only [dGet?, if_neg h, List.map_cons, List.mem_cons, ih]
        constructor
        · intro hnm hor
          rcases hor with rfl | hm
          · exact h rfl
          · exact hnm hm
        · intro hno hm
          exact hno (Or.inr hm)

theorem mem_of_dGet? {m : List (K × V)} {k : K} {v : V}
    (h : dGet? m k = some v) : (k, v) ∈ m := by
  induction m with
  | nil => simp [dGet?] at h
  | cons p m ih =>
      obtain ⟨k', v'⟩ := p
      by_cases hk : k' = k
      · subst hk
        have hv : v' = v := by simpa [dGet?] using h
        subst hv
        exact List.mem_cons_self _ _
      · simp only [dGet?, if_neg hk] at h
        exact List.mem_cons_of_mem _ (ih h)

theorem dGet?_of_mem_nodup {m : List (K × V)} {k : K} {v : V}
    (hnd : (m.map Prod.fst).Nodup) (h : (k, v) ∈ m) : dGet? m k = some v := by
  induction m with
  | nil => simp at h
  | cons p m ih =>
      obtain ⟨k', v'⟩ := p
      simp only [List.map_cons, List.nodup_cons] at hnd
      rcases List.mem_cons.mp h with heq | hmem
      · cases heq
        simp [dGet?]
      · have hk : k' ≠ k := by
          rintro rfl
          exact hnd.1 (List.mem_map.mpr ⟨(k', v), hmem, rfl⟩)
        simp only [dGet?, if_neg hk]
        exact ih hnd.2 hmem

theorem dSet_fst_of_mem {m : List (K × V)} {k : K} (v : V)
    (h : k ∈ m.map Prod.fst) :
    (dSet m k v).map Prod.fst = m.map Prod.fst := by
  induction m with
  | nil => simp at h
  | cons p m ih =>
      obtain ⟨k', v'⟩ := p
      by_cases hk : k' = k
      · subst hk; simp [dSet]
      · simp only [List.map_cons, List.mem_cons] at h
        rcases h with h | h
        · exact absurd h.symm hk
        · simp [dSet, hk, ih h]

theorem dSet_fst_of_not_mem {m : List (K × V)} {k : K} (v : V)
    (h : k ∉ m.map Prod.fst) :
    (dSet m k v).map Prod.fst = m.map Prod.fst ++ [k] := by
  induction m with
  | nil => simp [dSet]
  | cons p m ih =>
      obtain ⟨k', v'⟩ := p
      simp only [List.map_cons, List.mem_cons] at h
      push_neg at h
      obtain ⟨h1, h2⟩ := h
      simp only [dSet]
      rw [if_neg (fun hh => h1 hh.symm)]
      simp [ih h2]

theorem mem_dSet {m : List (K × V)} {k : K} {v : V} {p : K × V}
    (h : p ∈ dSet m k v) : p = (k, v) ∨ p ∈ m := by
  induction m with
  | nil => simpa [dSet] using h
  | cons q m ih =>
      obtain ⟨k', v'⟩ := q
      by_cases hk : k' = k
      · subst hk
        have h2 : p = (k', v) ∨ p ∈ m := by simpa [dSet] using h
        rcases h2 with h2 | h2
        · exact Or.inl h2
        · exact Or.inr (List.mem_cons_of_mem _ h2)
      · simp only [dSet, if_neg hk, List.mem_cons] at h
        rcases h with h | h
        · exact Or.inr (List.mem_cons.mpr (Or.inl h))
        · rcases ih h with h | h
          · exact Or.inl h
          · exact Or.inr (List.mem_cons_of_mem _ h)

theorem length_dSet_le (m : List (K × V)) (k : K) (v : V) :
    (dSet m k v).length ≤ m.length + 1 := by
  induction m with
  | nil => simp [dSet]
  | cons p m ih =>
      obtain ⟨k', v'⟩ := p
      by_cases hk : k' = k
      · subst hk; simp [dSet]
      · simp only [dSet, if_neg hk, List.length_cons]
        omega

end DictLemmas

section SortLemmas

variable {α : Type} (lt : α → α → Bool)

theorem mem_sIns {x a : α} {l : List α} :
    a ∈ sIns lt x l ↔ a = x ∨ a ∈ l := by
  induction l with
  | nil => simp [sIns]
  | cons y ys ih =>
      simp only [sIns]
      split
      · simp only [List.mem_cons, ih]
        tauto
      · simp only [List.mem_cons]

theorem mem_sSort {a : α} {l : List α} : a ∈ sSort lt l ↔ a ∈ l := by
  induction l with
  | nil => simp [sSort]
  | cons x xs ih =>
      simp only [sSort, mem_sIns, ih, List.mem_cons]

theorem sIns_pairwise
    (hA : ∀ a b, lt a b = true → lt b a = false)
    (hT : ∀ a b c, lt a b = false → lt b c = false → lt a c = false)
    (x : α) {l : List α} (hl : l.Pairwise (fun a b => lt b a = false)) :
    (sIns lt x l).Pairwise (fun a b => lt b a = false) := by
  induction l with
  | nil => simp [sIns]
  | cons y ys ih =>
      rcases List.pairwise_cons.mp hl with ⟨hy, hys⟩
      simp only [sIns]
      split
      · rename_i hlt
        refine List.pairwise_cons.mpr ⟨?_, ih hys⟩
        intro z hz
        rcases (mem_sIns lt).mp hz with rfl | hz
        · exact hA _ _ hlt
        · exact hy z hz
      · rename_i hlt
        simp only [Bool.not_eq_true] at hlt
        refine List.pairwise_cons.mpr ⟨?_, hl⟩
        intro z hz
        rcases List.mem_cons.mp hz with rfl | hz
        · exact hlt
        · exact hT z y x (hy z hz) hlt

theorem sSort_pairwise
    (hA : ∀ a b, lt a b = true → lt b a = false)
    (hT : ∀ a b c, lt a b = false → lt b c = false → lt a c = false)
    (l : List α) :
    (sSort lt l).Pairwise (fun a b => lt b a = false) := by
  induction l with
  | nil => simp [sSort]
  | cons x xs ih => exact sIns_pairwise lt hA hT x ih

theorem sIns_filter_pos (p : α → Bool) {x : α} (l : List α)
    (hpx : p x = true) (h : ∀ y, p y = true → lt y x = false) :
    (sIns lt x l).filter p = x :: l.filter p := by
  induction l with
  | nil => simp [sIns, hpx]
  | cons y ys ih =>
      simp only [sIns]
      split
      · rename_i hlt
        have hpy : p y = false := by
          cases hy : p y
          · rfl
          · rw [h y hy] at hlt; cases hlt
        simp [List.filter_cons, hpy, ih]
      · simp [List.filter_cons, hpx]

theorem sIns_filter_neg (p : α → Bool) {x : α} (l : List α)
    (hpx : p x = false) :
    (sIns lt x l).filter p = l.filter p := by
  induction l with
  | nil => simp [sIns, hpx]
  | cons y ys ih =>
      simp only [sIns]
      split
      · simp only [List.filter_cons]
        rw [ih]
      · simp [List.filter_cons, hpx]

/-- Stability of the sort model: a class of mutually tied elements (none
stays ahead of another) keeps exactly its input order. -/
theorem sSort_filter (p : α → Bool) (l : List α)
    (h : ∀ x y, p x = true → p y = true → lt y x = false) :
    (sSort lt l).filter p = l.filter p := by
  induction l with
  | nil => simp [sSort]
  | cons x xs ih =>
      simp only [sSort]
      cases hp : p x
      · rw [sIns_filter_neg lt p _ hp, ih, List.filter_cons, hp]
        simp
      · rw [sIns_filter_pos lt p _ hp (fun y hy => h x y hp hy), ih,
          List.filter_cons, hp]
        simp

end SortLemmas

section DedupLemmas

/-- The per-key view of one dedup stage: looking up `g` in the stage's map
replays the latest-wins fold over exactly the input articles whose key is
`g`, in input order. -/
theorem dedupFold_dGet? (key : NormalizedArticle → PyStr)
    (xs : List NormalizedArticle) (m : List (PyStr × NormalizedArticle))
    (g : PyStr) :
    dGet? (dedupFold key m xs) g =
      (xs.filter (fun a => key a == g)).foldl
        (fun o a =>
          match o with
          | none => some a
          | some c => if c.published < a.published then some a else some c)
        (dGet? m g) := by
  induction xs generalizing m with
  | nil => simp [dedupFold]
  | cons a xs ih =>
      have step : dedupFold key m (a :: xs) = dedupFold key (dedupStep key m a) xs := rfl
      rw [step, ih]
      by_cases hg : key a = g
      · have hfc : (a :: xs).filter (fun a => key a == g) =
            a :: xs.filter (fun a => key a == g) := by
          simp [List.filter_cons, hg]
        rw [hfc, List.foldl_cons]
        congr 1
        unfold dedupStep
        rw [hg]
        cases hm : dGet? m g with
        | none => simp [hm, dGet?_dSet_self]
        | some cur =>
            simp only [hm]
            split
            · rw [dGet?_dSet_self]
            · exact hm
      · have hfc : (a :: xs).filter (fun a => key a == g) =
            xs.filter (fun a => key a == g) := by
          simp [List.filter_cons, hg]
        rw [hfc]
        congr 1
        unfold dedupStep
        cases hm : dGet? m (key a) with
        | none =>
            simp only [hm]
            rw [dGet?_dSet_ne _ _ (fun hh => hg hh.symm)]
        | some cur =>
            simp only [hm]
            split
            · rw [dGet?_dSet_ne _ _ (fun hh => hg hh.symm)]
            · rfl

/-- Every entry of a dedup stage's map stores an article under its own key. -/
theorem dedupFold_coh (key : NormalizedArticle → PyStr)
    (xs : List NormalizedArticle) (m : List (PyStr × NormalizedArticle))
    (hm : ∀ p ∈ m, key p.2 = p.1) :
    ∀ p ∈ dedupFold key m xs, key p.2 = p.1 := by
  induction xs generalizing m with
  | nil => exact hm
  | cons a xs ih =>
      refine ih (dedupStep key m a) ?_
      intro p hp
      unfold dedupStep at hp
      have hdset : ∀ q, q ∈ dSet m (key a) a → key q.2 = q.1 := by
        intro q hq
        rcases mem_dSet hq with rfl | hq
        · rfl
        · exact hm q hq
      cases hmm : dGet? m (key a) with
      | none =>
          rw [hmm] at hp
          exact hdset p hp
      | some cur =>
          rw [hmm] at hp
          simp only at hp
          split at hp
          · exact hdset p hp
          · exact hm p hp

/-- A dedup stage's map has pairwise-distinct keys. -/
theorem dedupFold_fst_nodup (key : NormalizedArticle → PyStr)
    (xs : List NormalizedArticle) (m : List (PyStr × NormalizedArticle))
    (hm : (m.map Prod.fst).Nodup) :
    ((dedupFold key m xs).map Prod.fst).Nodup := by
  induction xs generalizing m with
  | nil => exact hm
  | cons a xs ih =>
      refine ih (dedupStep key m a) ?_
      unfold dedupStep
      rcases hmm : dGet? m (key a) with _ | cur
      · have hnot : key a ∉ m.map Prod.fst := (dGet?_eq_none_iff m (key a)).mp hmm
        rw [dSet_fst_of_not_mem _ hnot]
        rw [List.nodup_append]
        refine ⟨hm, List.nodup_singleton _, ?_⟩
        intro x hx hxk
        rw [List.mem_singleton] at hxk
        exact hnot (hxk ▸ hx)
      · have hin : key a ∈ m.map Prod.fst := by
          by_contra hno
          rw [← dGet?_eq_none_iff] at hno
          rw [hmm] at hno
          cases hno
        simp only
        split
        · rw [dSet_fst_of_mem _ hin]; exact hm
        · exact hm

/-- Each dedup stage emits at most one article per key. -/
theorem dedupStage_pairwise_key (key : NormalizedArticle → PyStr)
    (xs : List NormalizedArticle) :
    (dedupStage key xs).Pairwise (fun a b => key a ≠ key b) := by
  have hnd := dedupFold_fst_nodup key xs [] (by simp)
  have hcoh := dedupFold_coh key xs [] (by simp)
  have hpair : (dedupFold key [] xs).Pairwise (fun p q => p.1 ≠ q.1) := by
    rw [List.Nodup, List.pairwise_map] at hnd
    exact hnd
  have hpair2 : (dedupFold key [] xs).Pairwise
      (fun p q => key p.2 ≠ key q.2) := by
    refine List.Pairwise.imp_of_mem ?_ hpair
    intro p q hp hq hne
    rw [hcoh p hp, hcoh q hq]
    exact hne
  unfold dedupStage
  rw [List.pairwise_map]
  exact hpair2

theorem dedupFold_length_le (key : NormalizedArticle → PyStr)
    (xs : List NormalizedArticle) (m : List (PyStr × NormalizedArticle)) :
    (dedupFold key m xs).length ≤ m.length + xs.length := by
  induction xs generalizing m with
  | nil => simp [dedupFold]
  | cons a xs ih =>
      have step : dedupFold key m (a :: xs) = dedupFold key (dedupStep key m a) xs := rfl
      rw [step]
      have hstep : (dedupStep key m a).length ≤ m.length + 1 := by
        unfold dedupStep
        rcases dGet? m (key a) with _ | cur
        · exact length_dSet_le m _ a
        · simp only
          split
          · exact length_dSet_le m _ a
          · omega
      calc (dedupFold key (dedupStep key m a) xs).length
          ≤ (dedupStep key m a).length + xs.length := ih _
        _ ≤ m.length + 1 + xs.length := by omega
        _ = m.length + (a :: xs).length := by simp; omega

theorem dedupStage_length_le (key : NormalizedArticle → PyStr)
    (xs : List NormalizedArticle) :
    (dedupStage key xs).length ≤ xs.length := by
  unfold dedupStage
  rw [List.length_map]
  simpa using dedupFold_length_le key xs []

end DedupLemmas

/-- C2: for an input whose records with guid `g` are exactly `r1` then `r2`,
the stage-1 survivor for `g` is `r2` when `r2` was published strictly later,
and `r1` otherwise — in particular the strictly later record wins when the
timestamps differ, and the first-seen record wins deterministically on an
exact tie. -/
theorem dedup_stage1_latest_wins (xs : List NormalizedArticle) (g : PyStr)
    (r1 r2 : NormalizedArticle)
    (hfil : xs.filter (fun a => a.guid == g) = [r1, r2]) :
    (if r1.published < r2.published then r2 else r1) ∈ dedupStage guidKey xs ∧
    (∀ a ∈ dedupStage guidKey xs, a.guid = g →
      a = (if r1.published < r2.published then r2 else r1)) ∧
    (r1.published ≠ r2.published →
      (if r1.published < r2.published then r2 else r1).published =
        max r1.published r2.published) ∧
    (r1.published = r2.published →
      (if r1.published < r2.published then r2 else r1) = r1) := by
  have hkey : ∀ a : NormalizedArticle, guidKey a = a.guid := fun _ => rfl
  have hlook : dGet? (dedupFold guidKey [] xs) g =
      some (if r1.published < r2.published then r2 else r1) := by
    rw [dedupFold_dGet? guidKey xs [] g]
    have : xs.filter (fun a => guidKey a == g) = [r1, r2] := by
      simpa [guidKey] using hfil
    rw [this]
    simp only [List.foldl_cons, List.foldl_nil, dGet?]
    split
    · rfl
    · rfl
  refine ⟨?_, ?_, ?_, ?_⟩
  · have hmem := mem_of_dGet? hlook
    exact List.mem_map.mpr ⟨_, hmem, rfl⟩
  · intro a ha hag
    rcases List.mem_map.mp ha with ⟨p, hp, hpa⟩
    have hcoh := dedupFold_coh guidKey xs [] (by simp) p hp
    have hnd := dedupFold_fst_nodup guidKey xs [] (by simp)
    have hthis : dGet? (dedupFold guidKey [] xs) p.1 = some p.2 :=
      dGet?_of_mem_nodup hnd (by simpa using hp)
    have hp1 : p.1 = g := by
      rw [← hcoh, hpa, hkey, hag]
    rw [hp1, hpa] at hthis
    have h2 : some a = some (if r1.published < r2.published then r2 else r1) := by
      rw [← hthis, hlook]
    exact Option.some_inj.mp h2
  · intro hne
    split
    · rename_i hlt
      omega
    · rename_i hlt
      omega
  · intro heq
    split
    · rename_i hlt
      omega
    · rfl

/-- C2 witness: two concrete records with the same guid and different
timestamps; the later one is the unique stage-1 survivor for that guid. -/
theorem dedup_stage1_latest_wins_witness :
    ([⟨"t1".data, "l1".data, 5, [], "zh".data, [], [], "G".data, none, none⟩,
      ⟨"t2".data, "l2".data, 7, [], "zh".data, [], [], "G".data, none, none⟩] :
        List NormalizedArticle).filter (fun a => a.guid == "G".data) =
      [⟨"t1".data, "l1".data, 5, [], "zh".data, [], [], "G".data, none, none⟩,
       ⟨"t2".data, "l2".data, 7, [], "zh".data, [], [], "G".data, none, none⟩] ∧
    (⟨"t2".data, "l2".data, 7, [], "zh".data, [], [], "G".data, none, none⟩ :
        NormalizedArticle) ∈
      dedupStage guidKey
        [⟨"t1".data, "l1".data, 5, [], "zh".data, [], [], "G".data, none, none⟩,
         ⟨"t2".data, "l2".data, 7, [], "zh".data, [], [], "G".data, none, none⟩] := by
  refine ⟨by decide, ?_⟩
  have h := dedup_stage1_latest_wins
    [⟨"t1".data, "l1".data, 5, [], "zh".data, [], [], "G".data, none, none⟩,
     ⟨"t2".data, "l2".data, 7, [], "zh".data, [], [], "G".data, none, none⟩]
    ("G".data)
    ⟨"t1".data, "l1".data, 5, [], "zh".data, [], [], "G".data, none, none⟩
    ⟨"t2".data, "l2".data, 7, [], "zh".data, [], [], "G".data, none, none⟩
    (by decide)
  have h1 := h.1
  simpa using h1

/-- C7: deduplication never grows the input (each stage included), the empty
input yields the empty output, stage-1 survivors have pairwise-distinct
guids, and stage-2 survivors have pairwise-distinct normalized links. -/
theorem dedup_monotone_unique (xs : List NormalizedArticle) :
    (deduplicate xs).length ≤ xs.length ∧
    deduplicate [] = [] ∧
    (dedupStage guidKey xs).Pairwise (fun a b => a.guid ≠ b.guid) ∧
    (dedupStage urlKey (dedupStage guidKey xs)).Pairwise
      (fun a b => normalize_url a.link ≠ normalize_url b.link) := by
  refine ⟨?_, rfl, ?_, ?_⟩
  · unfold deduplicate
    split
    · simp
    · calc (dedupStage titleSourceKey
            (dedupStage urlKey (dedupStage guidKey xs))).length
          ≤ (dedupStage urlKey (dedupStage guidKey xs)).length :=
            dedupStage_length_le _ _
        _ ≤ (dedupStage guidKey xs).length := dedupStage_length_le _ _
        _ ≤ xs.length := dedupStage_length_le _ _
  · exact dedupStage_pairwise_key guidKey xs
  · exact dedupStage_pairwise_key urlKey _

section ClassifierLemmas

theorem kwFind_eq {cat text : PyStr} {kws : List PyStr} {c : PyStr}
    (h : kwFind cat text kws = some c) :
    c = cat ∧ cat ∈ VALID_CATEGORIES := by
  induction kws with
  | nil => simp [kwFind] at h
  | cons kw rest ih =>
      simp only [kwFind] at h
      split at h
      · rename_i hc
        cases h
        exact ⟨rfl, hc.2⟩
      · exact ih h

theorem kwScan_valid {text : PyStr} {rl : List (PyStr × Int × List PyStr)}
    {c : PyStr} (h : kwScan text rl = some c) : c ∈ VALID_CATEGORIES := by
  induction rl with
  | nil => simp [kwScan] at h
  | cons e rest ih =>
      obtain ⟨cat, pri, kws⟩ := e
      simp only [kwScan] at h
      cases hf : kwFind cat text kws with
      | none => rw [hf] at h; exact ih h
      | some c2 =>
          rw [hf] at h
          cases h
          rcases kwFind_eq hf with ⟨rfl, hv⟩
          exact hv

theorem sourceDefaultScan_valid {link : PyStr} {sd : List (PyStr × PyStr)}
    {c : PyStr} (h : sourceDefaultScan link sd = some c) :
    c ∈ VALID_CATEGORIES := by
  induction sd with
  | nil => simp [sourceDefaultScan] at h
  | cons e rest ih =>
      obtain ⟨pat, cat⟩ := e
      simp only [sourceDefaultScan] at h
      split at h
      · rename_i hc
        cases h
        exact hc.2
      · exact ih h

/-- For a zh article that the RSS-mapping stage does not settle, `classify`
is the keyword stage's match when there is one, else the source-default
match when there is one, else the configured default. -/
theorem classify_zh_eq (r : ClassifierRules) (a : NormalizedArticle)
    (hzh : a.language = "zh".data)
    (hmiss : ∀ m, dGet? r.rss_to_target_mapping a.rss_category = some m →
      m ∉ VALID_CATEGORIES) :
    classify r a =
      match classify_by_keywords r a.title (a.description.getD []) with
      | some c => c
      | none =>
          match sourceDefaultScan a.link r.source_defaults with
          | some c => c
          | none => r.default_category := by
  unfold classify
  rw [if_neg (by simp [hzh])]
  cases hm : dGet? r.rss_to_target_mapping a.rss_category with
  | none => rfl
  | some m =>
      simp only
      rw [if_neg (hmiss m hm)]

end ClassifierLemmas

/-- C1 (amended: the matching text is the lowercase of title and description
joined by a single space, as the code's `f"{title} {description}"` builds
it): for every zh article not settled by the RSS-mapping stage, the keyword
stage scans the stably priority-sorted `(category, priority, keywords)` list
over that text; a keyword-stage match is valid and is returned in preference
to the source-default and fallback stages; the scanned list is ascending in
priority, ties keeping source order; and with a priority-1 and a priority-2
rule both matching, the priority-1 category is returned. -/
theorem classifier_keyword_stage (r : ClassifierRules) (a : NormalizedArticle)
    (hzh : a.language = "zh".data)
    (hmiss : ∀ m, dGet? r.rss_to_target_mapping a.rss_category = some m →
      m ∉ VALID_CATEGORIES) :
    (classify_by_keywords r a.title (a.description.getD []) =
      kwScan (pyLower (a.title ++ ' ' :: a.description.getD []))
        (sSort (fun y x => decide (y.2.1 < x.2.1)) (r.keyword_rules.map ruleEntry))) ∧
    (∀ c, classify_by_keywords r a.title (a.description.getD []) = some c →
      classify r a = c ∧ c ∈ VALID_CATEGORIES) ∧
    (classify_by_keywords r a.title (a.description.getD []) = none →
      classify r a =
        (match sourceDefaultScan a.link r.source_defaults with
         | some c => c
         | none => r.default_category)) ∧
    ((sSort (fun y x => decide (y.2.1 < x.2.1))
        (r.keyword_rules.map ruleEntry)).Pairwise (fun x y => x.2.1 ≤ y.2.1)) ∧
    (∀ p : Int,
      (sSort (fun y x => decide (y.2.1 < x.2.1))
          (r.keyword_rules.map ruleEntry)).filter (fun e => e.2.1 == p) =
        (r.keyword_rules.map ruleEntry).filter (fun e => e.2.1 == p)) ∧
    (∀ c1 c2 kw1 kw2 d1 d2,
      r.keyword_rules = [(c2, d2), (c1, d1)] →
      ruleEntry (c1, d1) = (c1, 1, [kw1]) →
      ruleEntry (c2, d2) = (c2, 2, [kw2]) →
      pyIn (pyLower kw1) (pyLower (a.title ++ ' ' :: a.description.getD [])) = true →
      pyIn (pyLower kw2) (pyLower (a.title ++ ' ' :: a.description.getD [])) = true →
      c1 ∈ VALID_CATEGORIES →
      classify r a = c1) := by
  refine ⟨rfl, ?_, ?_, ?_, ?_, ?_⟩
  · intro c hc
    refine ⟨?_, kwScan_valid (by simpa [classify_by_keywords] using hc)⟩
    rw [classify_zh_eq r a hzh hmiss, hc]
  · intro hc
    rw [classify_zh_eq r a hzh hmiss, hc]
  · have := sSort_pairwise (fun y x => decide (y.2.1 < x.2.1))
      (by intro a b h; simp at h ⊢; omega)
      (by intro a b c h1 h2; simp at h1 h2 ⊢; omega)
      (r.keyword_rules.map ruleEntry)
    refine this.imp ?_
    intro x y h
    simp at h
    omega
  · intro p
    refine sSort_filter _ _ _ ?_
    intro x y hx hy
    simp only [beq_iff_eq] at hx hy
    simp [hx, hy]
  · intro c1 c2 kw1 kw2 d1 d2 hr h1 h2 hk1 hk2 hv
    rw [classify_zh_eq r a hzh hmiss]
    have : classify_by_keywords r a.title (a.description.getD []) = some c1 := by
      unfold classify_by_keywords
      rw [hr]
      simp only [List.map_cons, List.map_nil, h1, h2]
      have hsort : sSort (fun y x => decide (y.2.1 < x.2.1))
          [(c2, (2 : Int), [kw2]), (c1, (1 : Int), [kw1])] =
          [(c1, (1 : Int), [kw1]), (c2, (2 : Int), [kw2])] := by
        simp [sSort, sIns]
      rw [hsort]
      simp only [kwScan, kwFind]
      rw [if_pos ⟨hk1, hv⟩]
    rw [this]

/-- C1 counterexample: one keyword rule, priority 1, keyword 股市 mapped to
the valid category 股市; a zh article with title 股 and description 市 and no
RSS mapping.  The keyword's lowercase form is a substring of the lowercase
concatenation of title and description (the claim's matching text), so the
claim as stated requires the keyword stage to settle on 股市 — but the code
matches against `f"{title} {description}"` (a space in between), finds
nothing, and falls through to the fallback 頭條新聞. -/
theorem classifier_keyword_stage_cx :
    keywordStageLiteral
      ⟨[], [("股市".data, RuleData.dictData (some ["股市".data]) (some 1))],
       [], "頭條新聞".data⟩ ("股".data) ("市".data) = some ("股市".data) ∧
    classify
      ⟨[], [("股市".data, RuleData.dictData (some ["股市".data]) (some 1))],
       [], "頭條新聞".data⟩
      ⟨"股".data, "http://x/a".data, 0, [], "zh".data, [], [], "g".data,
       some ("市".data), none⟩ = "頭條新聞".data ∧
    ("頭條新聞".data : PyStr) ≠ "股市".data := by
  refine ⟨by decide, by decide, by decide⟩

/-- C1 witness: two keyword rules in source order priority 2 then priority 1,
both matching the article's text; the theorem applied at this input returns
the priority-1 category 股市. -/
theorem classifier_keyword_stage_witness :
    classify
      ⟨[], [("產經".data, RuleData.dictData (some ["漲".data]) (some 2)),
            ("股市".data, RuleData.dictData (some ["股市".data]) (some 1))],
       [], "頭條新聞".data⟩
      ⟨"股市大漲".data, "http://x/a".data, 0, [], "zh".data, [], [],
       "g".data, none, none⟩ = "股市".data := by
  have h := classifier_keyword_stage
    ⟨[], [("產經".data, RuleData.dictData (some ["漲".data]) (some 2)),
          ("股市".data, RuleData.dictData (some ["股市".data]) (some 1))],
     [], "頭條新聞".data⟩
    ⟨"股市大漲".data, "http://x/a".data, 0, [], "zh".data, [], [],
     "g".data, none, none⟩
    (by decide) (by intro m hm; simp [dGet?] at hm)
  exact h.2.2.2.2.2 ("股市".data) ("產經".data) ("股市".data) ("漲".data) _ _
    rfl (by decide) (by decide) (by decide) (by decide) (by decide)

/-- A zh cascade tail (keyword stage, then source defaults, then fallback)
only produces valid categories when the fallback is valid. -/
theorem classify_later_valid (r : ClassifierRules) (a : NormalizedArticle)
    (hdef : r.default_category ∈ VALID_CATEGORIES) :
    (match classify_by_keywords r a.title (a.description.getD []) with
     | some c => c
     | none =>
         match sourceDefaultScan a.link r.source_defaults with
         | some c => c
         | none => r.default_category) ∈ VALID_CATEGORIES := by
  cases hk : classify_by_keywords r a.title (a.description.getD []) with
  | some c =>
      unfold classify_by_keywords at hk
      exact kwScan_valid hk
  | none =>
      simp only
      cases hs : sourceDefaultScan a.link r.source_defaults with
      | some c => exact sourceDefaultScan_valid hs
      | none => exact hdef

/-- C4 (amended: for the zh closure, provided the configured
`default_category` is itself one of the nine valid categories, which the
spec requires of the caller but the code does not enforce): the classifier's
output for a zh article is a member of the fixed nine-element valid set, a
non-zh article's output is its `rss_category` unchanged, and any rule or
mapping producing a value outside the valid set is skipped (the cascade
continues), which the validity of every stage's possible answer witnesses. -/
theorem classifier_category_closure (r : ClassifierRules)
    (a : NormalizedArticle) :
    (a.language = "zh".data → r.default_category ∈ VALID_CATEGORIES →
      classify r a ∈ VALID_CATEGORIES) ∧
    (a.language ≠ "zh".data → classify r a = a.rss_category) := by
  constructor
  · intro hzh hdef
    unfold classify
    rw [if_neg (by simp [hzh])]
    cases hm : dGet? r.rss_to_target_mapping a.rss_category with
    | some m =>
        simp only
        split
        · assumption
        · exact classify_later_valid r a hdef
    | none => exact classify_later_valid r a hdef
  · intro hne
    unfold classify
    rw [if_pos hne]
    split
    · rename_i hrss
      rw [hrss]
    · rfl

/-- C4 counterexample: with a configured `default_category` outside the
valid set ("X"), a zh article matching no stage is classified "X", which is
not one of the nine valid categories — the claim's closure fails for this
rule set. -/
theorem classifier_category_closure_cx :
    classify ⟨[], [], [], "X".data⟩
      ⟨"t".data, "http://x/a".data, 0, [], "zh".data, [], [], "g".data,
       none, none⟩ = "X".data ∧
    ("X".data : PyStr) ∉ VALID_CATEGORIES ∧
    ("zh".data : PyStr) = "zh".data := by
  refine ⟨by decide, by decide, rfl⟩

/-- C4 witness: the theorem applied at a zh article with a valid default
(yielding a valid category) and at an en article (yielding its
`rss_category`). -/
theorem classifier_category_closure_witness :
    classify ⟨[], [], [], "頭條新聞".data⟩
      ⟨"t".data, "http://x/a".data, 0, [], "zh".data, [], [], "g".data,
       none, none⟩ ∈ VALID_CATEGORIES ∧
    classify ⟨[], [], [], "頭條新聞".data⟩
      ⟨"t".data, "http://x/a".data, 0, [], "en".data, [], "Tech".data,
       "g".data, none, none⟩ = "Tech".data := by
  constructor
  · exact (classifier_category_closure ⟨[], [], [], "頭條新聞".data⟩
      ⟨"t".data, "http://x/a".data, 0, [], "zh".data, [], [], "g".data,
       none, none⟩).1 rfl (by decide)
  · exact (classifier_category_closure ⟨[], [], [], "頭條新聞".data⟩
      ⟨"t".data, "http://x/a".data, 0, [], "en".data, [], "Tech".data,
       "g".data, none, none⟩).2 (by decide)

/-- C8 (amended: `classify_articles` writes `finalCategory` on every
article, exactly once — zh articles get the cascade's answer, every other
language gets its `rssCategory` copied into `finalCategory` (reused as the
display category downstream); all other fields pass through unchanged). -/
theorem classify_articles_frame (articles : List NormalizedArticle)
    (rules : ClassifierRules) :
    classify_articles articles rules =
      articles.map (fun a =>
        { a with final_category := some (if a.language = "zh".data then classify rules a else a.rss_category) }) ∧
    (classify_articles articles rules).map
        (fun a => (a.title, a.link, a.published, a.source_name, a.language,
                   a.tab, a.rss_category, a.guid, a.description)) =
      articles.map
        (fun a => (a.title, a.link, a.published, a.source_name, a.language,
                   a.tab, a.rss_category, a.guid, a.description)) := by
  have h1 : classify_articles articles rules =
      articles.map (fun a =>
        { a with final_category := some (if a.language = "zh".data then classify rules a else a.rss_category) }) := by
    unfold classify_articles
    induction articles with
    | nil => rfl
    | cons a rest ih =>
        simp only [List.map_cons, ih]
        congr 1
        by_cases h : a.language = "zh".data
        · rw [if_pos h, if_pos h]
        · rw [if_neg h, if_neg h]
  refine ⟨h1, ?_⟩
  rw [h1, List.map_map]
  rfl

/-- C8 counterexample: a single en-language article with `finalCategory`
unset does not pass through classification unchanged — its `finalCategory`
is overwritten with its `rssCategory`, so the claim's zh-only-mutation
reading fails. -/
theorem classify_articles_frame_cx :
    classify_articles
      [⟨"t".data, "http://x/a".data, 0, [], "en".data, [], "Tech".data,
        "g".data, none, none⟩]
      ⟨[], [], [], "頭條新聞".data⟩ ≠
      [⟨"t".data, "http://x/a".data, 0, [], "en".data, [], "Tech".data,
        "g".data, none, none⟩] := by
  decide

section SelectorLemmas

variable {K V : Type} [DecidableEq K]

theorem dGet?_ddAppend_self (m : List (K × List V)) (k : K) (v : V) :
    (dGet? (ddAppend m k v) k).getD [] = (dGet? m k).getD [] ++ [v] := by
  induction m with
  | nil => simp [ddAppend, dGet?]
  | cons p m ih =>
      obtain ⟨k', vs⟩ := p
      by_cases hk : k' = k
      · subst hk; simp [ddAppend, dGet?]
      · simp only [ddAppend, if_neg hk, dGet?]
        exact ih

theorem dGet?_ddAppend_ne (m : List (K × List V)) {k k2 : K} (v : V)
    (h : k2 ≠ k) : dGet? (ddAppend m k v) k2 = dGet? m k2 := by
  induction m with
  | nil =>
      simp only [ddAppend, dGet?]
      rw [if_neg (fun hh => h hh.symm)]
  | cons p m ih =>
      obtain ⟨k', vs⟩ := p
      by_cases hk : k' = k
      · subst hk
        simp only [ddAppend, if_pos rfl, dGet?]
        rw [if_neg (fun hh => h hh.symm), if_neg (fun hh => h hh.symm)]
      · simp only [ddAppend, if_neg hk, dGet?]
        split
        · rfl
        · exact ih

theorem ddAppend_fst_of_mem {m : List (K × List V)} {k : K} (v : V)
    (h : k ∈ m.map Prod.fst) :
    (ddAppend m k v).map Prod.fst = m.map Prod.fst := by
  induction m with
  | nil => simp at h
  | cons p m ih =>
      obtain ⟨k', vs⟩ := p
      by_cases hk : k' = k
      · subst hk; simp [ddAppend]
      · simp only [List.map_cons, List.mem_cons] at h
        rcases h with h | h
        · exact absurd h.symm hk
        · simp [ddAppend, hk, ih h]

theorem ddAppend_fst_of_not_mem {m : List (K × List V)} {k : K} (v : V)
    (h : k ∉ m.map Prod.fst) :
    (ddAppend m k v).map Prod.fst = m.map Prod.fst ++ [k] := by
  induction m with
  | nil => simp [ddAppend]
  | cons p m ih =>
      obtain ⟨k', vs⟩ := p
      simp only [List.map_cons, List.mem_cons] at h
      push_neg at h
      obtain ⟨h1, h2⟩ := h
      simp only [ddAppend]
      rw [if_neg (fun hh => h1 hh.symm)]
      simp [ih h2]

end SelectorLemmas

/-- Keys of the tab grouping are pairwise distinct. -/
theorem tabGroups_aux_nodup (xs : List NormalizedArticle)
    (m : List (PyStr × List NormalizedArticle))
    (hm : (m.map Prod.fst).Nodup) :
    ((xs.foldl (fun m a => ddAppend m a.tab a) m).map Prod.fst).Nodup := by
  induction xs generalizing m with
  | nil => exact hm
  | cons a xs ih =>
      rw [List.foldl_cons]
      refine ih (ddAppend m a.tab a) ?_
      by_cases hmem : a.tab ∈ m.map Prod.fst
      · rw [ddAppend_fst_of_mem _ hmem]; exact hm
      · rw [ddAppend_fst_of_not_mem _ hmem]
        rw [List.nodup_append]
        refine ⟨hm, List.nodup_singleton _, ?_⟩
        intro x hx hxk
        rw [List.mem_singleton] at hxk
        exact hmem (hxk ▸ hx)

theorem tabGroups_nodup (xs : List NormalizedArticle) :
    ((tabGroups xs).map Prod.fst).Nodup :=
  tabGroups_aux_nodup xs [] (by simp)

/-- The tab grouping collects, per tab, exactly the articles with that tab,
in input order. -/
theorem tabGroups_aux_getD (xs : List NormalizedArticle)
    (m : List (PyStr × List NormalizedArticle)) (k : PyStr) :
    (dGet? (xs.foldl (fun m a => ddAppend m a.tab a) m) k).getD [] =
      (dGet? m k).getD [] ++ xs.filter (fun a => a.tab == k) := by
  induction xs generalizing m with
  | nil => simp
  | cons a xs ih =>
      rw [List.foldl_cons, ih, List.filter_cons]
      by_cases hk : a.tab = k
      · subst hk
        rw [dGet?_ddAppend_self]
        simp
      · rw [dGet?_ddAppend_ne _ _ (fun hh => hk hh.symm)]
        have hbeq : (a.tab == k) = false := by simp [hk]
        rw [hbeq]
        simp

theorem tabGroups_getD (xs : List NormalizedArticle) (k : PyStr) :
    (dGet? (tabGroups xs) k).getD [] = xs.filter (fun a => a.tab == k) := by
  have := tabGroups_aux_getD xs [] k
  simpa [tabGroups] using this

/-- The category grouping collects, per category, exactly the tab's articles
whose display category is that category and lies in the tab's list, in input
order. -/
theorem categoryGroups_aux_getD (ord : List PyStr)
    (items : List NormalizedArticle)
    (g : List (PyStr × List NormalizedArticle)) (cat : PyStr) :
    (dGet? (items.foldl (fun g a =>
        let dc := map_to_display_category a
        if dc ∈ ord then ddAppend g dc a else g) g) cat).getD [] =
      (dGet? g cat).getD [] ++
        items.filter (fun a =>
          decide (map_to_display_category a ∈ ord) &&
            (map_to_display_category a == cat)) := by
  induction items generalizing g with
  | nil => simp
  | cons a items ih =>
      rw [List.foldl_cons, ih, List.filter_cons]
      by_cases hin : map_to_display_category a ∈ ord
      · simp only [if_pos hin]
        by_cases hc : map_to_display_category a = cat
        · rw [← hc, dGet?_ddAppend_self]
          simp [hin]
        · rw [dGet?_ddAppend_ne _ _ (fun hh => hc hh.symm)]
          have hbeq2 : (map_to_display_category a == cat) = false := by
            simp [hc]
          simp [hbeq2]
      · simp only [if_neg hin]
        have hd : decide (map_to_display_category a ∈ ord) = false := by
          simp [hin]
        simp [hd]

theorem categoryGroups_getD (t : PyStr) (items : List NormalizedArticle)
    (cat : PyStr) :
    (dGet? (categoryGroups t items) cat).getD [] =
      items.filter (fun a =>
        decide (map_to_display_category a ∈ (dGet? TAB_CATEGORIES t).getD []) &&
          (map_to_display_category a == cat)) := by
  have := categoryGroups_aux_getD ((dGet? TAB_CATEGORIES t).getD []) items [] cat
  simpa [categoryGroups] using this

/-- Every bucket `selectTab` emits is the corresponding `categoryBucket` and
is nonempty. -/
theorem selectTab_mem {t : PyStr} {items : List NormalizedArticle}
    {c : PyStr} {bucket : List NormalizedArticle}
    (h : (c, bucket) ∈ selectTab t items) :
    bucket = categoryBucket t c items ∧ bucket ≠ [] := by
  have aux : ∀ (cats : List PyStr)
      (acc : List (PyStr × List NormalizedArticle)),
      (∀ p ∈ acc, p.2 = categoryBucket t p.1 items ∧ p.2 ≠ []) →
      ∀ p ∈ cats.foldl (fun tr cat =>
          let selected := categoryBucket t cat items
          if selected ≠ [] then tr ++ [(cat, selected)] else tr) acc,
        p.2 = categoryBucket t p.1 items ∧ p.2 ≠ [] := by
    intro cats
    induction cats with
    | nil => intro acc hacc p hp; exact hacc p hp
    | cons cat cats ih =>
        intro acc hacc p hp
        rw [List.foldl_cons] at hp
        refine ih _ ?_ p hp
        intro q hq
        simp only at hq
        split at hq
        · rcases List.mem_append.mp hq with hq | hq
          · exact hacc q hq
          · rw [List.mem_singleton] at hq
            subst hq
            refine ⟨rfl, by assumption⟩
        · exact hacc q hq
  have := aux ((dGet? TAB_CATEGORIES t).getD []) [] (by simp) (c, bucket) h
  exact this

/-- Every entry of `select_by_category` is either an added empty tab or the
`selectTab` result for a group of `tabGroups`. -/
theorem select_by_category_mem {arts : List NormalizedArticle}
    {p : PyStr × List (PyStr × List NormalizedArticle)}
    (h : p ∈ select_by_category arts) :
    p.2 = [] ∨ ∃ q ∈ tabGroups arts, p.1 = q.1 ∧ p.2 = selectTab q.1 q.2 := by
  have midaux : ∀ (qs : List (PyStr × List NormalizedArticle)),
      (∀ u ∈ qs, u ∈ tabGroups arts) →
      ∀ (acc : List (PyStr × List (PyStr × List NormalizedArticle))),
      (∀ r ∈ acc, r.2 = [] ∨
        ∃ q ∈ tabGroups arts, r.1 = q.1 ∧ r.2 = selectTab q.1 q.2) →
      ∀ r ∈ qs.foldl (fun res p =>
          if (dGet? TAB_CATEGORIES p.1).getD [] = [] then res
          else res ++ [(p.1, selectTab p.1 p.2)]) acc,
        r.2 = [] ∨ ∃ q ∈ tabGroups arts, r.1 = q.1 ∧ r.2 = selectTab q.1 q.2 := by
    intro qs
    induction qs with
    | nil => intro _ acc hacc r hr; exact hacc r hr
    | cons q qs ih =>
        intro hsub acc hacc r hr
        rw [List.foldl_cons] at hr
        refine ih (fun u hu => hsub u (List.mem_cons_of_mem _ hu)) _ ?_ r hr
        intro s hs
        split at hs
        · exact hacc s hs
        · rcases List.mem_append.mp hs with hs | hs
          · exact hacc s hs
          · rw [List.mem_singleton] at hs
            subst hs
            exact Or.inr ⟨q, hsub q (List.mem_cons_self _ _), rfl, rfl⟩
  have finaux : ∀ (ts : List (PyStr × List PyStr))
      (acc : List (PyStr × List (PyStr × List NormalizedArticle))),
      ∀ r ∈ ts.foldl (fun res p =>
          if (dGet? res p.1).isSome then res else res ++ [(p.1, [])]) acc,
        r ∈ acc ∨ r.2 = [] := by
    intro ts
    induction ts with
    | nil => intro acc r hr; exact Or.inl hr
    | cons u ts ih =>
        intro acc r hr
        rw [List.foldl_cons] at hr
        rcases ih _ r hr with hin | h2
        · split at hin
          · exact Or.inl hin
          · rcases List.mem_append.mp hin with hin | hin
            · exact Or.inl hin
            · rw [List.mem_singleton] at hin
              subst hin
              exact Or.inr rfl
        · exact Or.inr h2
  unfold select_by_category at h
  rcases finaux TAB_CATEGORIES _ p h with hin | h2
  · exact midaux (tabGroups arts) (fun u hu => hu) [] (by simp) p hin
  · exact Or.inl h2

/-- The tab entry a lookup finds is the `selectTab` output over that tab's
own group (or an added empty result). -/
theorem select_tabres {arts : List NormalizedArticle} {t : PyStr}
    {tabres : List (PyStr × List NormalizedArticle)}
    (h : dGet? (select_by_category arts) t = some tabres) :
    tabres = [] ∨ tabres = selectTab t ((dGet? (tabGroups arts) t).getD []) := by
  have hmem := mem_of_dGet? h
  rcases select_by_category_mem hmem with h2 | ⟨q, hq, h1, h2⟩
  · exact Or.inl h2
  · right
    have : dGet? (tabGroups arts) q.1 = some q.2 :=
      dGet?_of_mem_nodup (tabGroups_nodup arts) (by simpa using hq)
    simp only at h1 h2
    rw [h1, this]
    simpa using h2

/-- C5: every category bucket the selector emits respects the configured
capacity of its tab and category (per-category table for en_news, tab-wide
capacity otherwise, default 8). -/
theorem selector_capacity_bound (articles : List NormalizedArticle)
    (tab cat : PyStr) (tabres : List (PyStr × List NormalizedArticle))
    (bucket : List NormalizedArticle)
    (h1 : dGet? (select_by_category articles) tab = some tabres)
    (h2 : dGet? tabres cat = some bucket) :
    bucket.length ≤ get_items_per_category tab cat := by
  rcases select_tabres h1 with rfl | htr
  · simp [dGet?] at h2
  · subst htr
    have hmem := mem_of_dGet? h2
    rcases selectTab_mem hmem with ⟨hb, _⟩
    rw [hb]
    unfold categoryBucket
    rw [List.length_take]
    exact min_le_left _ _

/-- C5 witness: a single zh article lands in its category's bucket, whose
length is within the zh_news capacity. -/
theorem selector_capacity_bound_witness :
    ([⟨"t".data, "http://x/a".data, 0, "S".data, "zh".data, "zh_news".data,
       [], "g".data, none, some ("社會".data)⟩] :
        List NormalizedArticle).length ≤
      get_items_per_category ("zh_news".data) ("社會".data) :=
  selector_capacity_bound
    [⟨"t".data, "http://x/a".data, 0, "S".data, "zh".data, "zh_news".data,
      [], "g".data, none, some ("社會".data)⟩]
    ("zh_news".data) ("社會".data)
    [(("社會".data),
      [⟨"t".data, "http://x/a".data, 0, "S".data, "zh".data, "zh_news".data,
        [], "g".data, none, some ("社會".data)⟩])]
    [⟨"t".data, "http://x/a".data, 0, "S".data, "zh".data, "zh_news".data,
      [], "g".data, none, some ("社會".data)⟩]
    (by decide) (by decide)

/-- C6: within every emitted bucket, `published` is non-increasing, and for
every timestamp the bucket's articles with that exact timestamp form a
prefix of that category group's articles with that timestamp in input order
(the sort is stable; ties are not further broken). -/
theorem selector_ordering (articles : List NormalizedArticle)
    (tab cat : PyStr) (tabres : List (PyStr × List NormalizedArticle))
    (bucket : List NormalizedArticle)
    (h1 : dGet? (select_by_category articles) tab = some tabres)
    (h2 : dGet? tabres cat = some bucket) :
    bucket.Pairwise (fun x y => y.published ≤ x.published) ∧
    ∀ T : Int, ∃ rest,
      ((dGet? (categoryGroups tab ((dGet? (tabGroups articles) tab).getD []))
          cat).getD []).filter (fun a => a.published == T) =
        bucket.filter (fun a => a.published == T) ++ rest := by
  rcases select_tabres h1 with rfl | htr
  · simp [dGet?] at h2
  · subst htr
    have hmem := mem_of_dGet? h2
    rcases selectTab_mem hmem with ⟨hb, _⟩
    constructor
    · have hsorted := sSort_pairwise
        (fun y x => decide (x.published < y.published))
        (by intro a b hab; simp at hab ⊢; omega)
        (by intro a b c hab hbc; simp at hab hbc ⊢; omega)
        ((dGet? (categoryGroups tab ((dGet? (tabGroups articles) tab).getD []))
          cat).getD [])
      have himp : (sSort (fun y x => decide (x.published < y.published))
          ((dGet? (categoryGroups tab ((dGet? (tabGroups articles) tab).getD []))
            cat).getD [])).Pairwise (fun x y => y.published ≤ x.published) := by
        refine hsorted.imp ?_
        intro x y hxy
        simp at hxy
        omega
      rw [hb]
      unfold categoryBucket
      exact List.Pairwise.sublist (List.take_sublist _ _) himp
    · intro T
      refine ⟨((sSort (fun y x => decide (x.published < y.published))
          ((dGet? (categoryGroups tab ((dGet? (tabGroups articles) tab).getD []))
            cat).getD [])).drop
              (get_items_per_category tab cat)).filter
                (fun a => a.published == T), ?_⟩
      have hstab := sSort_filter
        (fun y x => decide (x.published < y.published))
        (fun a => a.published == T)
        ((dGet? (categoryGroups tab ((dGet? (tabGroups articles) tab).getD []))
          cat).getD [])
        (by intro x y hx hy; simp at hx hy ⊢; omega)
      rw [hb]
      unfold categoryBucket
      rw [← hstab]
      rw [← List.filter_append, List.take_append_drop]

/-- C6 witness: two articles arriving oldest-first come out newest-first in
the bucket, and the tie-prefix property holds at their timestamps. -/
theorem selector_ordering_witness :
    ([⟨"t2".data, "http://x/b".data, 5, "S".data, "zh".data, "zh_news".data,
       [], "g2".data, none, some ("社會".data)⟩,
      ⟨"t1".data, "http://x/a".data, 1, "S".data, "zh".data, "zh_news".data,
       [], "g1".data, none, some ("社會".data)⟩] :
        List NormalizedArticle).Pairwise (fun x y => y.published ≤ x.published) ∧
    ∀ T : Int, ∃ rest,
      ((dGet? (categoryGroups ("zh_news".data)
          ((dGet? (tabGroups
              [⟨"t1".data, "http://x/a".data, 1, "S".data, "zh".data,
                "zh_news".data, [], "g1".data, none, some ("社會".data)⟩,
               ⟨"t2".data, "http://x/b".data, 5, "S".data, "zh".data,
                "zh_news".data, [], "g2".data, none, some ("社會".data)⟩])
            ("zh_news".data)).getD []))
          ("社會".data)).getD []).filter (fun a => a.published == T) =
        ([⟨"t2".data, "http://x/b".data, 5, "S".data, "zh".data,
           "zh_news".data, [], "g2".data, none, some ("社會".data)⟩,
          ⟨"t1".data, "http://x/a".data, 1, "S".data, "zh".data,
           "zh_news".data, [], "g1".data, none, some ("社會".data)⟩] :
            List NormalizedArticle).filter (fun a => a.published == T) ++ rest :=
  selector_ordering
    [⟨"t1".data, "http://x/a".data, 1, "S".data, "zh".data, "zh_news".data,
      [], "g1".data, none, some ("社會".data)⟩,
     ⟨"t2".data, "http://x/b".data, 5, "S".data, "zh".data, "zh_news".data,
      [], "g2".data, none, some ("社會".data)⟩]
    ("zh_news".data) ("社會".data)
    [(("社會".data),
      [⟨"t2".data, "http://x/b".data, 5, "S".data, "zh".data, "zh_news".data,
        [], "g2".data, none, some ("社會".data)⟩,
       ⟨"t1".data, "http://x/a".data, 1, "S".data, "zh".data, "zh_news".data,
        [], "g1".data, none, some ("社會".data)⟩])]
    [⟨"t2".data, "http://x/b".data, 5, "S".data, "zh".data, "zh_news".data,
      [], "g2".data, none, some ("社會".data)⟩,
     ⟨"t1".data, "http://x/a".data, 1, "S".data, "zh".data, "zh_news".data,
      [], "g1".data, none, some ("社會".data)⟩]
    (by decide) (by decide)

/-- The en_news legacy-alias fallback always lands in the en category list. -/
theorem legacy_mem (rss : PyStr) :
    (dGet? legacy_mapping rss).getD ("Tech News".data) ∈ enCategories := by
  cases hd : dGet? legacy_mapping rss with
  | none => simp only [Option.getD_none]; decide
  | some v =>
      have hv := mem_of_dGet? hd
      simp only [Option.getD_some]
      fin_cases hv <;> decide

/-- C10: for an article on one of the three configured tabs, its resolved
display category is always a member of that tab's configured category list
(every fallback value is itself in the list), so the selector's
category-membership filter never drops such an article: it always lands in
its display category's group. -/
theorem display_category_closed (a : NormalizedArticle)
    (h : a.tab = "zh_news".data ∨ a.tab = "en_news".data ∨
      a.tab = "ja_news".data) :
    map_to_display_category a ∈ (dGet? TAB_CATEGORIES a.tab).getD [] ∧
    ∀ items : List NormalizedArticle, a ∈ items →
      a ∈ (dGet? (categoryGroups a.tab items)
        (map_to_display_category a)).getD [] := by
  have hmem : map_to_display_category a ∈ (dGet? TAB_CATEGORIES a.tab).getD [] := by
    rcases h with h | h | h
    · rw [h]
      unfold map_to_display_category
      rw [h]
      rw [if_pos rfl]
      have htc : (dGet? TAB_CATEGORIES ("zh_news".data)).getD [] = zhCategories := rfl
      rw [htc]
      split
      · assumption
      · decide
    · rw [h]
      unfold map_to_display_category
      rw [h]
      rw [if_neg (by decide), if_pos rfl]
      have htc : (dGet? TAB_CATEGORIES ("en_news".data)).getD [] = enCategories := rfl
      rw [htc]
      split
      · assumption
      · exact legacy_mem a.rss_category
    · rw [h]
      unfold map_to_display_category
      rw [h]
      rw [if_neg (by decide), if_neg (by decide), if_pos rfl]
      have htc : (dGet? TAB_CATEGORIES ("ja_news".data)).getD [] = jaCategories := rfl
      rw [htc]
      split
      · assumption
      · decide
  refine ⟨hmem, ?_⟩
  intro items hitems
  rw [categoryGroups_getD]
  refine List.mem_filter.mpr ⟨hitems, ?_⟩
  simp [hmem]

/-- C10 witness: a zh_news article whose `finalCategory` is not a valid
display category resolves to the default 頭條新聞, stays inside the tab's
category list, and is kept by the grouping filter. -/
theorem display_category_closed_witness :
    map_to_display_category
      ⟨"t".data, "http://x/a".data, 0, "S".data, "zh".data, "zh_news".data,
       [], "g".data, none, some ("garbage".data)⟩ ∈
      (dGet? TAB_CATEGORIES ("zh_news".data)).getD [] ∧
    (⟨"t".data, "http://x/a".data, 0, "S".data, "zh".data, "zh_news".data,
      [], "g".data, none, some ("garbage".data)⟩ : NormalizedArticle) ∈
      (dGet? (categoryGroups ("zh_news".data)
          [⟨"t".data, "http://x/a".data, 0, "S".data, "zh".data,
            "zh_news".data, [], "g".data, none, some ("garbage".data)⟩])
        (map_to_display_category
          ⟨"t".data, "http://x/a".data, 0, "S".data, "zh".data,
           "zh_news".data, [], "g".data, none, some ("garbage".data)⟩)).getD [] := by
  have h := display_category_closed
    ⟨"t".data, "http://x/a".data, 0, "S".data, "zh".data, "zh_news".data,
     [], "g".data, none, some ("garbage".data)⟩
    (Or.inl rfl)
  exact ⟨h.1, h.2 _ (List.mem_singleton.mpr rfl)⟩

/-- The code's guid cascade coincides with the claim's (amended) wording. -/
theorem generate_guid_eq_spec (e : RawEntry) (link title : PyStr) :
    generate_guid e link title = guid_spec e link title := by
  unfold generate_guid guid_spec
  cases hg : effectiveGuid e with
  | s v => rfl
  | d ps =>
      by_cases ht : (GuidVal.d ps).truthy
      · rw [if_pos ht, if_pos ht]
        show (match dGet? ps ("value".data) with
              | some v => v
              | none => pyDictStr ps) =
          (dGet? ps ("value".data)).getD (pyDictStr ps)
        cases dGet? ps ("value".data) with
        | none => rfl
        | some v => rfl
      · rw [if_neg ht, if_neg ht]

/-- C9 (amended: provided any mapping-valued guid/id carries a non-empty
`value` entry): whenever normalization emits a record, its guid follows the
cascade — the explicit source-supplied id/guid when present and truthy (for
a mapping, its `value` entry or its string form), else the normalized link,
else a stable hash of the title — is determined by the entry, link and
title alone, and is non-empty. -/
theorem normalize_entry_guid (dateparse : PyStr → Option Int) (now : Int)
    (e : RawEntry) (tab language rss_category source_name : PyStr)
    (art : NormalizedArticle)
    (hs : normalize_entry dateparse now e tab language rss_category
      source_name = some art)
    (hok : ∀ ps, effectiveGuid e = .d ps → dGet? ps ("value".data) ≠ some []) :
    art.guid = guid_spec e art.link art.title ∧ art.guid ≠ [] := by
  simp only [normalize_entry] at hs
  by_cases h1 : strip_html (e.title.getD []) = []
  · rw [if_pos h1] at hs; cases hs
  · rw [if_neg h1] at hs
    by_cases hlink : normalize_url (e.link.getD []) = []
    · rw [if_pos hlink] at hs; cases hs
    · rw [if_neg hlink] at hs
      have hart := Option.some_inj.mp hs
      subst hart
      simp only
      constructor
      · exact generate_guid_eq_spec e _ _
      · unfold generate_guid
        simp only
        cases hg : effectiveGuid e with
        | s v =>
            by_cases hv : v = []
            · subst hv
              rw [if_neg (by simp [GuidVal.truthy])]
              rw [if_pos hlink]
              exact hlink
            · rw [if_pos (by simp [GuidVal.truthy, hv])]
              exact hv
        | d ps =>
            by_cases hps : ps = []
            · subst hps
              rw [if_neg (by simp [GuidVal.truthy])]
              rw [if_pos hlink]
              exact hlink
            · rw [if_pos (by simp [GuidVal.truthy, hps])]
              show (match dGet? ps ("value".data) with
                    | some v => v
                    | none => pyDictStr ps) ≠ []
              cases hd : dGet? ps ("value".data) with
              | none => simp [pyDictStr]
              | some v =>
                  intro hveq
                  apply hok ps hg
                  rw [hd]
                  simp only at hveq
                  rw [hveq]

/-- C9 counterexample: a raw entry whose source-supplied guid is the
mapping `value ↦ ""` (truthy, since the mapping is non-empty) passes
normalization — title and link are fine — yet the emitted record's guid is
the empty string, refuting the claim's non-emptiness. -/
theorem normalize_entry_guid_cx :
    (normalize_entry noParse 0
      ⟨some ("Title".data), some ("http://x/a".data), none,
       some (GuidVal.d [("value".data, [])]), none, none, none, none, none⟩
      ("zh_news".data) ("zh".data) [] ("S".data)).map
        (fun art => art.guid) = some [] := by
  decide

/-- C9 witness: an entry with an explicit non-empty string guid; the emitted
record's guid follows the amended cascade and is non-empty. -/
theorem normalize_entry_guid_witness :
    (⟨"Title".data, "http://x/a".data, 0, "S".data, "zh".data,
      "zh_news".data, [], "abc".data, none, none⟩ :
        NormalizedArticle).guid =
      guid_spec
        ⟨some ("Title".data), some ("http://x/a".data), none,
         some (GuidVal.s ("abc".data)), none, none, none, none, none⟩
        (⟨"Title".data, "http://x/a".data, 0, "S".data, "zh".data,
          "zh_news".data, [], "abc".data, none, none⟩ :
            NormalizedArticle).link
        (⟨"Title".data, "http://x/a".data, 0, "S".data, "zh".data,
          "zh_news".data, [], "abc".data, none, none⟩ :
            NormalizedArticle).title ∧
    (⟨"Title".data, "http://x/a".data, 0, "S".data, "zh".data,
      "zh_news".data, [], "abc".data, none, none⟩ :
        NormalizedArticle).guid ≠ [] :=
  normalize_entry_guid noParse 0
    ⟨some ("Title".data), some ("http://x/a".data), none,
     some (GuidVal.s ("abc".data)), none, none, none, none, none⟩
    ("zh_news".data) ("zh".data) [] ("S".data)
    ⟨"Title".data, "http://x/a".data, 0, "S".data, "zh".data,
     "zh_news".data, [], "abc".data, none, none⟩
    (by decide)
    (by intro ps hps; simp [effectiveGuid] at hps)

/- ===== C3: idempotence of normalize_url ====================================
The development below establishes the counterexample to the literal claim and
the amended idempotence theorem.  It proceeds in layers: character-class
bridges, structural lemmas for the split scanners, the quote/unquote and
UTF-8 round trips, the query-string round trip, and the reassembly/reparse
lemmas for urlunsplit. -/

/- Chunk 1: character-class bridges and list utilities. -/

theorem toNat_ofNat_valid (n : Nat) (h : n.isValidChar) : (Char.ofNat n).toNat = n := by
  simp [Char.ofNat, h, Char.ofNatAux, Char.toNat, UInt32.toNat]

theorem char_range (c : Char) : c.toNat < 55296 ∨ (57343 < c.toNat ∧ c.toNat < 1114112) :=
  c.valid

theorem isUpper_iff (c : Char) : c.isUpper = true ↔ (65 ≤ c.toNat ∧ c.toNat ≤ 90) := by
  have h1 : ((65:UInt32) ≤ c.val) ↔ (65 ≤ c.toNat) := Iff.rfl
  have h2 : (c.val ≤ (90:UInt32)) ↔ (c.toNat ≤ 90) := Iff.rfl
  rw [Char.isUpper]
  simp only [Bool.and_eq_true, decide_eq_true_eq]
  exact and_congr (ge_iff_le.trans h1) h2

theorem isLower_iff (c : Char) : c.isLower = true ↔ (97 ≤ c.toNat ∧ c.toNat ≤ 122) := by
  have h1 : ((97:UInt32) ≤ c.val) ↔ (97 ≤ c.toNat) := Iff.rfl
  have h2 : (c.val ≤ (122:UInt32)) ↔ (c.toNat ≤ 122) := Iff.rfl
  rw [Char.isLower]
  simp only [Bool.and_eq_true, decide_eq_true_eq]
  exact and_congr (ge_iff_le.trans h1) h2

theorem isDigit_iff (c : Char) : c.isDigit = true ↔ (48 ≤ c.toNat ∧ c.toNat ≤ 57) := by
  have h1 : ((48:UInt32) ≤ c.val) ↔ (48 ≤ c.toNat) := Iff.rfl
  have h2 : (c.val ≤ (57:UInt32)) ↔ (c.toNat ≤ 57) := Iff.rfl
  rw [Char.isDigit]
  simp only [Bool.and_eq_true, decide_eq_true_eq]
  exact and_congr (ge_iff_le.trans h1) h2

theorem char_eq_of_toNat {c d : Char} (h : c.toNat = d.toNat) : c = d := by
  rw [← Char.ofNat_toNat c, ← Char.ofNat_toNat d, h]

theorem char_eq_iff_toNat {c d : Char} : c = d ↔ c.toNat = d.toNat :=
  ⟨fun h => h ▸ rfl, char_eq_of_toNat⟩

theorem isAlpha_iff (c : Char) :
    c.isAlpha = true ↔ ((65 ≤ c.toNat ∧ c.toNat ≤ 90) ∨ (97 ≤ c.toNat ∧ c.toNat ≤ 122)) := by
  rw [Char.isAlpha, Bool.or_eq_true, isUpper_iff, isLower_iff]

theorem char_beq_iff {c d : Char} : (c == d) = true ↔ c.toNat = d.toNat := by
  rw [beq_iff_eq]
  exact char_eq_iff_toNat

theorem toLower_cases (c : Char) :
    (65 ≤ c.toNat ∧ c.toNat ≤ 90 ∧ (Char.toLower c).toNat = c.toNat + 32) ∨
    (¬(65 ≤ c.toNat ∧ c.toNat ≤ 90) ∧ Char.toLower c = c) := by
  by_cases h : c.toNat ≥ 65 ∧ c.toNat ≤ 90
  · left
    refine ⟨h.1, h.2, ?_⟩
    have hv : (c.toNat + 32).isValidChar := Or.inl (by omega)
    rw [show Char.toLower c = Char.ofNat (c.toNat + 32) from by
      simp only [Char.toLower]
      rw [if_pos h]]
    exact toNat_ofNat_valid _ hv
  · right
    refine ⟨h, ?_⟩
    simp only [Char.toLower]
    rw [if_neg h]

theorem toLower_toNat_eq_low {c : Char} {k : Nat} (hk : k < 65) :
    ((Char.toLower c).toNat = k) ↔ (c.toNat = k) := by
  rcases toLower_cases c with ⟨h1, h2, h3⟩ | ⟨h, heq⟩
  · rw [h3]
    omega
  · rw [heq]

theorem toLower_eq_low {c d : Char} (hd : d.toNat < 65) :
    Char.toLower c = d ↔ c = d := by
  rw [char_eq_iff_toNat, char_eq_iff_toNat]
  exact toLower_toNat_eq_low hd

theorem toLower_toLower (c : Char) : Char.toLower (Char.toLower c) = Char.toLower c := by
  rcases toLower_cases c with ⟨h1, h2, h3⟩ | ⟨h, heq⟩
  · rcases toLower_cases (Char.toLower c) with ⟨g1, g2, g3⟩ | ⟨g, geq⟩
    · omega
    · exact geq
  · rw [heq]
    exact heq

theorem pyLower_idem (s : PyStr) : pyLower (pyLower s) = pyLower s := by
  simp only [pyLower, List.map_map]
  exact List.map_congr_left (fun a _ => toLower_toLower a)

theorem isAlpha_toLower (c : Char) : (Char.toLower c).isAlpha = c.isAlpha := by
  rw [Bool.eq_iff_iff, isAlpha_iff, isAlpha_iff]
  rcases toLower_cases c with ⟨h1, h2, h3⟩ | ⟨h, heq⟩
  · rw [h3]
    omega
  · rw [heq]

theorem isDigit_toLower (c : Char) : (Char.toLower c).isDigit = c.isDigit := by
  rw [Bool.eq_iff_iff, isDigit_iff, isDigit_iff]
  rcases toLower_cases c with ⟨h1, h2, h3⟩ | ⟨h, heq⟩
  · rw [h3]
    omega
  · rw [heq]

theorem beq_toLower_low {c d : Char} (hd : d.toNat < 65) :
    (Char.toLower c == d) = (c == d) := by
  rw [Bool.eq_iff_iff, char_beq_iff, char_beq_iff]
  exact toLower_toNat_eq_low hd

theorem isSchemeChar_toLower (c : Char) : isSchemeChar (Char.toLower c) = isSchemeChar c := by
  simp only [isSchemeChar, isAlpha_toLower, isDigit_toLower,
    beq_toLower_low (show ('+' : Char).toNat < 65 from by decide),
    beq_toLower_low (show ('-' : Char).toNat < 65 from by decide),
    beq_toLower_low (show ('.' : Char).toNat < 65 from by decide)]

theorem isNetlocDelim_toLower (c : Char) : isNetlocDelim (Char.toLower c) = isNetlocDelim c := by
  simp only [isNetlocDelim,
    beq_toLower_low (show ('/' : Char).toNat < 65 from by decide),
    beq_toLower_low (show ('?' : Char).toNat < 65 from by decide),
    beq_toLower_low (show ('#' : Char).toNat < 65 from by decide)]

theorem not_mem_pyLower {S : PyStr} {d : Char} (hd : d.toNat < 65) (h : d ∉ S) :
    d ∉ pyLower S := by
  intro hm
  obtain ⟨c, hc, he⟩ := List.mem_map.mp hm
  have : c = d := (toLower_eq_low hd).mp he
  exact h (this ▸ hc)

theorem breakAtFirst_eq {t : Char} {s a b : PyStr}
    (h : breakAtFirst t s = some (a, b)) : s = a ++ t :: b ∧ t ∉ a := by
  induction s generalizing a b with
  | nil => simp [breakAtFirst] at h
  | cons c cs ih =>
      simp only [breakAtFirst] at h
      split at h
      · rename_i hc
        cases h
        subst hc
        simp
      · rename_i hc
        cases hb : breakAtFirst t cs with
        | none => rw [hb] at h; simp at h
        | some p =>
            obtain ⟨p1, p2⟩ := p
            rw [hb] at h
            simp only [Option.map_some', Option.some.injEq, Prod.mk.injEq] at h
            obtain ⟨ha, hbb⟩ := h
            subst ha
            subst hbb
            obtain ⟨h1, h2⟩ := ih hb
            refine ⟨by rw [List.cons_append, ← h1], ?_⟩
            intro hm
            rcases List.mem_cons.mp hm with h3 | h3
            · exact hc h3.symm
            · exact h2 h3

theorem breakAtFirst_append (t : Char) (a b : PyStr) (ha : t ∉ a) :
    breakAtFirst t (a ++ t :: b) = some (a, b) := by
  induction a with
  | nil => simp [breakAtFirst]
  | cons c cs ih =>
      have hc : ¬(c = t) := fun h => ha (by rw [h]; exact List.mem_cons_self t cs)
      simp only [List.cons_append, breakAtFirst, if_neg hc]
      rw [show breakAtFirst t (cs.append (t :: b)) = some (cs, b) from
        ih (fun h => ha (List.mem_cons_of_mem c h))]
      rfl

theorem breakAtFirst_none {t : Char} {s : PyStr} (h : breakAtFirst t s = none) : t ∉ s := by
  induction s with
  | nil => simp
  | cons c cs ih =>
      simp only [breakAtFirst] at h
      split at h
      · simp at h
      · rename_i hc
        cases hb : breakAtFirst t cs with
        | none =>
            intro hm
            rcases List.mem_cons.mp hm with h3 | h3
            · exact hc h3.symm
            · exact ih hb h3
        | some p => rw [hb] at h; simp at h

theorem span_append {p : Char → Bool} (a b : PyStr) (ha : ∀ c ∈ a, p c = true)
    (hb : ∀ x, b.head? = some x → p x = false) :
    (a ++ b).takeWhile p = a ∧ (a ++ b).dropWhile p = b := by
  induction a with
  | nil =>
      simp only [List.nil_append]
      cases b with
      | nil => simp
      | cons x xs =>
          have := hb x rfl
          simp [List.takeWhile_cons, List.dropWhile_cons, this]
  | cons c cs ih =>
      have hc := ha c (List.mem_cons_self c cs)
      obtain ⟨h1, h2⟩ := ih (fun d hd => ha d (List.mem_cons_of_mem c hd))
      simp [List.takeWhile_cons, List.dropWhile_cons, hc, h1, h2]

theorem mem_removeUnsafe {c : Char} {s : PyStr} (h : c ∈ removeUnsafe s) :
    c ∈ s ∧ (c == '\t' || c == '\r' || c == '\n') = false := by
  have := List.mem_filter.mp h
  refine ⟨this.1, ?_⟩
  have h2 := this.2
  simp only [Bool.not_eq_eq_eq_not, Bool.not_true] at h2
  exact h2

theorem mem_of_takeWhile {p : Char → Bool} {c : Char} {s : PyStr}
    (h : c ∈ s.takeWhile p) : c ∈ s :=
  (List.takeWhile_sublist p).mem h

theorem mem_of_dropWhile {p : Char → Bool} {c : Char} {s : PyStr}
    (h : c ∈ s.dropWhile p) : c ∈ s :=
  (List.dropWhile_sublist p).mem h

theorem rstripSlash_front (l : PyStr) : rstripSlash l <+: l := by
  obtain ⟨t, ht⟩ := List.dropWhile_suffix (l := l.reverse) (p := (· == '/'))
  exact ⟨t.reverse, by rw [rstripSlash, ← List.reverse_append, ht, List.reverse_reverse]⟩

theorem prefix_headD {l m : PyStr} (h : l <+: m) (hne : l ≠ []) (x : Char) :
    m.headD x = l.headD x := by
  obtain ⟨t, ht⟩ := h
  cases l with
  | nil => exact absurd rfl hne
  | cons c cs => rw [← ht]; rfl

theorem prefix_take2 {l m : PyStr} (h : l <+: m) (h2 : l.take 2 = ['/', '/']) :
    m.take 2 = ['/', '/'] := by
  obtain ⟨t, ht⟩ := h
  cases l with
  | nil => simp at h2
  | cons a l1 =>
      cases l1 with
      | nil => simp at h2
      | cons b l2 =>
          have h2x : [a, b] = ['/', '/'] := h2
          rw [← ht]
          exact h2x

theorem head_dropWhile {p : Char → Bool} {l : PyStr} {c : Char} {r : PyStr}
    (h : l.dropWhile p = c :: r) : p c = false := by
  induction l with
  | nil => simp [List.dropWhile] at h
  | cons a t ih =>
      rw [List.dropWhile_cons] at h
      split at h
      · exact ih h
      · rename_i hp
        cases h
        simpa using hp
theorem hexVal_hexDigitUpper {x : Nat} (h : x < 16) : hexVal (hexDigitUpper x) = x := by
  interval_cases x <;> decide

theorem isHexDig_hexDigitUpper {x : Nat} (h : x < 16) : isHexDig (hexDigitUpper x) = true := by
  interval_cases x <;> decide

theorem pctDecode_pct (a b : Char) (rest : PyStr) (ha : isHexDig a = true)
    (hb2 : isHexDig b = true) :
    pctDecode ('%' :: a :: b :: rest) = (16 * hexVal a + hexVal b) :: pctDecode rest := by
  simp [pctDecode, ha, hb2]

theorem pctDecode_nonpct (c : Char) (rest : PyStr) (hc : ¬(c = '%')) :
    pctDecode (c :: rest) = utf8Bytes c ++ pctDecode rest :=
  pctDecode.eq_5 c rest hc

theorem utf8Bytes_lt {c : Char} {b : Nat} (hb : b ∈ utf8Bytes c) : b < 256 := by
  have hr := char_range c
  simp only [utf8Bytes] at hb
  split at hb
  · simp only [List.mem_singleton] at hb
    omega
  · split at hb
    · simp only [List.mem_cons, List.not_mem_nil, or_false] at hb
      rcases hb with h | h <;> omega
    · split at hb
      · simp only [List.mem_cons, List.not_mem_nil, or_false] at hb
        rcases hb with h | h | h <;> omega
      · simp only [List.mem_cons, List.not_mem_nil, or_false] at hb
        rcases hb with h | h | h | h <;> omega

theorem pctDecode_pctBytes (bs : List Nat) (rest : PyStr) (hbs : ∀ b ∈ bs, b < 256) :
    pctDecode (bs.flatMap pctByte ++ rest) = bs ++ pctDecode rest := by
  induction bs with
  | nil => simp
  | cons b bs ih =>
      have hb := hbs b (List.mem_cons_self b bs)
      have h16a : b / 16 < 16 := by omega
      have h16b : b % 16 < 16 := by omega
      simp only [List.flatMap_cons, pctByte, List.cons_append, List.append_assoc]
      rw [pctDecode_pct _ _ _ (isHexDig_hexDigitUpper h16a) (isHexDig_hexDigitUpper h16b)]
      rw [hexVal_hexDigitUpper h16a, hexVal_hexDigitUpper h16b]
      simp only [List.nil_append]
      rw [ih (fun x hx => hbs x (List.mem_cons_of_mem b hx))]
      congr 1
      omega
theorem utf8_decode_one (c : Char) (bs : List Nat) (h1 : c.toNat < 128) :
    utf8DecodeReplace (utf8Bytes c ++ bs) = c :: utf8DecodeReplace bs := by
  have he : utf8Bytes c = [c.toNat] := by simp [utf8Bytes, h1]
  rw [he, List.cons_append, List.nil_append, utf8DecodeReplace.eq_def]
  simp only []
  rw [if_pos h1, Char.ofNat_toNat]

theorem utf8_decode_two (c : Char) (bs : List Nat)
    (h1 : ¬ c.toNat < 128) (h2 : c.toNat < 2048) :
    utf8DecodeReplace (utf8Bytes c ++ bs) = c :: utf8DecodeReplace bs := by
  have he : utf8Bytes c = [192 + c.toNat / 64, 128 + c.toNat % 64] := by
    simp only [utf8Bytes]
    rw [if_neg h1, if_pos h2]
  rw [he, List.cons_append, List.cons_append, List.nil_append, utf8DecodeReplace.eq_def]
  simp only []
  rw [if_neg (by omega : ¬(192 + c.toNat / 64 < 128)),
      if_neg (by omega : ¬(192 + c.toNat / 64 < 194)),
      if_pos (by omega : 192 + c.toNat / 64 < 224)]
  rw [if_pos (by simp only [isCont, Bool.and_eq_true, decide_eq_true_eq]; omega : isCont (128 + c.toNat % 64) = true)]
  have : (192 + c.toNat / 64 - 192) * 64 + (128 + c.toNat % 64 - 128) = c.toNat := by omega
  rw [this, Char.ofNat_toNat]
theorem utf8_decode_three (c : Char) (bs : List Nat)
    (h2 : ¬ c.toNat < 2048) (h3 : c.toNat < 65536) :
    utf8DecodeReplace (utf8Bytes c ++ bs) = c :: utf8DecodeReplace bs := by
  have hr := char_range c
  have he : utf8Bytes c = [224 + c.toNat / 4096, 128 + c.toNat / 64 % 64, 128 + c.toNat % 64] := by
    simp only [utf8Bytes]
    rw [if_neg (by omega), if_neg h2, if_pos h3]
  rw [he, List.cons_append, List.cons_append, List.cons_append, List.nil_append,
    utf8DecodeReplace.eq_def]
  simp only []
  rw [if_neg (by omega : ¬(224 + c.toNat / 4096 < 128)),
      if_neg (by omega : ¬(224 + c.toNat / 4096 < 194)),
      if_neg (by omega : ¬(224 + c.toNat / 4096 < 224)),
      if_pos (by omega : 224 + c.toNat / 4096 < 240)]
  have hb2 : (if (224 + c.toNat / 4096) = 224 then
        decide (160 ≤ 128 + c.toNat / 64 % 64) && decide (128 + c.toNat / 64 % 64 ≤ 191)
      else if (224 + c.toNat / 4096) = 237 then
        decide (128 ≤ 128 + c.toNat / 64 % 64) && decide (128 + c.toNat / 64 % 64 ≤ 159)
      else isCont (128 + c.toNat / 64 % 64)) = true := by
    by_cases hk0 : c.toNat / 4096 = 0
    · rw [if_pos (by omega)]
      simp only [Bool.and_eq_true, decide_eq_true_eq]
      omega
    · rw [if_neg (by omega)]
      by_cases hk13 : c.toNat / 4096 = 13
      · rw [if_pos (by omega)]
        simp only [Bool.and_eq_true, decide_eq_true_eq]
        omega
      · rw [if_neg (by omega)]
        simp only [isCont, Bool.and_eq_true, decide_eq_true_eq]
        omega
  rw [if_pos hb2,
    if_pos (by simp only [isCont, Bool.and_eq_true, decide_eq_true_eq]; omega :
      isCont (128 + c.toNat % 64) = true)]
  have hv : (224 + c.toNat / 4096 - 224) * 4096 + (128 + c.toNat / 64 % 64 - 128) * 64 +
      (128 + c.toNat % 64 - 128) = c.toNat := by omega
  rw [hv, Char.ofNat_toNat]

theorem utf8_decode_four (c : Char) (bs : List Nat) (h3 : ¬ c.toNat < 65536) :
    utf8DecodeReplace (utf8Bytes c ++ bs) = c :: utf8DecodeReplace bs := by
  have hr := char_range c
  have he : utf8Bytes c = [240 + c.toNat / 262144, 128 + c.toNat / 4096 % 64,
      128 + c.toNat / 64 % 64, 128 + c.toNat % 64] := by
    simp only [utf8Bytes]
    rw [if_neg (by omega), if_neg (by omega), if_neg h3]
  rw [he, List.cons_append, List.cons_append, List.cons_append, List.cons_append,
    List.nil_append, utf8DecodeReplace.eq_def]
  simp only []
  rw [if_neg (by omega : ¬(240 + c.toNat / 262144 < 128)),
      if_neg (by omega : ¬(240 + c.toNat / 262144 < 194)),
      if_neg (by omega : ¬(240 + c.toNat / 262144 < 224)),
      if_neg (by omega : ¬(240 + c.toNat / 262144 < 240)),
      if_pos (by omega : 240 + c.toNat / 262144 < 245)]
  have hb2 : (if (240 + c.toNat / 262144) = 240 then
        decide (144 ≤ 128 + c.toNat / 4096 % 64) && decide (128 + c.toNat / 4096 % 64 ≤ 191)
      else if (240 + c.toNat / 262144) = 244 then
        decide (128 ≤ 128 + c.toNat / 4096 % 64) && decide (128 + c.toNat / 4096 % 64 ≤ 143)
      else isCont (128 + c.toNat / 4096 % 64)) = true := by
    by_cases hk0 : c.toNat / 262144 = 0
    · rw [if_pos (by omega)]
      simp only [Bool.and_eq_true, decide_eq_true_eq]
      omega
    · rw [if_neg (by omega)]
      by_cases hk4 : c.toNat / 262144 = 4
      · rw [if_pos (by omega)]
        simp only [Bool.and_eq_true, decide_eq_true_eq]
        omega
      · rw [if_neg (by omega)]
        simp only [isCont, Bool.and_eq_true, decide_eq_true_eq]
        omega
  rw [if_pos hb2,
    if_pos (by simp only [isCont, Bool.and_eq_true, decide_eq_true_eq]; omega :
      isCont (128 + c.toNat / 64 % 64) = true),
    if_pos (by simp only [isCont, Bool.and_eq_true, decide_eq_true_eq]; omega :
      isCont (128 + c.toNat % 64) = true)]
  have hv : (240 + c.toNat / 262144 - 240) * 262144 + (128 + c.toNat / 4096 % 64 - 128) * 4096 +
      (128 + c.toNat / 64 % 64 - 128) * 64 + (128 + c.toNat % 64 - 128) = c.toNat := by omega
  rw [hv, Char.ofNat_toNat]
theorem utf8_decode_cons (c : Char) (bs : List Nat) :
    utf8DecodeReplace (utf8Bytes c ++ bs) = c :: utf8DecodeReplace bs := by
  by_cases h1 : c.toNat < 128
  · exact utf8_decode_one c bs h1
  · by_cases h2 : c.toNat < 2048
    · exact utf8_decode_two c bs h1 h2
    · by_cases h3 : c.toNat < 65536
      · exact utf8_decode_three c bs h2 h3
      · exact utf8_decode_four c bs h3

theorem utf8_roundtrip (s : PyStr) :
    utf8DecodeReplace (s.flatMap utf8Bytes) = s := by
  induction s with
  | nil => rw [List.flatMap_nil]; exact utf8DecodeReplace.eq_1
  | cons c cs ih => rw [List.flatMap_cons, utf8_decode_cons, ih]

theorem utf8Bytes_ne_nil (c : Char) : utf8Bytes c ≠ [] := by
  simp only [utf8Bytes]
  split
  · simp
  · split
    · simp
    · split <;> simp

theorem alwaysSafe_toNat {c : Char} (h : alwaysSafe c = true) :
    (65 ≤ c.toNat ∧ c.toNat ≤ 90) ∨ (97 ≤ c.toNat ∧ c.toNat ≤ 122) ∨
    (48 ≤ c.toNat ∧ c.toNat ≤ 57) ∨ c.toNat = 95 ∨ c.toNat = 46 ∨ c.toNat = 45 ∨
    c.toNat = 126 := by
  have e1 : ('_' : Char).toNat = 95 := rfl
  have e2 : ('.' : Char).toNat = 46 := rfl
  have e3 : ('-' : Char).toNat = 45 := rfl
  have e4 : ('~' : Char).toNat = 126 := rfl
  simp only [alwaysSafe, Bool.or_eq_true] at h
  rcases h with ((((ha | hd) | h1) | h2) | h3) | h4
  · rcases isAlpha_iff c |>.mp ha with h | h
    · exact Or.inl h
    · exact Or.inr (Or.inl h)
  · exact Or.inr (Or.inr (Or.inl (isDigit_iff c |>.mp hd)))
  · exact Or.inr (Or.inr (Or.inr (Or.inl (e1 ▸ char_beq_iff.mp h1))))
  · exact Or.inr (Or.inr (Or.inr (Or.inr (Or.inl (e2 ▸ char_beq_iff.mp h2)))))
  · exact Or.inr (Or.inr (Or.inr (Or.inr (Or.inr (Or.inl (e3 ▸ char_beq_iff.mp h3))))))
  · exact Or.inr (Or.inr (Or.inr (Or.inr (Or.inr (Or.inr (e4 ▸ char_beq_iff.mp h4))))))

theorem alwaysSafe_ascii {c : Char} (h : alwaysSafe c = true) : c.toNat < 128 := by
  rcases alwaysSafe_toNat h with h | h | h | h | h | h | h <;> omega

theorem isHexDig_ascii {c : Char} (h : isHexDig c = true) : c.toNat < 128 := by
  have e1 : ('a' : Char).toNat = 97 := rfl
  have e2 : ('f' : Char).toNat = 102 := rfl
  have e3 : ('A' : Char).toNat = 65 := rfl
  have e4 : ('F' : Char).toNat = 70 := rfl
  simp only [isHexDig, Bool.or_eq_true, Bool.and_eq_true, decide_eq_true_eq] at h
  rcases h with (hd | ⟨g1, g2⟩) | ⟨g1, g2⟩
  · have := isDigit_iff c |>.mp hd
    omega
  · rw [Char.le_def] at g1 g2
    have g1n : ('a' : Char).toNat ≤ c.toNat := g1
    have g2n : c.toNat ≤ ('f' : Char).toNat := g2
    omega
  · rw [Char.le_def] at g1 g2
    have g1n : ('A' : Char).toNat ≤ c.toNat := g1
    have g2n : c.toNat ≤ ('F' : Char).toNat := g2
    omega

theorem mem_quoteM {safe : Char → Bool} {v : PyStr} {c : Char} (h : c ∈ quoteM safe v) :
    (∃ d ∈ v, (alwaysSafe d || safe d) = true ∧ c = d) ∨ c = '%' ∨ isHexDig c = true := by
  obtain ⟨d, hd, hc⟩ := List.mem_flatMap.mp h
  by_cases hsafe : (alwaysSafe d || safe d) = true
  · rw [if_pos hsafe] at hc
    exact Or.inl ⟨d, hd, hsafe, List.mem_singleton.mp hc⟩
  · rw [if_neg hsafe] at hc
    obtain ⟨b, hb, hcb⟩ := List.mem_flatMap.mp hc
    have hblt : b < 256 := utf8Bytes_lt hb
    simp only [pctByte, List.mem_cons, List.not_mem_nil, or_false] at hcb
    rcases hcb with h1 | h1 | h1
    · exact Or.inr (Or.inl h1)
    · exact Or.inr (Or.inr (h1 ▸ isHexDig_hexDigitUpper (by omega : b / 16 < 16)))
    · exact Or.inr (Or.inr (h1 ▸ isHexDig_hexDigitUpper (by omega : b % 16 < 16)))

theorem mem_quotePlus {v : PyStr} {c : Char} (h : c ∈ quotePlusM v) :
    alwaysSafe c = true ∨ c = '+' ∨ c = '%' ∨ isHexDig c = true := by
  rw [quotePlusM] at h
  split at h
  · obtain ⟨d, hd, he⟩ := List.mem_map.mp h
    by_cases hsp : d = ' '
    · rw [if_pos hsp] at he
      exact Or.inr (Or.inl he.symm)
    · rw [if_neg hsp] at he
      subst he
      rcases mem_quoteM hd with ⟨e, _, hsafe, hde⟩ | h2 | h3
      · subst hde
        rcases Bool.or_eq_true _ _ |>.mp hsafe with hs1 | hs2
        · exact Or.inl hs1
        · exact absurd (beq_iff_eq.mp hs2) hsp
      · exact Or.inr (Or.inr (Or.inl h2))
      · exact Or.inr (Or.inr (Or.inr h3))
  · rcases mem_quoteM h with ⟨e, _, hsafe, hde⟩ | h2 | h3
    · subst hde
      rcases Bool.or_eq_true _ _ |>.mp hsafe with hs1 | hs2
      · exact Or.inl hs1
      · simp at hs2
    · exact Or.inr (Or.inr (Or.inl h2))
    · exact Or.inr (Or.inr (Or.inr h3))

theorem mem_joinAmp {ps : List PyStr} {c : Char} (h : c ∈ joinAmp ps) :
    c = '&' ∨ ∃ p ∈ ps, c ∈ p := by
  induction ps with
  | nil => simp [joinAmp] at h
  | cons x r ih =>
      cases r with
      | nil =>
          right
          exact ⟨x, List.mem_cons_self x [], by simpa [joinAmp] using h⟩
      | cons y r2 =>
          rw [show joinAmp (x :: y :: r2) = x ++ '&' :: joinAmp (y :: r2) from rfl] at h
          rcases List.mem_append.mp h with h1 | h1
          · exact Or.inr ⟨x, List.mem_cons_self x _, h1⟩
          · rcases List.mem_cons.mp h1 with h2 | h2
            · exact Or.inl h2
            · rcases ih h2 with h3 | ⟨p, hp, hcp⟩
              · exact Or.inl h3
              · exact Or.inr ⟨p, List.mem_cons_of_mem x hp, hcp⟩

theorem mem_urlencode {m : List (PyStr × List PyStr)} {c : Char} (h : c ∈ urlencodeM m) :
    alwaysSafe c = true ∨ c = '+' ∨ c = '%' ∨ isHexDig c = true ∨ c = '=' ∨ c = '&' := by
  rcases mem_joinAmp h with h1 | ⟨p, hp, hcp⟩
  · exact Or.inr (Or.inr (Or.inr (Or.inr (Or.inr h1))))
  · obtain ⟨q, _, hpin⟩ := List.mem_flatMap.mp hp
    obtain ⟨v, _, rfl⟩ := List.mem_map.mp hpin
    rcases List.mem_append.mp hcp with h2 | h2
    · rcases mem_quotePlus h2 with h3 | h3 | h3 | h3
      · exact Or.inl h3
      · exact Or.inr (Or.inl h3)
      · exact Or.inr (Or.inr (Or.inl h3))
      · exact Or.inr (Or.inr (Or.inr (Or.inl h3)))
    · rcases List.mem_cons.mp h2 with h3 | h3
      · exact Or.inr (Or.inr (Or.inr (Or.inr (Or.inl h3))))
      · rcases mem_quotePlus h3 with h4 | h4 | h4 | h4
        · exact Or.inl h4
        · exact Or.inr (Or.inl h4)
        · exact Or.inr (Or.inr (Or.inl h4))
        · exact Or.inr (Or.inr (Or.inr (Or.inl h4)))

theorem not_mem_urlencode (m : List (PyStr × List PyStr)) (d : Char)
    (h1 : alwaysSafe d = false) (h2 : ¬(d = '+')) (h3 : ¬(d = '%'))
    (h4 : isHexDig d = false) (h5 : ¬(d = '=')) (h6 : ¬(d = '&')) :
    d ∉ urlencodeM m := by
  intro hm
  rcases mem_urlencode hm with g | g | g | g | g | g
  · rw [h1] at g; exact Bool.false_ne_true g
  · exact h2 g
  · exact h3 g
  · rw [h4] at g; exact Bool.false_ne_true g
  · exact h5 g
  · exact h6 g
theorem flatMap_congr_mem {α β : Type} {l : List α} {f g2 : α → List β}
    (h : ∀ a ∈ l, f a = g2 a) : l.flatMap f = l.flatMap g2 := by
  induction l with
  | nil => rfl
  | cons x xs ih =>
      rw [List.flatMap_cons, List.flatMap_cons, h x (List.mem_cons_self x xs),
        ih (fun a ha => h a (List.mem_cons_of_mem x ha))]

theorem flatMap_singleton_mem {α : Type} {l : List α} {f : α → List α}
    (h : ∀ a ∈ l, f a = [a]) : l.flatMap f = l := by
  induction l with
  | nil => rfl
  | cons x xs ih =>
      rw [List.flatMap_cons, h x (List.mem_cons_self x xs),
        ih (fun a ha => h a (List.mem_cons_of_mem x ha)), List.singleton_append]

theorem plusToSpace_id {l : PyStr} (h : '+' ∉ l) : plusToSpace l = l := by
  have : ∀ c ∈ l, (if c = '+' then ' ' else c) = c := by
    intro c hc
    rw [if_neg (fun he => h (by rw [← he]; exact hc))]
  calc plusToSpace l = l.map id := List.map_congr_left this
  _ = l := List.map_id l

theorem plus_not_mem_quoteM {safe : Char → Bool} (hs : safe '+' = false) (v : PyStr) :
    '+' ∉ quoteM safe v := by
  intro h
  rcases mem_quoteM h with ⟨d, _, hsafe, hde⟩ | h2 | h3
  · rw [← hde, hs] at hsafe
    revert hsafe
    decide
  · exact absurd h2 (by decide)
  · exact absurd h3 (by decide)

theorem plusToSpace_quotePlus (v : PyStr) :
    plusToSpace (quotePlusM v) = v.flatMap (fun c =>
      if alwaysSafe c || (c == ' ') then [c] else (utf8Bytes c).flatMap pctByte) := by
  rw [quotePlusM]
  split
  · rw [plusToSpace, List.map_map]
    have hpt : ∀ d ∈ quoteM (fun c => c == ' ') v,
        ((fun c => if c = '+' then ' ' else c) ∘ (fun c => if c = ' ' then '+' else c)) d = d := by
      intro d hd
      by_cases hsp : d = ' '
      · simp [hsp]
      · have hplus : ¬(d = '+') := by
          intro he
          exact plus_not_mem_quoteM (by decide) v (he ▸ hd)
        simp only [Function.comp_apply, if_neg hsp, if_neg hplus]
    rw [List.map_congr_left hpt, List.map_id']
    rfl
  · rename_i hsp
    have hid : plusToSpace (quoteM (fun _ => false) v) = quoteM (fun _ => false) v :=
      plusToSpace_id (plus_not_mem_quoteM rfl v)
    rw [hid, quoteM]
    refine flatMap_congr_mem ?_
    intro c hc
    have hcsp : (c == ' ') = false := by
      rw [Bool.eq_false_iff]
      intro he
      exact hsp (beq_iff_eq.mp he ▸ hc)
    rw [Bool.or_false, hcsp, Bool.or_false]

theorem pctDecode_flat (v : PyStr) :
    pctDecode (v.flatMap (fun c =>
      if alwaysSafe c || (c == ' ') then [c] else (utf8Bytes c).flatMap pctByte)) =
    v.flatMap utf8Bytes := by
  induction v with
  | nil =>
      rw [List.flatMap_nil, List.flatMap_nil]
      exact pctDecode.eq_1
  | cons c cs ih =>
      rw [List.flatMap_cons, List.flatMap_cons]
      by_cases hc : (alwaysSafe c || (c == ' ')) = true
      · rw [if_pos hc, List.singleton_append]
        have hpct : ¬(c = '%') := by
          intro he
          subst he
          revert hc
          decide
        rw [pctDecode_nonpct c _ hpct, ih]
      · rw [if_neg hc, pctDecode_pctBytes _ _ (fun b hb => utf8Bytes_lt hb), ih]

theorem unquoteRuns_ascii {l : PyStr} (hne : l ≠ []) (hall : ∀ c ∈ l, isAsciiCh c = true) :
    unquoteRuns l = utf8DecodeReplace (pctDecode l) := by
  cases l with
  | nil => exact absurd rfl hne
  | cons c cs =>
      have hc := hall c (List.mem_cons_self c cs)
      rw [unquoteRuns.eq_def]
      simp only []
      rw [if_pos hc,
        List.takeWhile_eq_self_iff.mpr (fun x hx => hall x (List.mem_cons_of_mem c hx)),
        List.dropWhile_eq_nil_iff.mpr (fun x hx => hall x (List.mem_cons_of_mem c hx)),
        unquoteRuns.eq_1, List.append_nil]

theorem unquote_quotePlus (v : PyStr) : unquoteM (plusToSpace (quotePlusM v)) = v := by
  rw [plusToSpace_quotePlus, unquoteM]
  by_cases hp : '%' ∈ v.flatMap (fun c =>
      if alwaysSafe c || (c == ' ') then [c] else (utf8Bytes c).flatMap pctByte)
  · rw [if_pos hp]
    have hall : ∀ c ∈ v.flatMap (fun c =>
        if alwaysSafe c || (c == ' ') then [c] else (utf8Bytes c).flatMap pctByte),
        isAsciiCh c = true := by
      intro c hcm
      obtain ⟨d, _, hcd⟩ := List.mem_flatMap.mp hcm
      by_cases hsafe : (alwaysSafe d || (d == ' ')) = true
      · rw [if_pos hsafe] at hcd
        rw [List.mem_singleton.mp hcd]
        rcases Bool.or_eq_true _ _ |>.mp hsafe with h1 | h1
        · simp only [isAsciiCh, decide_eq_true_eq]
          exact alwaysSafe_ascii h1
        · rw [beq_iff_eq.mp h1]
          decide
      · rw [if_neg hsafe] at hcd
        obtain ⟨b, hb, hcb⟩ := List.mem_flatMap.mp hcd
        have hblt : b < 256 := utf8Bytes_lt hb
        simp only [pctByte, List.mem_cons, List.not_mem_nil, or_false] at hcb
        rcases hcb with h1 | h1 | h1
        · rw [h1]; decide
        · rw [h1]
          simp only [isAsciiCh, decide_eq_true_eq]
          exact isHexDig_ascii (isHexDig_hexDigitUpper (by omega : b / 16 < 16))
        · rw [h1]
          simp only [isAsciiCh, decide_eq_true_eq]
          exact isHexDig_ascii (isHexDig_hexDigitUpper (by omega : b % 16 < 16))
    have hne : v.flatMap (fun c =>
        if alwaysSafe c || (c == ' ') then [c] else (utf8Bytes c).flatMap pctByte) ≠ [] := by
      intro he
      rw [he] at hp
      exact List.not_mem_nil '%' hp
    rw [unquoteRuns_ascii hne hall, pctDecode_flat, utf8_roundtrip]
  · rw [if_neg hp]
    refine flatMap_singleton_mem ?_
    intro c hcm
    by_cases hsafe : (alwaysSafe c || (c == ' ')) = true
    · rw [if_pos hsafe]
    · exfalso
      apply hp
      refine List.mem_flatMap.mpr ⟨c, hcm, ?_⟩
      rw [if_neg hsafe]
      refine List.mem_flatMap.mpr ⟨?_, ?_, ?_⟩
      · exact (utf8Bytes c).head (utf8Bytes_ne_nil c)
      · exact List.head_mem (utf8Bytes_ne_nil c)
      · simp [pctByte]
theorem pySplit_no_sep {sep : Char} {s : PyStr} (h : sep ∉ s) : pySplit sep s = [s] := by
  induction s with
  | nil => rfl
  | cons c cs ih =>
      have hc : ¬(c = sep) := fun he => h (by rw [← he]; exact List.mem_cons_self c cs)
      simp only [pySplit, if_neg hc, ih (fun hm => h (List.mem_cons_of_mem c hm))]

theorem pySplit_append {sep : Char} {a : PyStr} (b : PyStr) (h : sep ∉ a) :
    pySplit sep (a ++ sep :: b) = a :: pySplit sep b := by
  induction a with
  | nil => simp [pySplit]
  | cons c cs ih =>
      have hc : ¬(c = sep) := fun he => h (by rw [← he]; exact List.mem_cons_self c cs)
      rw [List.cons_append]
      simp only [pySplit, if_neg hc]
      rw [ih (fun hm => h (List.mem_cons_of_mem c hm))]

theorem joinAmp_pySplit {ps : List PyStr} (hne : ps ≠ []) (h : ∀ p ∈ ps, '&' ∉ p) :
    pySplit '&' (joinAmp ps) = ps := by
  induction ps with
  | nil => exact absurd rfl hne
  | cons x r ih =>
      cases r with
      | nil =>
          rw [show joinAmp [x] = x from rfl]
          exact pySplit_no_sep (h x (List.mem_cons_self x []))
      | cons y r2 =>
          rw [show joinAmp (x :: y :: r2) = x ++ '&' :: joinAmp (y :: r2) from rfl,
            pySplit_append _ (h x (List.mem_cons_self x _)),
            ih (by simp) (fun p hp => h p (List.mem_cons_of_mem x hp))]

theorem pctDecode_ne_nil {l : PyStr} (h : l ≠ []) : pctDecode l ≠ [] := by
  cases l with
  | nil => exact absurd rfl h
  | cons c cs =>
      by_cases hc : c = '%'
      · subst hc
        cases cs with
        | nil => rw [pctDecode.eq_4]; simp
        | cons a cs2 =>
            cases cs2 with
            | nil => rw [pctDecode.eq_3]; simp
            | cons b r =>
                rw [pctDecode.eq_2]
                split <;> simp
      · rw [pctDecode_nonpct c cs hc]
        intro he
        exact utf8Bytes_ne_nil c (List.append_eq_nil.mp he).1

theorem utf8DecodeReplace_ne_nil {l : List Nat} (h : l ≠ []) : utf8DecodeReplace l ≠ [] := by
  cases l with
  | nil => exact absurd rfl h
  | cons b bs =>
      rw [utf8DecodeReplace.eq_def]
      simp only []
      repeat' split
      all_goals simp

theorem plusToSpace_ne_nil {s : PyStr} (h : s ≠ []) : plusToSpace s ≠ [] := by
  cases s with
  | nil => exact absurd rfl h
  | cons c cs => simp [plusToSpace]

theorem unquoteRuns_ne_nil {s : PyStr} (h : s ≠ []) : unquoteRuns s ≠ [] := by
  cases s with
  | nil => exact absurd rfl h
  | cons c cs =>
      rw [unquoteRuns.eq_def]
      simp only []
      split
      · intro he
        exact utf8DecodeReplace_ne_nil (pctDecode_ne_nil (by simp))
          (List.append_eq_nil.mp he).1
      · simp

theorem unquoteM_ne_nil {s : PyStr} (h : s ≠ []) : unquoteM s ≠ [] := by
  rw [unquoteM]
  split
  · exact unquoteRuns_ne_nil h
  · exact h

theorem quoteM_ne_nil {safe : Char → Bool} {v : PyStr} (h : v ≠ []) : quoteM safe v ≠ [] := by
  cases v with
  | nil => exact absurd rfl h
  | cons c cs =>
      rw [quoteM, List.flatMap_cons]
      intro he
      obtain ⟨h1, _⟩ := List.append_eq_nil.mp he
      by_cases hsafe : (alwaysSafe c || safe c) = true
      · rw [if_pos hsafe] at h1
        simp at h1
      · rw [if_neg hsafe] at h1
        obtain ⟨b, br, hb⟩ : ∃ b br, utf8Bytes c = b :: br := by
          cases hu : utf8Bytes c with
          | nil => exact absurd hu (utf8Bytes_ne_nil c)
          | cons b br => exact ⟨b, br, rfl⟩
        rw [hb, List.flatMap_cons] at h1
        obtain ⟨h2, _⟩ := List.append_eq_nil.mp h1
        simp [pctByte] at h2

theorem quotePlus_ne_nil {v : PyStr} (h : v ≠ []) : quotePlusM v ≠ [] := by
  rw [quotePlusM]
  split
  · intro he
    rw [List.map_eq_nil_iff] at he
    exact quoteM_ne_nil h he
  · exact quoteM_ne_nil h

theorem not_mem_quotePlus (v : PyStr) (d : Char)
    (h1 : alwaysSafe d = false) (h2 : ¬(d = '+')) (h3 : ¬(d = '%'))
    (h4 : isHexDig d = false) : d ∉ quotePlusM v := by
  intro hm
  rcases mem_quotePlus hm with g | g | g | g
  · rw [h1] at g; exact Bool.false_ne_true g
  · exact h2 g
  · exact h3 g
  · rw [h4] at g; exact Bool.false_ne_true g
theorem qsl_foldl_spec (ps : List PyStr) (r0 : List (PyStr × PyStr)) :
    ps.foldl
      (fun r nv =>
        if nv = [] then r
        else
          match breakAtFirst '=' nv with
          | none => r
          | some (name, value) =>
              if value = [] then r
              else r ++ [(unquoteM (plusToSpace name), unquoteM (plusToSpace value))])
      r0 =
    r0 ++ ps.flatMap (fun nv =>
      if nv = [] then []
      else
        match breakAtFirst '=' nv with
        | none => []
        | some (name, value) =>
            if value = [] then []
            else [(unquoteM (plusToSpace name), unquoteM (plusToSpace value))]) := by
  induction ps generalizing r0 with
  | nil => simp
  | cons nv ps ih =>
      rw [List.foldl_cons, ih, List.flatMap_cons, ← List.append_assoc]
      congr 1
      by_cases h1 : nv = []
      · rw [if_pos h1, if_pos h1, List.append_nil]
      · rw [if_neg h1, if_neg h1]
        rcases hb : breakAtFirst '=' nv with _ | ⟨name, value⟩
        · simp only [hb, List.append_nil]
        · simp only [hb]
          by_cases h2 : value = []
          · rw [if_pos h2, if_pos h2, List.append_nil]
          · rw [if_neg h2, if_neg h2]

theorem pieceEval_enc (k v : PyStr) (hv : v ≠ []) :
    (if quotePlusM k ++ '=' :: quotePlusM v = [] then ([] : List (PyStr × PyStr))
     else
       match breakAtFirst '=' (quotePlusM k ++ '=' :: quotePlusM v) with
       | none => []
       | some (name, value) =>
           if value = [] then []
           else [(unquoteM (plusToSpace name), unquoteM (plusToSpace value))]) = [(k, v)] := by
  have hne : ¬(quotePlusM k ++ '=' :: quotePlusM v = []) := by
    intro he
    have h2 := (List.append_eq_nil.mp he).2
    simp at h2
  rw [if_neg hne, breakAtFirst_append '=' _ _
    (not_mem_quotePlus k '=' (by decide) (by decide) (by decide) (by decide))]
  simp only []
  rw [if_neg (quotePlus_ne_nil hv), unquote_quotePlus, unquote_quotePlus]

theorem group_pieces (k : PyStr) (vs : List PyStr) (hvs : ∀ v ∈ vs, v ≠ []) :
    (vs.map (fun v => quotePlusM k ++ '=' :: quotePlusM v)).flatMap
      (fun nv =>
        if nv = [] then ([] : List (PyStr × PyStr))
        else
          match breakAtFirst '=' nv with
          | none => []
          | some (name, value) =>
              if value = [] then []
              else [(unquoteM (plusToSpace name), unquoteM (plusToSpace value))]) =
    vs.map (fun v => (k, v)) := by
  induction vs with
  | nil => rfl
  | cons v vs ih =>
      rw [List.map_cons, List.flatMap_cons, pieceEval_enc k v (hvs v (List.mem_cons_self v vs)),
        ih (fun w hw => hvs w (List.mem_cons_of_mem v hw)), List.map_cons, List.singleton_append]

theorem parse_qsl_enc (m : List (PyStr × List PyStr))
    (hv : ∀ p ∈ m, p.2 ≠ [] ∧ ∀ v ∈ p.2, v ≠ []) :
    parse_qsl (urlencodeM m) =
      m.flatMap (fun p => p.2.map (fun v => (p.1, v))) := by
  by_cases hm : m.flatMap (fun p => p.2.map (fun v =>
      quotePlusM p.1 ++ '=' :: quotePlusM v)) = []
  · have hmnil : m = [] := by
      cases m with
      | nil => rfl
      | cons q ms =>
          exfalso
          rw [List.flatMap_cons, List.append_eq_nil, List.map_eq_nil_iff] at hm
          exact (hv q (List.mem_cons_self q ms)).1 hm.1
    subst hmnil
    rfl
  · have hamp : ∀ p ∈ m.flatMap (fun p => p.2.map (fun v =>
        quotePlusM p.1 ++ '=' :: quotePlusM v)), '&' ∉ p := by
      intro p hp
      obtain ⟨q, _, hpin⟩ := List.mem_flatMap.mp hp
      obtain ⟨v, _, rfl⟩ := List.mem_map.mp hpin
      intro hmem
      rcases List.mem_append.mp hmem with h1 | h1
      · exact not_mem_quotePlus q.1 '&' (by decide) (by decide) (by decide) (by decide) h1
      · rcases List.mem_cons.mp h1 with h2 | h2
        · exact absurd h2 (by decide)
        · exact not_mem_quotePlus v '&' (by decide) (by decide) (by decide) (by decide) h2
    have hqne : urlencodeM m ≠ [] := by
      rw [urlencodeM]
      cases hj : m.flatMap (fun p => p.2.map (fun v =>
          quotePlusM p.1 ++ '=' :: quotePlusM v)) with
      | nil => exact absurd hj hm
      | cons x r =>
          have hxne : x ≠ [] := by
            intro he
            obtain ⟨q, _, hpin⟩ := List.mem_flatMap.mp (hj ▸ List.mem_cons_self x r)
            obtain ⟨v, _, heq⟩ := List.mem_map.mp hpin
            rw [he] at heq
            have h2 := (List.append_eq_nil.mp heq).2
            simp at h2
          cases r with
          | nil => simpa [joinAmp] using hxne
          | cons y r2 =>
              rw [show joinAmp (x :: y :: r2) = x ++ '&' :: joinAmp (y :: r2) from rfl]
              intro he
              simp [List.append_eq_nil] at he
    rw [parse_qsl]
    simp only [if_neg hqne]
    rw [show urlencodeM m = joinAmp (m.flatMap (fun p => p.2.map (fun v =>
      quotePlusM p.1 ++ '=' :: quotePlusM v))) from rfl]
    rw [joinAmp_pySplit hm hamp, qsl_foldl_spec, List.nil_append, List.flatMap_assoc]
    refine flatMap_congr_mem ?_
    intro q hq
    rw [List.flatMap_map]
    have hgp := group_pieces q.1 q.2 (hv q hq).2
    rw [List.flatMap_map] at hgp
    exact hgp
theorem qsInsert_append {m z : List (PyStr × List PyStr)} {k : PyStr} {v : PyStr}
    (hk : ∀ p ∈ m, p.1 ≠ k) :
    qsInsert (m ++ z) k v = m ++ qsInsert z k v := by
  induction m with
  | nil => rfl
  | cons q ms ih =>
      obtain ⟨k2, vs⟩ := q
      have hne : ¬(k2 = k) := hk (k2, vs) (List.mem_cons_self _ _)
      rw [List.cons_append, qsInsert, if_neg hne,
        ih (fun p hp => hk p (List.mem_cons_of_mem _ hp)), List.cons_append]

theorem qsInsert_new {m : List (PyStr × List PyStr)} {k : PyStr} {v : PyStr}
    (hk : ∀ p ∈ m, p.1 ≠ k) :
    qsInsert m k v = m ++ [(k, [v])] := by
  induction m with
  | nil => rfl
  | cons q ms ih =>
      obtain ⟨k2, vs⟩ := q
      have hne : ¬(k2 = k) := hk (k2, vs) (List.mem_cons_self _ _)
      rw [qsInsert, if_neg hne, ih (fun p hp => hk p (List.mem_cons_of_mem _ hp)),
        List.cons_append]

theorem foldl_qsInsert_ext (k : PyStr) (vs : List PyStr) (ws : List PyStr)
    (acc : List (PyStr × List PyStr)) (hk : ∀ p ∈ acc, p.1 ≠ k) :
    (vs.map (fun v => (k, v))).foldl (fun m p => qsInsert m p.1 p.2) (acc ++ [(k, ws)]) =
      acc ++ [(k, ws ++ vs)] := by
  induction vs generalizing ws with
  | nil => simp
  | cons v vs ih =>
      rw [List.map_cons, List.foldl_cons]
      have hstep : qsInsert (acc ++ [(k, ws)]) k v = acc ++ [(k, ws ++ [v])] := by
        rw [qsInsert_append hk, show qsInsert [(k, ws)] k v = [(k, ws ++ [v])] from by
          rw [qsInsert, if_pos rfl]]
      rw [show qsInsert (acc ++ [(k, ws)]) (k, v).1 (k, v).2 = acc ++ [(k, ws ++ [v])] from hstep,
        ih (ws ++ [v]), List.append_assoc, List.singleton_append]

theorem foldl_qsInsert_group (k : PyStr) (vs : List PyStr)
    (acc : List (PyStr × List PyStr)) (hk : ∀ p ∈ acc, p.1 ≠ k) (hvs : vs ≠ []) :
    (vs.map (fun v => (k, v))).foldl (fun m p => qsInsert m p.1 p.2) acc =
      acc ++ [(k, vs)] := by
  cases vs with
  | nil => exact absurd rfl hvs
  | cons v vs2 =>
      rw [List.map_cons, List.foldl_cons,
        show qsInsert acc (k, v).1 (k, v).2 = acc ++ [(k, [v])] from qsInsert_new hk,
        foldl_qsInsert_ext k vs2 [v] acc hk, List.singleton_append]

theorem foldl_qsInsert_flat (m : List (PyStr × List PyStr))
    (acc : List (PyStr × List PyStr))
    (hnd : (m.map Prod.fst).Nodup)
    (hvs : ∀ p ∈ m, p.2 ≠ [])
    (hdisj : ∀ p ∈ acc, p.1 ∉ m.map Prod.fst) :
    (m.flatMap (fun p => p.2.map (fun v => (p.1, v)))).foldl
      (fun m p => qsInsert m p.1 p.2) acc = acc ++ m := by
  induction m generalizing acc with
  | nil => simp
  | cons q ms ih =>
      obtain ⟨k, vs⟩ := q
      rw [List.flatMap_cons, List.foldl_append]
      have hk : ∀ p ∈ acc, p.1 ≠ k := by
        intro p hp he
        exact hdisj p hp (by rw [List.map_cons, he]; exact List.mem_cons_self _ _)
      rw [show (vs.map (fun v => ((k, vs).1, v))).foldl
            (fun m p => qsInsert m p.1 p.2) acc = acc ++ [(k, vs)] from
          foldl_qsInsert_group k vs acc hk (hvs (k, vs) (List.mem_cons_self _ _))]
      rw [List.map_cons] at hnd
      have hknotin : k ∉ ms.map Prod.fst := (List.nodup_cons.mp hnd).1
      rw [ih (acc ++ [(k, vs)]) (List.nodup_cons.mp hnd).2
        (fun p hp => hvs p (List.mem_cons_of_mem _ hp)) ?hdisj2]
      · rw [List.append_assoc, List.singleton_append]
      case hdisj2 =>
        intro p hp
        rcases List.mem_append.mp hp with h1 | h1
        · intro hm2
          exact hdisj p h1 (by rw [List.map_cons]; exact List.mem_cons_of_mem _ hm2)
        · rw [List.mem_singleton.mp h1]
          exact hknotin

theorem parse_qsM_enc (m : List (PyStr × List PyStr))
    (hnd : (m.map Prod.fst).Nodup)
    (hv : ∀ p ∈ m, p.2 ≠ [] ∧ ∀ v ∈ p.2, v ≠ []) :
    parse_qsM (urlencodeM m) = m := by
  rw [parse_qsM, parse_qsl_enc m hv]
  have := foldl_qsInsert_flat m [] hnd (fun p hp => (hv p hp).1) (by simp)
  rw [this, List.nil_append]

theorem filterTracking_idem (m : List (PyStr × List PyStr)) :
    filterTracking (filterTracking m) = filterTracking m := by
  rw [filterTracking, filterTracking, List.filter_filter]
  refine List.filter_congr ?_
  intro p _
  rw [Bool.and_self]

theorem qsInsert_keys (m : List (PyStr × List PyStr)) (k : PyStr) (v : PyStr) :
    (qsInsert m k v).map Prod.fst =
      if k ∈ m.map Prod.fst then m.map Prod.fst else m.map Prod.fst ++ [k] := by
  induction m with
  | nil => simp [qsInsert]
  | cons q ms ih =>
      obtain ⟨k2, vs⟩ := q
      by_cases he : k2 = k
      · subst he
        rw [qsInsert, if_pos rfl, List.map_cons, List.map_cons,
          if_pos (List.mem_cons_self _ _)]
      · rw [qsInsert, if_neg he, List.map_cons, List.map_cons, ih]
        by_cases hin : k ∈ ms.map Prod.fst
        · rw [if_pos hin, if_pos (List.mem_cons_of_mem _ hin)]
        · rw [if_neg hin, if_neg (by
            intro hm2
            rcases List.mem_cons.mp hm2 with h1 | h1
            · exact he h1.symm
            · exact hin h1), List.cons_append]

theorem qsInsert_nodup {m : List (PyStr × List PyStr)} {k : PyStr} {v : PyStr}
    (h : (m.map Prod.fst).Nodup) : ((qsInsert m k v).map Prod.fst).Nodup := by
  rw [qsInsert_keys]
  by_cases hin : k ∈ m.map Prod.fst
  · rw [if_pos hin]; exact h
  · rw [if_neg hin]
    simp [List.nodup_append, h, hin]

theorem qsInsert_values {m : List (PyStr × List PyStr)} {k : PyStr} {v : PyStr}
    (hm : ∀ p ∈ m, p.2 ≠ [] ∧ ∀ w ∈ p.2, w ≠ []) (hvne : v ≠ []) :
    ∀ p ∈ qsInsert m k v, p.2 ≠ [] ∧ ∀ w ∈ p.2, w ≠ [] := by
  induction m with
  | nil =>
      intro p hp
      rw [qsInsert] at hp
      rcases List.mem_singleton.mp hp with rfl
      refine ⟨by simp, ?_⟩
      intro w hw
      rw [List.mem_singleton.mp hw]
      exact hvne
  | cons q ms ih =>
      obtain ⟨k2, vs⟩ := q
      intro p hp
      rw [qsInsert] at hp
      split at hp
      · rcases List.mem_cons.mp hp with h0 | h1
        · subst h0
          have hq := hm (k2, vs) (List.mem_cons_self _ _)
          refine ⟨by simp, ?_⟩
          intro w hw
          rcases List.mem_append.mp hw with h2 | h2
          · exact hq.2 w h2
          · rw [List.mem_singleton.mp h2]
            exact hvne
        · exact hm p (List.mem_cons_of_mem _ h1)
      · rcases List.mem_cons.mp hp with h0 | h1
        · subst h0
          exact hm (k2, vs) (List.mem_cons_self _ _)
        · exact ih (fun p2 hp2 => hm p2 (List.mem_cons_of_mem _ hp2)) p h1

theorem parse_qsl_values (qs : PyStr) : ∀ pr ∈ parse_qsl qs, pr.2 ≠ [] := by
  rw [parse_qsl]
  by_cases hq : qs = []
  · simp [if_pos hq]
  · simp only [if_neg hq]
    rw [qsl_foldl_spec, List.nil_append]
    intro pr hpr
    obtain ⟨nv, _, hin⟩ := List.mem_flatMap.mp hpr
    by_cases h1 : nv = []
    · rw [if_pos h1] at hin
      simp at hin
    · rw [if_neg h1] at hin
      rcases hb : breakAtFirst '=' nv with _ | ⟨name, value⟩
      · simp only [hb] at hin
        simp at hin
      · simp only [hb] at hin
        by_cases h2 : value = []
        · rw [if_pos h2] at hin
          simp at hin
        · rw [if_neg h2] at hin
          rw [List.mem_singleton.mp hin]
          exact unquoteM_ne_nil (plusToSpace_ne_nil h2)

theorem parse_qsM_nodup (qs : PyStr) : ((parse_qsM qs).map Prod.fst).Nodup := by
  rw [parse_qsM]
  have hgen : ∀ (l : List (PyStr × PyStr)) (acc : List (PyStr × List PyStr)),
      (acc.map Prod.fst).Nodup →
      ((l.foldl (fun m p => qsInsert m p.1 p.2) acc).map Prod.fst).Nodup := by
    intro l
    induction l with
    | nil => intro acc h; exact h
    | cons p l ih =>
        intro acc h
        rw [List.foldl_cons]
        exact ih _ (qsInsert_nodup h)
  exact hgen _ [] (by simp)

theorem parse_qsM_values (qs : PyStr) :
    ∀ p ∈ parse_qsM qs, p.2 ≠ [] ∧ ∀ v ∈ p.2, v ≠ [] := by
  rw [parse_qsM]
  have hvals := parse_qsl_values qs
  have hgen : ∀ (l : List (PyStr × PyStr)) (acc : List (PyStr × List PyStr)),
      (∀ pr ∈ l, pr.2 ≠ []) →
      (∀ p ∈ acc, p.2 ≠ [] ∧ ∀ v ∈ p.2, v ≠ []) →
      ∀ p ∈ l.foldl (fun m p => qsInsert m p.1 p.2) acc, p.2 ≠ [] ∧ ∀ v ∈ p.2, v ≠ [] := by
    intro l
    induction l with
    | nil => intro acc _ hacc; exact hacc
    | cons pr l ih =>
        intro acc hl hacc
        rw [List.foldl_cons]
        exact ih _ (fun pr2 hpr2 => hl pr2 (List.mem_cons_of_mem _ hpr2))
          (qsInsert_values hacc (hl pr (List.mem_cons_self _ _)))
  exact hgen _ [] hvals (by simp)

theorem filterTracking_nodup {m : List (PyStr × List PyStr)}
    (h : (m.map Prod.fst).Nodup) : ((filterTracking m).map Prod.fst).Nodup :=
  List.Nodup.sublist (List.Sublist.map _ (List.filter_sublist m)) h

theorem query_stable (q0 : PyStr) :
    urlencodeM (filterTracking (parse_qsM (urlencodeM (filterTracking (parse_qsM q0))))) =
      urlencodeM (filterTracking (parse_qsM q0)) := by
  have hnd : ((filterTracking (parse_qsM q0)).map Prod.fst).Nodup :=
    filterTracking_nodup (parse_qsM_nodup q0)
  have hv : ∀ p ∈ filterTracking (parse_qsM q0), p.2 ≠ [] ∧ ∀ v ∈ p.2, v ≠ [] :=
    fun p hp => parse_qsM_values q0 p (List.mem_of_mem_filter hp)
  rw [parse_qsM_enc _ hnd hv, filterTracking_idem]
theorem breakAtFirst_none_of_not_mem {t : Char} {s : PyStr} (h : t ∉ s) :
    breakAtFirst t s = none := by
  cases hb : breakAtFirst t s with
  | none => rfl
  | some p =>
      obtain ⟨a, b⟩ := p
      obtain ⟨hd, _⟩ := breakAtFirst_eq hb
      exact absurd (by rw [hd]; simp : t ∈ s) h

theorem dropWhile_eq_self_of_head {p : Char → Bool} {l : PyStr}
    (h : ∀ x, l.head? = some x → p x = false) : l.dropWhile p = l := by
  cases l with
  | nil => rfl
  | cons c cs => rw [List.dropWhile_cons, if_neg (by rw [h c rfl]; simp)]

theorem schemeChar_no_colon {s : PyStr} (h : ∀ c ∈ s, isSchemeChar c = true) : ':' ∉ s :=
  fun hm => absurd (h ':' hm) (by decide)

theorem schemeSplit_tagged {s : PyStr} (rest2 : PyStr) (c : Char) (r : PyStr)
    (hsr : s = c :: r)
    (hcheck : (c.isAlpha && (c :: r).all isSchemeChar) = true) (hslow : pyLower s = s) :
    schemeSplit (s ++ ':' :: rest2) = (s, rest2) := by
  have hnc : ':' ∉ s := by
    rw [hsr]
    exact schemeChar_no_colon (List.all_eq_true.mp (Bool.and_elim_right hcheck))
  rw [schemeSplit, breakAtFirst_append ':' s rest2 hnc]
  rw [hsr]
  simp only []
  rw [if_pos hcheck, ← hsr, hslow]

theorem schemeSplit_slash (t : PyStr) : schemeSplit ('/' :: t) = ([], '/' :: t) := by
  rw [schemeSplit]
  cases hb : breakAtFirst ':' ('/' :: t) with
  | none => rfl
  | some p =>
      obtain ⟨pre, post⟩ := p
      obtain ⟨hdec, hnm⟩ := breakAtFirst_eq hb
      cases pre with
      | nil =>
          exfalso
          rw [List.nil_append] at hdec
          exact absurd (List.cons.inj hdec).1 (by decide)
      | cons d pre2 =>
          rw [List.cons_append] at hdec
          have hd : d = '/' := ((List.cons.inj hdec).1).symm
          simp only []
          rw [if_neg ?hna]
          case hna =>
            subst hd
            simp [(by decide : ('/' : Char).isAlpha = false)]

theorem netlocSplit_tagged (n rest : PyStr) (hn : ∀ c ∈ n, isNetlocDelim c = false)
    (hrest : ∀ x, rest.head? = some x → isNetlocDelim x = true) :
    netlocSplit ('/' :: '/' :: (n ++ rest)) = (n, rest) := by
  have hspan := span_append (p := fun c => !isNetlocDelim c) n rest
    (fun c hc => by show (!isNetlocDelim c) = true; rw [hn c hc]; rfl)
    (fun x hx => by show (!isNetlocDelim x) = false; rw [hrest x hx]; rfl)
  rw [netlocSplit]
  rw [hspan.1, hspan.2]

theorem netlocSplit_no2slash {l : PyStr} (h : l.take 2 ≠ ['/', '/']) :
    netlocSplit l = ([], l) := by
  rcases l with _ | ⟨x, _ | ⟨y, t⟩⟩
  · rfl
  · rw [netlocSplit.eq_def]
    split
    · rename_i r heq
      exact absurd heq (by simp)
    · rfl
  · rw [netlocSplit.eq_def]
    split
    · rename_i r heq
      exfalso
      obtain ⟨h1, h2⟩ := List.cons.inj heq
      obtain ⟨h3, h4⟩ := List.cons.inj h2
      subst h1
      subst h3
      exact h rfl
    · rfl

theorem fragSplit_none {l : PyStr} (h : '#' ∉ l) : fragSplit l = (l, []) := by
  rw [fragSplit, breakAtFirst_none_of_not_mem h]

theorem querySplit_none {l : PyStr} (h : '?' ∉ l) : querySplit l = (l, []) := by
  rw [querySplit, breakAtFirst_none_of_not_mem h]

theorem querySplit_at {a b : PyStr} (h : '?' ∉ a) : querySplit (a ++ '?' :: b) = (a, b) := by
  rw [querySplit, breakAtFirst_append _ _ _ h]

theorem take1_slash {l : PyStr} (h : l.take 1 = ['/']) : ∃ t, l = '/' :: t := by
  cases l with
  | nil => simp at h
  | cons c cs =>
      have : [c] = ['/'] := h
      exact ⟨cs, by rw [(List.cons.inj this).1]⟩
theorem reparse_core (s n p1 q : PyStr)
    (hs : s = [] ∨ ∃ c r, s = c :: r ∧ (c.isAlpha && (c :: r).all isSchemeChar) = true)
    (hslow : pyLower s = s)
    (hn : ∀ c ∈ n, isNetlocDelim c = false)
    (hp1h : ∃ t1, p1 = '/' :: t1)
    (hph : '#' ∉ p1) (hpq : '?' ∉ p1)
    (hqh : '#' ∉ q)
    (hclean : ∀ c, c ∈ s ∨ c ∈ n ∨ c ∈ p1 ∨ c ∈ q →
      (c == '\t' || c == '\r' || c == '\n') = false) :
    urlsplitM ((if s ≠ [] then s ++ ':' :: ('/' :: '/' :: (n ++ p1))
        else '/' :: '/' :: (n ++ p1)) ++ (if q ≠ [] then '?' :: q else [])) =
      ⟨s, n, p1, [], q, []⟩ := by
  obtain ⟨t1, ht1⟩ := hp1h
  set qtail := if q ≠ [] then '?' :: q else [] with hqt
  have hqtmem : ∀ c ∈ qtail, c = '?' ∨ c ∈ q := by
    intro c hc
    rw [hqt] at hc
    split at hc
    · rcases List.mem_cons.mp hc with h1 | h1
      · exact Or.inl h1
      · exact Or.inr h1
    · simp at hc
  have hrest2 : ∀ c ∈ p1 ++ qtail, c ∈ p1 ∨ c = '?' ∨ c ∈ q := by
    intro c hc
    rcases List.mem_append.mp hc with h1 | h1
    · exact Or.inl h1
    · exact Or.inr (hqtmem c h1)
  have hfragsplit : fragSplit (p1 ++ qtail) = (p1 ++ qtail, []) := by
    refine fragSplit_none ?_
    intro hm
    rcases hrest2 '#' hm with h1 | h1 | h1
    · exact hph h1
    · exact absurd h1 (by decide)
    · exact hqh h1
  have hqsplit : querySplit (p1 ++ qtail) = (p1, q) := by
    rw [hqt]
    by_cases hqe : q = []
    · rw [if_neg (by simpa using hqe), List.append_nil, querySplit_none hpq]
      rw [hqe]
    · rw [if_pos hqe, querySplit_at hpq]
  have hnl : netlocSplit ('/' :: '/' :: (n ++ (p1 ++ qtail))) = (n, p1 ++ qtail) := by
    refine netlocSplit_tagged n (p1 ++ qtail) hn ?_
    intro x hx
    rw [ht1, List.cons_append, List.head?_cons] at hx
    rw [← Option.some.inj hx]
    decide
  rcases hs with hse | ⟨c, r, hsr, hcheck⟩
  · subst hse
    rw [if_neg (by simp)]
    have hform : ('/' :: '/' :: (n ++ p1)) ++ qtail = '/' :: ('/' :: (n ++ p1) ++ qtail) := by
      simp
    rw [hform]
    have hkeep : ∀ c ∈ '/' :: ('/' :: (n ++ p1) ++ qtail),
        (!(c == '\t' || c == '\r' || c == '\n')) = true := by
      intro c hc
      have hmem : c = '/' ∨ c ∈ n ∨ c ∈ p1 ∨ c = '?' ∨ c ∈ q := by
        rcases List.mem_cons.mp hc with h1 | h1
        · exact Or.inl h1
        · rcases List.mem_append.mp h1 with h2 | h2
          · rcases List.mem_cons.mp h2 with h3 | h3
            · exact Or.inl h3
            · rcases List.mem_append.mp h3 with h4 | h4
              · exact Or.inr (Or.inl h4)
              · exact Or.inr (Or.inr (Or.inl h4))
          · rcases hqtmem c h2 with h3 | h3
            · exact Or.inr (Or.inr (Or.inr (Or.inl h3)))
            · exact Or.inr (Or.inr (Or.inr (Or.inr h3)))
      rcases hmem with h1 | h1 | h1 | h1 | h1
      · rw [h1]; decide
      · rw [hclean c (Or.inr (Or.inl h1))]; rfl
      · rw [hclean c (Or.inr (Or.inr (Or.inl h1)))]; rfl
      · rw [h1]; decide
      · rw [hclean c (Or.inr (Or.inr (Or.inr h1)))]; rfl
    rw [urlsplitM]
    rw [List.dropWhile_cons, if_neg (by decide)]
    have hrm : removeUnsafe ('/' :: ('/' :: (n ++ p1) ++ qtail)) =
        '/' :: ('/' :: (n ++ p1) ++ qtail) := by
      rw [removeUnsafe]
      exact List.filter_eq_self.mpr hkeep
    rw [hrm, show '/' :: ('/' :: (n ++ p1) ++ qtail) = '/' :: '/' :: (n ++ (p1 ++ qtail))
      from by simp, schemeSplit_slash, hnl, hfragsplit, hqsplit]
  · have hsne : s ≠ [] := by rw [hsr]; simp
    rw [if_pos hsne]
    have hform : (s ++ ':' :: ('/' :: '/' :: (n ++ p1))) ++ qtail =
        s ++ ':' :: ('/' :: '/' :: (n ++ (p1 ++ qtail))) := by
      simp
    rw [hform]
    have hkeep : ∀ c ∈ s ++ ':' :: ('/' :: '/' :: (n ++ (p1 ++ qtail))),
        (!(c == '\t' || c == '\r' || c == '\n')) = true := by
      intro c hc
      have hmem : c ∈ s ∨ c = ':' ∨ c = '/' ∨ c ∈ n ∨ c ∈ p1 ∨ c = '?' ∨ c ∈ q := by
        rcases List.mem_append.mp hc with h1 | h1
        · exact Or.inl h1
        · rcases List.mem_cons.mp h1 with h2 | h2
          · exact Or.inr (Or.inl h2)
          · rcases List.mem_cons.mp h2 with h3 | h3
            · exact Or.inr (Or.inr (Or.inl h3))
            · rcases List.mem_cons.mp h3 with h4 | h4
              · exact Or.inr (Or.inr (Or.inl h4))
              · rcases List.mem_append.mp h4 with h5 | h5
                · exact Or.inr (Or.inr (Or.inr (Or.inl h5)))
                · rcases hrest2 c h5 with h6 | h6 | h6
                  · exact Or.inr (Or.inr (Or.inr (Or.inr (Or.inl h6))))
                  · exact Or.inr (Or.inr (Or.inr (Or.inr (Or.inr (Or.inl h6)))))
                  · exact Or.inr (Or.inr (Or.inr (Or.inr (Or.inr (Or.inr h6)))))
      rcases hmem with h1 | h1 | h1 | h1 | h1 | h1 | h1
      · rw [hclean c (Or.inl h1)]; rfl
      · rw [h1]; decide
      · rw [h1]; decide
      · rw [hclean c (Or.inr (Or.inl h1))]; rfl
      · rw [hclean c (Or.inr (Or.inr (Or.inl h1)))]; rfl
      · rw [h1]; decide
      · rw [hclean c (Or.inr (Or.inr (Or.inr h1)))]; rfl
    rw [urlsplitM]
    have hdrop : (s ++ ':' :: ('/' :: '/' :: (n ++ (p1 ++ qtail)))).dropWhile isC0OrSpace =
        s ++ ':' :: ('/' :: '/' :: (n ++ (p1 ++ qtail))) := by
      rw [hsr, List.cons_append, List.dropWhile_cons, if_neg ?hcna]
      case hcna =>
        have halpha := Bool.and_elim_left hcheck
        rcases (isAlpha_iff c).mp halpha with h1 | h1 <;>
          · simp only [isC0OrSpace, decide_eq_true_eq]
            omega
    have hrm : removeUnsafe (s ++ ':' :: ('/' :: '/' :: (n ++ (p1 ++ qtail)))) =
        s ++ ':' :: ('/' :: '/' :: (n ++ (p1 ++ qtail))) := by
      rw [removeUnsafe]
      exact List.filter_eq_self.mpr hkeep
    rw [hdrop, hrm, schemeSplit_tagged _ c r hsr hcheck hslow, hnl, hfragsplit, hqsplit]
theorem reparse_noins (s pth q : PyStr)
    (hs : s = [] ∨ ∃ c r, s = c :: r ∧ (c.isAlpha && (c :: r).all isSchemeChar) = true)
    (hslow : pyLower s = s)
    (hpne : pth ≠ [])
    (ht2 : pth.take 2 ≠ ['/', '/'])
    (hph : '#' ∉ pth) (hpq : '?' ∉ pth)
    (hqh : '#' ∉ q) (hqc : ':' ∉ q)
    (hhead : s = [] → ∀ x, pth.head? = some x → isC0OrSpace x = false)
    (hmiss : s = [] → ∀ pre post, breakAtFirst ':' pth = some (pre, post) →
      ∀ c r, pre = c :: r → (c.isAlpha && (c :: r).all isSchemeChar) = false)
    (hclean : ∀ c, c ∈ s ∨ c ∈ pth ∨ c ∈ q →
      (c == '\t' || c == '\r' || c == '\n') = false) :
    urlsplitM ((if s ≠ [] then s ++ ':' :: pth else pth) ++ (if q ≠ [] then '?' :: q else [])) =
      ⟨s, [], pth, [], q, []⟩ := by
  set qtail := if q ≠ [] then '?' :: q else [] with hqt
  have hqtmem : ∀ c ∈ qtail, c = '?' ∨ c ∈ q := by
    intro c hc
    rw [hqt] at hc
    split at hc
    · rcases List.mem_cons.mp hc with h1 | h1
      · exact Or.inl h1
      · exact Or.inr h1
    · simp at hc
  have htake2 : (pth ++ qtail).take 2 ≠ ['/', '/'] := by
    cases pth with
    | nil => exact absurd rfl hpne
    | cons c1 rest =>
        cases rest with
        | nil =>
            rw [hqt]
            split
            · intro he
              have : [c1, '?'] = ['/', '/'] := he
              exact absurd ((List.cons.inj ((List.cons.inj this).2)).1) (by decide)
            · intro he
              have : [c1] = ['/', '/'] := he
              simp at this
        | cons c2 rest2 =>
            intro he
            have h2 : [c1, c2] = ['/', '/'] := he
            exact ht2 (show [c1, c2] = ['/', '/'] from h2)
  have hnl : netlocSplit (pth ++ qtail) = ([], pth ++ qtail) := netlocSplit_no2slash htake2
  have hfragsplit : fragSplit (pth ++ qtail) = (pth ++ qtail, []) := by
    refine fragSplit_none ?_
    intro hm
    rcases List.mem_append.mp hm with h1 | h1
    · exact hph h1
    · rcases hqtmem '#' h1 with h2 | h2
      · exact absurd h2 (by decide)
      · exact hqh h2
  have hqsplit : querySplit (pth ++ qtail) = (pth, q) := by
    rw [hqt]
    by_cases hqe : q = []
    · rw [if_neg (by simpa using hqe), List.append_nil, querySplit_none hpq]
      rw [hqe]
    · rw [if_pos hqe, querySplit_at hpq]
  rcases hs with hse | ⟨c, r, hsr, hcheck⟩
  · subst hse
    rw [if_neg (by simp), urlsplitM]
    have hkeep : ∀ c ∈ pth ++ qtail,
        (!(c == '\t' || c == '\r' || c == '\n')) = true := by
      intro c hc
      rcases List.mem_append.mp hc with h1 | h1
      · rw [hclean c (Or.inr (Or.inl h1))]; rfl
      · rcases hqtmem c h1 with h2 | h2
        · rw [h2]; decide
        · rw [hclean c (Or.inr (Or.inr h2))]; rfl
    have hdrop : (pth ++ qtail).dropWhile isC0OrSpace = pth ++ qtail := by
      refine dropWhile_eq_self_of_head ?_
      intro x hx
      cases pth with
      | nil => exact absurd rfl hpne
      | cons c1 rest =>
          rw [List.cons_append, List.head?_cons] at hx
          exact hhead rfl x (by rw [List.head?_cons, Option.some.inj hx])
    have hrm : removeUnsafe (pth ++ qtail) = pth ++ qtail := by
      rw [removeUnsafe]
      exact List.filter_eq_self.mpr hkeep
    have hss : schemeSplit (pth ++ qtail) = ([], pth ++ qtail) := by
      rw [schemeSplit]
      cases hb : breakAtFirst ':' (pth ++ qtail) with
      | none => rfl
      | some p =>
          obtain ⟨pre, post⟩ := p
          obtain ⟨hdec, hnm⟩ := breakAtFirst_eq hb
          cases pre with
          | nil => rfl
          | cons c1 r1 =>
              simp only []
              rw [if_neg ?hchf]
              case hchf =>
                by_cases hcp : ':' ∈ pth
                · cases hb0 : breakAtFirst ':' pth with
                  | none => exact absurd hcp (breakAtFirst_none hb0)
                  | some p0 =>
                      obtain ⟨pre0, post0⟩ := p0
                      obtain ⟨hdec0, hnm0⟩ := breakAtFirst_eq hb0
                      have hb2 : breakAtFirst ':' (pth ++ qtail) =
                          some (pre0, post0 ++ qtail) := by
                        rw [hdec0, List.append_assoc, List.cons_append]
                        exact breakAtFirst_append ':' pre0 _ hnm0
                      rw [hb] at hb2
                      obtain ⟨hp1, hp2⟩ := Prod.mk.inj (Option.some.inj hb2)
                      have := hmiss rfl pre0 post0 hb0 c1 r1 hp1.symm
                      rw [this]
                      simp
                · exfalso
                  have hcm : ':' ∈ pth ++ qtail := by
                    rw [hdec]
                    simp
                  rcases List.mem_append.mp hcm with h1 | h1
                  · exact hcp h1
                  · rcases hqtmem ':' h1 with h2 | h2
                    · exact absurd h2 (by decide)
                    · exact hqc h2
    rw [hdrop, hrm, hss, hnl, hfragsplit, hqsplit]
  · have hsne : s ≠ [] := by rw [hsr]; simp
    rw [if_pos hsne]
    have hform : (s ++ ':' :: pth) ++ qtail = s ++ ':' :: (pth ++ qtail) := by
      simp
    rw [hform, urlsplitM]
    have hkeep : ∀ c ∈ s ++ ':' :: (pth ++ qtail),
        (!(c == '\t' || c == '\r' || c == '\n')) = true := by
      intro c hc
      rcases List.mem_append.mp hc with h1 | h1
      · rw [hclean c (Or.inl h1)]; rfl
      · rcases List.mem_cons.mp h1 with h2 | h2
        · rw [h2]; decide
        · rcases List.mem_append.mp h2 with h3 | h3
          · rw [hclean c (Or.inr (Or.inl h3))]; rfl
          · rcases hqtmem c h3 with h4 | h4
            · rw [h4]; decide
            · rw [hclean c (Or.inr (Or.inr h4))]; rfl
    have hdrop : (s ++ ':' :: (pth ++ qtail)).dropWhile isC0OrSpace =
        s ++ ':' :: (pth ++ qtail) := by
      rw [hsr, List.cons_append, List.dropWhile_cons, if_neg ?hcna]
      case hcna =>
        have halpha := Bool.and_elim_left hcheck
        rcases (isAlpha_iff c).mp halpha with h1 | h1 <;>
          · simp only [isC0OrSpace, decide_eq_true_eq]
            omega
    have hrm : removeUnsafe (s ++ ':' :: (pth ++ qtail)) = s ++ ':' :: (pth ++ qtail) := by
      rw [removeUnsafe]
      exact List.filter_eq_self.mpr hkeep
    rw [hdrop, hrm, schemeSplit_tagged _ c r hsr hcheck hslow, hnl, hfragsplit, hqsplit]
theorem schemeSplit_shape (x : PyStr) :
    (schemeSplit x).1 = [] ∨
      ∃ c r, (schemeSplit x).1 = c :: r ∧ (c.isAlpha && (c :: r).all isSchemeChar) = true ∧
        pyLower (c :: r) = c :: r := by
  rw [schemeSplit]
  cases hb : breakAtFirst ':' x with
  | none => exact Or.inl rfl
  | some p =>
      obtain ⟨pre, post⟩ := p
      cases pre with
      | nil => exact Or.inl rfl
      | cons c0 r0 =>
          simp only []
          split
          · rename_i hchk
            right
            refine ⟨Char.toLower c0, pyLower r0, rfl, ?_, ?_⟩
            · rw [Bool.and_eq_true] at hchk ⊢
              constructor
              · rw [isAlpha_toLower]
                exact hchk.1
              · rw [List.all_eq_true]
                intro d hd
                rw [show (Char.toLower c0 :: pyLower r0) = pyLower (c0 :: r0) from rfl] at hd
                obtain ⟨e, he, hde⟩ := List.mem_map.mp hd
                rw [← hde, show pyLowerChar e = Char.toLower e from rfl, isSchemeChar_toLower]
                exact List.all_eq_true.mp hchk.2 e he
            · rw [show (Char.toLower c0 :: pyLower r0) = pyLower (c0 :: r0) from rfl,
                pyLower_idem]
          · exact Or.inl rfl

theorem netlocSplit_fst_delim (x : PyStr) :
    ∀ c ∈ (netlocSplit x).1, isNetlocDelim c = false := by
  intro c hc
  rw [netlocSplit.eq_def] at hc
  split at hc
  · have := List.mem_takeWhile_imp hc
    rw [Bool.not_eq_true'] at this
    exact this
  · simp at hc

theorem schemeSplit_snd_sub (x : PyStr) : ∀ c ∈ (schemeSplit x).2, c ∈ x := by
  intro c hc
  rw [schemeSplit] at hc
  cases hb : breakAtFirst ':' x with
  | none => rw [hb] at hc; exact hc
  | some p =>
      obtain ⟨pre, post⟩ := p
      obtain ⟨hdec, _⟩ := breakAtFirst_eq hb
      rw [hb] at hc
      cases pre with
      | nil => exact hc
      | cons c0 r0 =>
          simp only [] at hc
          split at hc
          · rw [hdec]
            simp only [List.mem_append, List.mem_cons]
            exact Or.inr (Or.inr hc)
          · exact hc

theorem netlocSplit_sub (x : PyStr) :
    (∀ c ∈ (netlocSplit x).1, c ∈ x) ∧ (∀ c ∈ (netlocSplit x).2, c ∈ x) := by
  rw [netlocSplit.eq_def]
  split
  · constructor
    · intro c hc
      simp only [List.mem_cons]
      exact Or.inr (Or.inr (mem_of_takeWhile hc))
    · intro c hc
      simp only [List.mem_cons]
      exact Or.inr (Or.inr (mem_of_dropWhile hc))
  · exact ⟨fun c hc => by simp at hc, fun c hc => hc⟩

theorem fragSplit_sub (x : PyStr) :
    (∀ c ∈ (fragSplit x).1, c ∈ x) ∧ (∀ c ∈ (fragSplit x).2, c ∈ x) := by
  rw [fragSplit]
  cases hb : breakAtFirst '#' x with
  | none => exact ⟨fun c hc => hc, fun c hc => by simp at hc⟩
  | some p =>
      obtain ⟨a, b⟩ := p
      obtain ⟨hdec, _⟩ := breakAtFirst_eq hb
      constructor
      · intro c hc
        rw [hdec]
        simp only [List.mem_append, List.mem_cons]
        exact Or.inl hc
      · intro c hc
        rw [hdec]
        simp only [List.mem_append, List.mem_cons]
        exact Or.inr (Or.inr hc)

theorem querySplit_sub (x : PyStr) :
    (∀ c ∈ (querySplit x).1, c ∈ x) ∧ (∀ c ∈ (querySplit x).2, c ∈ x) := by
  rw [querySplit]
  cases hb : breakAtFirst '?' x with
  | none => exact ⟨fun c hc => hc, fun c hc => by simp at hc⟩
  | some p =>
      obtain ⟨a, b⟩ := p
      obtain ⟨hdec, _⟩ := breakAtFirst_eq hb
      constructor
      · intro c hc
        rw [hdec]
        simp only [List.mem_append, List.mem_cons]
        exact Or.inl hc
      · intro c hc
        rw [hdec]
        simp only [List.mem_append, List.mem_cons]
        exact Or.inr (Or.inr hc)

theorem fragSplit_no_hash (x : PyStr) : '#' ∉ (fragSplit x).1 := by
  rw [fragSplit]
  cases hb : breakAtFirst '#' x with
  | none => exact breakAtFirst_none hb
  | some p =>
      obtain ⟨a, b⟩ := p
      exact (breakAtFirst_eq hb).2

theorem querySplit_no_q (x : PyStr) : '?' ∉ (querySplit x).1 := by
  rw [querySplit]
  cases hb : breakAtFirst '?' x with
  | none => exact breakAtFirst_none hb
  | some p =>
      obtain ⟨a, b⟩ := p
      exact (breakAtFirst_eq hb).2

theorem fragSplit_fst_front (x : PyStr) : (fragSplit x).1 <+: x := by
  rw [fragSplit]
  cases hb : breakAtFirst '#' x with
  | none => exact List.prefix_rfl
  | some p =>
      obtain ⟨a, b⟩ := p
      obtain ⟨hdec, _⟩ := breakAtFirst_eq hb
      exact ⟨'#' :: b, hdec.symm⟩

theorem querySplit_fst_front (x : PyStr) : (querySplit x).1 <+: x := by
  rw [querySplit]
  cases hb : breakAtFirst '?' x with
  | none => exact List.prefix_rfl
  | some p =>
      obtain ⟨a, b⟩ := p
      obtain ⟨hdec, _⟩ := breakAtFirst_eq hb
      exact ⟨'?' :: b, hdec.symm⟩

theorem netlocSplit_cases (x : PyStr) :
    (netlocSplit x = ([], x) ∧ x.take 2 ≠ ['/', '/']) ∨
      (∃ r, x = '/' :: '/' :: r ∧
        netlocSplit x = (r.takeWhile (fun c => !isNetlocDelim c),
          r.dropWhile (fun c => !isNetlocDelim c))) := by
  rcases x with _ | ⟨a, _ | ⟨b, t⟩⟩
  · exact Or.inl ⟨rfl, by simp⟩
  · exact Or.inl ⟨netlocSplit_no2slash (by simp), by simp⟩
  · by_cases hab : a = '/' ∧ b = '/'
    · obtain ⟨ha, hb⟩ := hab
      subst ha
      subst hb
      exact Or.inr ⟨t, rfl, rfl⟩
    · have ht2 : (a :: b :: t).take 2 ≠ ['/', '/'] := by
        intro he
        have h2 : [a, b] = ['/', '/'] := he
        obtain ⟨g1, g2⟩ := List.cons.inj h2
        exact hab ⟨g1, (List.cons.inj g2).1⟩
      exact Or.inl ⟨netlocSplit_no2slash ht2, ht2⟩

theorem cleaned_sub (u : PyStr) :
    ∀ c ∈ removeUnsafe (u.dropWhile isC0OrSpace),
      c ∈ u ∧ (c == '\t' || c == '\r' || c == '\n') = false := by
  intro c hc
  obtain ⟨h1, h2⟩ := mem_removeUnsafe hc
  exact ⟨mem_of_dropWhile h1, h2⟩

theorem isSchemeChar_not_unsafe {c : Char} (h : isSchemeChar c = true) :
    (c == '\t' || c == '\r' || c == '\n') = false := by
  have e1 : ('+' : Char).toNat = 43 := rfl
  have e2 : ('-' : Char).toNat = 45 := rfl
  have e3 : ('.' : Char).toNat = 46 := rfl
  have hno : ¬(c.toNat = 9 ∨ c.toNat = 13 ∨ c.toNat = 10) := by
    simp only [isSchemeChar, Bool.or_eq_true] at h
    rcases h with (((ha | hd) | h1) | h2) | h3
    · rcases (isAlpha_iff c).mp ha with g | g <;> omega
    · have := (isDigit_iff c).mp hd
      omega
    · have := char_beq_iff.mp h1
      omega
    · have := char_beq_iff.mp h2
      omega
    · have := char_beq_iff.mp h3
      omega
  have h9 : (c == '\t') = false := by
    rw [Bool.eq_false_iff]
    intro he
    exact hno (Or.inl (char_beq_iff.mp he))
  have h13 : (c == '\r') = false := by
    rw [Bool.eq_false_iff]
    intro he
    exact hno (Or.inr (Or.inl (char_beq_iff.mp he)))
  have h10 : (c == '\n') = false := by
    rw [Bool.eq_false_iff]
    intro he
    exact hno (Or.inr (Or.inr (char_beq_iff.mp he)))
  rw [h9, h13, h10]
  rfl
theorem dropWhile_idem {p : Char → Bool} (l : PyStr) :
    (l.dropWhile p).dropWhile p = l.dropWhile p := by
  refine dropWhile_eq_self_of_head ?_
  intro x hx
  cases hd : l.dropWhile p with
  | nil => rw [hd] at hx; simp at hx
  | cons c cs =>
      rw [hd, List.head?_cons] at hx
      rw [← Option.some.inj hx]
      exact head_dropWhile hd

theorem rstripSlash_idem (l : PyStr) : rstripSlash (rstripSlash l) = rstripSlash l := by
  rw [rstripSlash, rstripSlash, List.reverse_reverse, dropWhile_idem]

theorem normPath_idem (x : PyStr) :
    (if rstripSlash (if rstripSlash x = [] then ['/'] else rstripSlash x) = [] then ['/']
     else rstripSlash (if rstripSlash x = [] then ['/'] else rstripSlash x)) =
    (if rstripSlash x = [] then ['/'] else rstripSlash x) := by
  by_cases h : rstripSlash x = []
  · rw [if_pos h, if_pos (show rstripSlash ['/'] = [] from rfl)]
  · rw [if_neg h, rstripSlash_idem, if_neg h]

theorem dropWhile_cons_self {p : Char → Bool} {x : Char} {t : PyStr}
    (h : (x :: t).dropWhile p = x :: t) : p x = false := by
  rw [List.dropWhile_cons] at h
  by_cases hp : p x = true
  · rw [if_pos hp] at h
    have hlen := congrArg List.length h
    have := (List.dropWhile_suffix (l := t) (p := p)).sublist.length_le
    simp only [List.length_cons] at hlen
    omega
  · exact Bool.eq_false_iff.mpr hp

theorem rstripSlash_cons_slash {pth : PyStr} (hne : pth ≠ [])
    (hnorm : rstripSlash pth = pth) : rstripSlash ('/' :: pth) = '/' :: pth := by
  have hdw : pth.reverse.dropWhile (· == '/') = pth.reverse := by
    have := congrArg List.reverse hnorm
    rw [rstripSlash, List.reverse_reverse] at this
    exact this
  cases hr : pth.reverse with
  | nil =>
      exact absurd (by rw [← List.reverse_reverse pth, hr]; rfl) hne
  | cons x t =>
      rw [hr] at hdw
      have hx : (x == '/') = false := dropWhile_cons_self (p := fun c => c == '/') hdw
      rw [rstripSlash, List.reverse_cons, hr]
      rw [show (x :: t) ++ ['/'] = x :: (t ++ ['/']) from rfl]
      rw [List.dropWhile_cons, if_neg (by rw [hx]; simp)]
      rw [show x :: (t ++ ['/']) = (x :: t) ++ ['/'] from rfl, ← hr, ← List.reverse_cons,
        List.reverse_reverse]

theorem schemeSplit_full (x : PyStr) :
    (breakAtFirst ':' x = none ∧ schemeSplit x = ([], x)) ∨
      ∃ pre post, breakAtFirst ':' x = some (pre, post) ∧
        ((∃ c r, pre = c :: r ∧ (c.isAlpha && (c :: r).all isSchemeChar) = true ∧
            schemeSplit x = (pyLower pre, post)) ∨
          ((pre = [] ∨ ∀ c r, pre = c :: r →
              (c.isAlpha && (c :: r).all isSchemeChar) = false) ∧
            schemeSplit x = ([], x))) := by
  rw [schemeSplit]
  cases hb : breakAtFirst ':' x with
  | none => exact Or.inl ⟨rfl, rfl⟩
  | some p =>
      obtain ⟨pre, post⟩ := p
      right
      refine ⟨pre, post, rfl, ?_⟩
      cases pre with
      | nil => exact Or.inr ⟨Or.inl rfl, rfl⟩
      | cons c0 r0 =>
          by_cases hchk : (c0.isAlpha && (c0 :: r0).all isSchemeChar) = true
          · left
            refine ⟨c0, r0, rfl, hchk, ?_⟩
            simp only []
            rw [if_pos hchk]
          · right
            refine ⟨Or.inr ?_, ?_⟩
            · intro c r hcr
              obtain ⟨g1, g2⟩ := List.cons.inj hcr
              subst g1
              subst g2
              exact Bool.eq_false_iff.mpr hchk
            · simp only []
              rw [if_neg hchk]

theorem schemeSplit_empty_snd {x : PyStr} (h : (schemeSplit x).1 = []) :
    (schemeSplit x).2 = x := by
  rcases schemeSplit_full x with ⟨_, heq⟩ | ⟨pre, post, hb, hcase⟩
  · rw [heq]
  · rcases hcase with ⟨c, r, hpre, _, heq⟩ | ⟨_, heq⟩
    · rw [heq] at h
      rw [hpre] at h
      simp [pyLower] at h
    · rw [heq]

theorem schemeSplit_empty_check {x : PyStr} (h : (schemeSplit x).1 = [])
    {pre post : PyStr} (hb : breakAtFirst ':' x = some (pre, post))
    {c : Char} {r : PyStr} (hpre : pre = c :: r) :
    (c.isAlpha && (c :: r).all isSchemeChar) = false := by
  rcases schemeSplit_full x with ⟨hnone, _⟩ | ⟨pre2, post2, hb2, hcase⟩
  · rw [hnone] at hb
    simp at hb
  · rw [hb2] at hb
    obtain ⟨g1, g2⟩ := Prod.mk.inj (Option.some.inj hb)
    rcases hcase with ⟨c2, r2, hpre2, _, heq⟩ | ⟨hdis, _⟩
    · rw [heq] at h
      rw [g1, hpre] at h
      simp [pyLower] at h
    · rcases hdis with hnil | hall
      · rw [g1, hpre] at hnil
        simp at hnil
      · exact hall c r (by rw [g1, hpre])

theorem takeWhile_nil_dropWhile {p : Char → Bool} {r : PyStr}
    (h : r.takeWhile p = []) : r.dropWhile p = r := by
  cases r with
  | nil => rfl
  | cons c cs =>
      rw [List.takeWhile_cons] at h
      split at h
      · simp at h
      · rename_i hp
        rw [List.dropWhile_cons, if_neg hp]

theorem cleaned_head (u : PyStr) :
    ∀ x, (removeUnsafe (u.dropWhile isC0OrSpace)).head? = some x → isC0OrSpace x = false := by
  intro x hx
  cases hd : u.dropWhile isC0OrSpace with
  | nil =>
      rw [hd] at hx
      simp [removeUnsafe] at hx
  | cons c cs =>
      have hc : isC0OrSpace c = false := head_dropWhile hd
      have hkeep : (!(c == '\t' || c == '\r' || c == '\n')) = true := by
        have h9 : (c == '\t') = false := by
          rw [Bool.eq_false_iff]
          intro he
          have := char_beq_iff.mp he
          simp only [isC0OrSpace, decide_eq_false_iff_not] at hc
          exact hc (by rw [this]; decide)
        have h13 : (c == '\r') = false := by
          rw [Bool.eq_false_iff]
          intro he
          have := char_beq_iff.mp he
          simp only [isC0OrSpace, decide_eq_false_iff_not] at hc
          exact hc (by rw [this]; decide)
        have h10 : (c == '\n') = false := by
          rw [Bool.eq_false_iff]
          intro he
          have := char_beq_iff.mp he
          simp only [isC0OrSpace, decide_eq_false_iff_not] at hc
          exact hc (by rw [this]; decide)
        rw [h9, h13, h10]
        rfl
      rw [hd, removeUnsafe, List.filter_cons, if_pos hkeep, List.head?_cons] at hx
      rw [← Option.some.inj hx]
      exact hc

theorem delim_not_c0 {x : Char} (h : isNetlocDelim x = true) : isC0OrSpace x = false := by
  simp only [isNetlocDelim, Bool.or_eq_true] at h
  have e1 : ('/' : Char).toNat = 47 := rfl
  have e2 : ('?' : Char).toNat = 63 := rfl
  have e3 : ('#' : Char).toNat = 35 := rfl
  simp only [isC0OrSpace, decide_eq_false_iff_not]
  rcases h with (h1 | h1) | h1 <;>
    · have := char_beq_iff.mp h1
      omega

theorem delim_not_alpha {x : Char} (h : isNetlocDelim x = true) : x.isAlpha = false := by
  simp only [isNetlocDelim, Bool.or_eq_true] at h
  have e1 : ('/' : Char).toNat = 47 := rfl
  have e2 : ('?' : Char).toNat = 63 := rfl
  have e3 : ('#' : Char).toNat = 35 := rfl
  rw [Bool.eq_false_iff]
  intro ha
  rcases (isAlpha_iff x).mp ha with g | g <;>
    · rcases h with (h1 | h1) | h1 <;>
        · have := char_beq_iff.mp h1
          omega

theorem prefix_head? {l m : PyStr} (h : l <+: m) (hne : l ≠ []) : m.head? = l.head? := by
  obtain ⟨t, ht⟩ := h
  cases l with
  | nil => exact absurd rfl hne
  | cons c cs => rw [← ht]; rfl

theorem isHexDig_toNat {c : Char} (h : isHexDig c = true) :
    (48 ≤ c.toNat ∧ c.toNat ≤ 57) ∨ (97 ≤ c.toNat ∧ c.toNat ≤ 102) ∨
      (65 ≤ c.toNat ∧ c.toNat ≤ 70) := by
  simp only [isHexDig, Bool.or_eq_true, Bool.and_eq_true, decide_eq_true_eq] at h
  rcases h with (hd | ⟨g1, g2⟩) | ⟨g1, g2⟩
  · exact Or.inl ((isDigit_iff c).mp hd)
  · rw [Char.le_def] at g1 g2
    have g1n : ('a' : Char).toNat ≤ c.toNat := g1
    have g2n : c.toNat ≤ ('f' : Char).toNat := g2
    have e1 : ('a' : Char).toNat = 97 := rfl
    have e2 : ('f' : Char).toNat = 102 := rfl
    omega
  · rw [Char.le_def] at g1 g2
    have g1n : ('A' : Char).toNat ≤ c.toNat := g1
    have g2n : c.toNat ≤ ('F' : Char).toNat := g2
    have e1 : ('A' : Char).toNat = 65 := rfl
    have e2 : ('F' : Char).toNat = 70 := rfl
    omega

theorem not_unsafe_of_toNat {c : Char} (h : ¬(c.toNat = 9 ∨ c.toNat = 13 ∨ c.toNat = 10)) :
    (c == '\t' || c == '\r' || c == '\n') = false := by
  have h9 : (c == '\t') = false := by
    rw [Bool.eq_false_iff]
    intro he
    exact h (Or.inl (char_beq_iff.mp he))
  have h13 : (c == '\r') = false := by
    rw [Bool.eq_false_iff]
    intro he
    exact h (Or.inr (Or.inl (char_beq_iff.mp he)))
  have h10 : (c == '\n') = false := by
    rw [Bool.eq_false_iff]
    intro he
    exact h (Or.inr (Or.inr (char_beq_iff.mp he)))
  rw [h9, h13, h10]
  rfl

theorem urlencode_not_unsafe {m : List (PyStr × List PyStr)} {c : Char}
    (h : c ∈ urlencodeM m) : (c == '\t' || c == '\r' || c == '\n') = false := by
  refine not_unsafe_of_toNat ?_
  rcases mem_urlencode h with g | g | g | g | g | g
  · rcases alwaysSafe_toNat g with g1 | g1 | g1 | g1 | g1 | g1 | g1 <;> omega
  · rw [g, show ('+' : Char).toNat = 43 from rfl]
    omega
  · rw [g, show ('%' : Char).toNat = 37 from rfl]
    omega
  · rcases isHexDig_toNat g with g1 | g1 | g1 <;> omega
  · rw [g, show ('=' : Char).toNat = 61 from rfl]
    omega
  · rw [g, show ('&' : Char).toNat = 38 from rfl]
    omega

theorem not_unsafe_toLower {d : Char}
    (h : (d == '\t' || d == '\r' || d == '\n') = false) :
    (Char.toLower d == '\t' || Char.toLower d == '\r' || Char.toLower d == '\n') = false := by
  rw [beq_toLower_low (by decide), beq_toLower_low (by decide), beq_toLower_low (by decide)]
  exact h

theorem pyLower_eq_nil {l : PyStr} : pyLower l = [] ↔ l = [] := by
  rw [pyLower, List.map_eq_nil_iff]
theorem unsplit_ins_form (s n pth q : PyStr)
    (hins : n ≠ [] ∨ (s ≠ [] ∧ s ∈ uses_netloc ∧ pth.take 2 ≠ ['/', '/'])) :
    urlunsplitM ⟨s, n, pth, [], q, []⟩ =
      (if s ≠ [] then
        s ++ ':' :: ('/' :: '/' ::
          (n ++ (if pth ≠ [] ∧ pth.take 1 ≠ ['/'] then '/' :: pth else pth)))
       else '/' :: '/' ::
          (n ++ (if pth ≠ [] ∧ pth.take 1 ≠ ['/'] then '/' :: pth else pth))) ++
      (if q ≠ [] then '?' :: q else []) := by
  rw [urlunsplitM]
  simp only []
  rw [if_pos hins, if_neg (show ¬(([] : PyStr) ≠ []) from by simp)]
  by_cases hqe : q = []
  · have hq2 : ¬(q ≠ []) := by simpa using hqe
    rw [if_neg hq2, if_neg hq2, List.append_nil]
  · have hq2 : q ≠ [] := hqe
    rw [if_pos hq2, if_pos hq2]

theorem unsplit_noins_form (s n pth q : PyStr)
    (hins : ¬(n ≠ [] ∨ (s ≠ [] ∧ s ∈ uses_netloc ∧ pth.take 2 ≠ ['/', '/']))) :
    urlunsplitM ⟨s, n, pth, [], q, []⟩ =
      (if s ≠ [] then s ++ ':' :: pth else pth) ++ (if q ≠ [] then '?' :: q else []) := by
  rw [urlunsplitM]
  simp only []
  rw [if_neg hins, if_neg (show ¬(([] : PyStr) ≠ []) from by simp)]
  by_cases hqe : q = []
  · have hq2 : ¬(q ≠ []) := by simpa using hqe
    rw [if_neg hq2, if_neg hq2, List.append_nil]
  · have hq2 : q ≠ [] := hqe
    rw [if_pos hq2, if_pos hq2]

theorem normalize_of_parts (U : PyStr) (hne : ¬(U = [])) (pr : UrlParts)
    (hp : urlparseM U = pr) :
    normalize_url U = urlunparseM ⟨pyLower pr.scheme, pyLower pr.netloc,
      (if rstripSlash pr.path = [] then ['/'] else rstripSlash pr.path), pr.params,
      urlencodeM (filterTracking (parse_qsM pr.query)), []⟩ := by
  rw [normalize_url, if_neg hne, hp]

theorem urlunparse_no_params (x : UrlParts) (h : x.params = []) :
    urlunparseM x = urlunsplitM x := by
  rw [urlunparseM, h]
  simp only [ne_eq, not_true_eq_false, if_false]
  rfl
theorem takeWhile_nil_head {p : Char → Bool} {c1 : Char} {cs1 : PyStr}
    (h : (c1 :: cs1).takeWhile p = []) : p c1 = false := by
  rw [List.takeWhile_cons] at h
  by_cases hh : p c1 = true
  · rw [if_pos hh] at h
    simp at h
  · exact Bool.eq_false_iff.mpr hh

set_option maxHeartbeats 2000000 in
/-- C3: for every URL string without a semicolon whose parse does not have an
empty authority together with a path beginning with two slashes,
`normalize_url` is idempotent: a second normalization pass parses the
reassembled URL back into the same scheme, netloc, path and re-encoded query
(up to the `urlunsplit` slash-reinsertion, which the proof tracks), and each
per-component normalization (lower-casing, trailing-slash stripping,
tracking-parameter filtering with re-encoding) is idempotent. -/
theorem normalize_url_idempotent (u : PyStr) (hsemi : ';' ∉ u)
    (hdbl : ¬((urlparseM u).netloc = [] ∧ (urlparseM u).path.take 2 = ['/', '/'])) :
    normalize_url (normalize_url u) = normalize_url u := by
  by_cases hu : u = []
  · have h0 : normalize_url ([] : PyStr) = [] := by rw [normalize_url, if_pos rfl]
    rw [hu, h0, h0]
  set u1 := removeUnsafe (u.dropWhile isC0OrSpace) with hu1def
  set sch := (schemeSplit u1).1 with hsch
  set rest1 := (schemeSplit u1).2 with hrest1
  set nl := (netlocSplit rest1).1 with hnldef
  set rest2 := (netlocSplit rest1).2 with hrest2
  set fp1 := (fragSplit rest2).1 with hfp1
  set fr := (fragSplit rest2).2 with hfr
  set pa := (querySplit fp1).1 with hpadef
  set qu := (querySplit fp1).2 with hqudef
  have hsplit : urlsplitM u = ⟨sch, nl, pa, [], qu, fr⟩ := rfl
  have hmem_u1 : ∀ c ∈ u1, c ∈ u ∧ (c == '\t' || c == '\r' || c == '\n') = false := by
    rw [hu1def]
    exact cleaned_sub u
  have hmem_rest1 : ∀ c ∈ rest1, c ∈ u1 := by
    rw [hrest1]
    exact schemeSplit_snd_sub u1
  have hmem_nl : ∀ c ∈ nl, c ∈ u1 := by
    rw [hnldef]
    exact fun c hc => hmem_rest1 c ((netlocSplit_sub rest1).1 c hc)
  have hmem_rest2 : ∀ c ∈ rest2, c ∈ u1 := by
    rw [hrest2]
    exact fun c hc => hmem_rest1 c ((netlocSplit_sub rest1).2 c hc)
  have hmem_fp1 : ∀ c ∈ fp1, c ∈ u1 := by
    rw [hfp1]
    exact fun c hc => hmem_rest2 c ((fragSplit_sub rest2).1 c hc)
  have hmem_pa : ∀ c ∈ pa, c ∈ u1 := by
    rw [hpadef]
    exact fun c hc => hmem_fp1 c ((querySplit_sub fp1).1 c hc)
  have hmem_qu : ∀ c ∈ qu, c ∈ u1 := by
    rw [hqudef]
    exact fun c hc => hmem_fp1 c ((querySplit_sub fp1).2 c hc)
  have hsemi_pa : ';' ∉ pa := fun hm => hsemi (hmem_u1 ';' (hmem_pa ';' hm)).1
  have hparse : urlparseM u = urlsplitM u := by
    rw [urlparseM]
    rw [if_neg]
    intro hc
    exact hsemi_pa (by rw [hsplit] at hc; exact hc.2)
  set s := pyLower sch with hsdef
  set n := pyLower nl with hndef
  set pth := (if rstripSlash pa = [] then ['/'] else rstripSlash pa) with hpthdef
  set q := urlencodeM (filterTracking (parse_qsM qu)) with hqdef
  have hnu : normalize_url u = urlunsplitM ⟨s, n, pth, [], q, []⟩ := by
    rw [normalize_of_parts u hu ⟨sch, nl, pa, [], qu, fr⟩ (by rw [hparse, hsplit])]
    rw [urlunparse_no_params _ rfl]
  have hs_shape : s = [] ∨ ∃ c r, s = c :: r ∧ (c.isAlpha && (c :: r).all isSchemeChar) = true := by
    rcases schemeSplit_shape u1 with h | ⟨c, r, hcr, hchk, hlow⟩
    · left
      rw [hsdef, hsch, h]
      rfl
    · right
      refine ⟨c, r, ?_, hchk⟩
      rw [hsdef, hsch, hcr, hlow]
  have hslow : pyLower s = s := by
    rw [hsdef]
    exact pyLower_idem sch
  have hnlow : pyLower n = n := by
    rw [hndef]
    exact pyLower_idem nl
  have hs_all : ∀ c ∈ s, isSchemeChar c = true := by
    rcases hs_shape with h | ⟨c, r, hcr, hchk⟩
    · rw [h]
      intro c hc
      simp at hc
    · rw [hcr]
      exact List.all_eq_true.mp (Bool.and_elim_right hchk)
  have hn_delim : ∀ c ∈ n, isNetlocDelim c = false := by
    intro c hc
    rw [hndef] at hc
    obtain ⟨d, hd, hde⟩ := List.mem_map.mp hc
    rw [← hde, show pyLowerChar d = Char.toLower d from rfl, isNetlocDelim_toLower]
    rw [hnldef] at hd
    exact netlocSplit_fst_delim rest1 d hd
  have hpne : pth ≠ [] := by
    rw [hpthdef]
    split
    · simp
    · rename_i h
      exact h
  have hfp1_hash : '#' ∉ fp1 := by
    rw [hfp1]
    exact fragSplit_no_hash rest2
  have hpa_hash : '#' ∉ pa := fun hm => hfp1_hash (by rw [hpadef] at hm; exact (querySplit_sub fp1).1 '#' hm)
  have hpa_q : '?' ∉ pa := by
    rw [hpadef]
    exact querySplit_no_q fp1
  have hpth_mem : ∀ c ∈ pth, c = '/' ∨ c ∈ pa := by
    rw [hpthdef]
    split
    · intro c hc
      exact Or.inl (List.mem_singleton.mp hc)
    · intro c hc
      exact Or.inr ((rstripSlash_front pa).sublist.mem hc)
  have hpth_hash : '#' ∉ pth := fun hm => by
    rcases hpth_mem '#' hm with h | h
    · exact absurd h (by decide)
    · exact hpa_hash h
  have hpth_q : '?' ∉ pth := fun hm => by
    rcases hpth_mem '?' hm with h | h
    · exact absurd h (by decide)
    · exact hpa_q h
  have hpth_semi : ';' ∉ pth := fun hm => by
    rcases hpth_mem ';' hm with h | h
    · exact absurd h (by decide)
    · exact hsemi_pa h
  have hq_hash : '#' ∉ q := by
    rw [hqdef]
    exact not_mem_urlencode _ '#' (by decide) (by decide) (by decide) (by decide)
      (by decide) (by decide)
  have hq_colon : ':' ∉ q := by
    rw [hqdef]
    exact not_mem_urlencode _ ':' (by decide) (by decide) (by decide) (by decide)
      (by decide) (by decide)
  have hclean4 : ∀ c, c ∈ s ∨ c ∈ n ∨ c ∈ pth ∨ c ∈ q →
      (c == '\t' || c == '\r' || c == '\n') = false := by
    intro c hc
    rcases hc with h | h | h | h
    · exact isSchemeChar_not_unsafe (hs_all c h)
    · rw [hndef] at h
      obtain ⟨d, hd, hde⟩ := List.mem_map.mp h
      rw [← hde, show pyLowerChar d = Char.toLower d from rfl]
      refine not_unsafe_toLower ?_
      rw [hnldef] at hd
      exact (hmem_u1 d (hmem_nl d (by rw [hnldef]; exact hd))).2
    · rcases hpth_mem c h with h1 | h1
      · rw [h1]
        decide
      · exact (hmem_u1 c (hmem_pa c h1)).2
    · rw [hqdef] at h
      exact urlencode_not_unsafe h
  have hnl_of_n : n = [] → nl = [] := by
    intro hnnil
    rw [hndef] at hnnil
    exact List.map_eq_nil_iff.mp hnnil
  have hslash2 : n = [] → pth.take 2 ≠ ['/', '/'] := by
    intro hnnil
    have hpa2 : ¬(pa.take 2 = ['/', '/']) := by
      intro he
      apply hdbl
      rw [hparse, hsplit]
      exact ⟨hnl_of_n hnnil, he⟩
    rw [hpthdef]
    split
    · simp
    · intro he
      exact hpa2 (prefix_take2 (rstripSlash_front pa) he)
  have hsch_of_s : s = [] → (schemeSplit u1).1 = [] := by
    intro hsnil
    rw [hsdef] at hsnil
    rw [← hsch]
    exact List.map_eq_nil_iff.mp hsnil
  have hrest1u1 : s = [] → rest1 = u1 := by
    intro hsnil
    rw [hrest1]
    exact schemeSplit_empty_snd (hsch_of_s hsnil)
  have hpth_prefix_rest2 : pth = ['/'] ∨ (pth <+: rest2 ∧ rstripSlash pa = pth) := by
    rw [hpthdef]
    split
    · exact Or.inl rfl
    · right
      refine ⟨?_, rfl⟩
      have p1 : rstripSlash pa <+: pa := rstripSlash_front pa
      have p2 : pa <+: fp1 := by
        rw [hpadef]
        exact querySplit_fst_front fp1
      have p3 : fp1 <+: rest2 := by
        rw [hfp1]
        exact fragSplit_fst_front rest2
      exact p1.trans (p2.trans p3)
  have hhead : s = [] → n = [] → ∀ x, pth.head? = some x → isC0OrSpace x = false := by
    intro hsnil hnnil x hx
    rcases hpth_prefix_rest2 with hpv | ⟨hpref, _⟩
    · rw [hpv, List.head?_cons] at hx
      rw [← Option.some.inj hx]
      decide
    · have hxr2 : rest2.head? = some x := by
        rw [prefix_head? hpref hpne]
        exact hx
      rcases netlocSplit_cases rest1 with ⟨heqns, _⟩ | ⟨r, hxr, heqns⟩
      · have hrest2u1 : rest2 = u1 := by
          rw [hrest2, heqns]
          exact hrest1u1 hsnil
        rw [hrest2u1] at hxr2
        exact cleaned_head u x (by rw [← hu1def]; exact hxr2)
      · have hnltake : r.takeWhile (fun c => !isNetlocDelim c) = [] := by
          have := hnl_of_n hnnil
          rw [hnldef, heqns] at this
          exact this
        have hrest2r : rest2 = r := by
          rw [hrest2, heqns]
          exact takeWhile_nil_dropWhile hnltake
        rw [hrest2r] at hxr2
        cases r with
        | nil => simp at hxr2
        | cons c1 cs1 =>
            rw [List.head?_cons] at hxr2
            have hx1 : x = c1 := (Option.some.inj hxr2).symm
            have hd1 : isNetlocDelim c1 = true := by
              have hf := takeWhile_nil_head hnltake
              simpa using hf
            rw [hx1]
            exact delim_not_c0 hd1
  have hmiss : s = [] → n = [] → ∀ pre post, breakAtFirst ':' pth = some (pre, post) →
      ∀ c0 r0, pre = c0 :: r0 → (c0.isAlpha && (c0 :: r0).all isSchemeChar) = false := by
    intro hsnil hnnil pre post hbf c0 r0 hpre
    rcases hpth_prefix_rest2 with hpv | ⟨hpref, _⟩
    · rw [hpv] at hbf
      simp [breakAtFirst] at hbf
    · obtain ⟨hdec, hnm⟩ := breakAtFirst_eq hbf
      obtain ⟨tail, htail⟩ := hpref
      have hbrest2 : breakAtFirst ':' rest2 = some (pre, post ++ tail) := by
        rw [← htail, hdec, List.append_assoc, List.cons_append]
        exact breakAtFirst_append ':' pre _ hnm
      rcases netlocSplit_cases rest1 with ⟨heqns, _⟩ | ⟨r, hxr, heqns⟩
      · have hrest2u1 : rest2 = u1 := by
          rw [hrest2, heqns]
          exact hrest1u1 hsnil
        rw [hrest2u1] at hbrest2
        exact schemeSplit_empty_check (hsch_of_s hsnil) hbrest2 hpre
      · have hnltake : r.takeWhile (fun c => !isNetlocDelim c) = [] := by
          have := hnl_of_n hnnil
          rw [hnldef, heqns] at this
          exact this
        have hrest2r : rest2 = r := by
          rw [hrest2, heqns]
          exact takeWhile_nil_dropWhile hnltake
        have hr2head : rest2.head? = some c0 := by
          rw [← htail, hdec, hpre]
          rfl
        rw [hrest2r] at hr2head
        cases r with
        | nil => simp at hr2head
        | cons c1 cs1 =>
            rw [List.head?_cons] at hr2head
            have hx1 : c0 = c1 := (Option.some.inj hr2head).symm
            have hd1 : isNetlocDelim c1 = true := by
              have hf := takeWhile_nil_head hnltake
              simpa using hf
            rw [hx1, delim_not_alpha hd1]
            rfl
  by_cases hins : n ≠ [] ∨ (s ≠ [] ∧ s ∈ uses_netloc ∧ pth.take 2 ≠ ['/', '/'])
  · set p1 := if pth ≠ [] ∧ pth.take 1 ≠ ['/'] then '/' :: pth else pth with hp1def
    have hp1cases : p1 = pth ∨ (p1 = '/' :: pth ∧ pth.take 1 ≠ ['/']) := by
      rw [hp1def]
      split
      · rename_i hcnd
        exact Or.inr ⟨rfl, hcnd.2⟩
      · exact Or.inl rfl
    have hp1h : ∃ t1, p1 = '/' :: t1 := by
      rw [hp1def]
      split
      · exact ⟨pth, rfl⟩
      · rename_i hcnd
        push_neg at hcnd
        exact take1_slash (hcnd hpne)
    have hp1mem : ∀ c ∈ p1, c = '/' ∨ c ∈ pth := by
      rcases hp1cases with he | ⟨he, _⟩ <;> rw [he]
      · intro c hc
        exact Or.inr hc
      · intro c hc
        rcases List.mem_cons.mp hc with h1 | h1
        · exact Or.inl h1
        · exact Or.inr h1
    have hp1hash : '#' ∉ p1 := fun hm => by
      rcases hp1mem '#' hm with h | h
      · exact absurd h (by decide)
      · exact hpth_hash h
    have hp1q : '?' ∉ p1 := fun hm => by
      rcases hp1mem '?' hm with h | h
      · exact absurd h (by decide)
      · exact hpth_q h
    have hp1semi : ';' ∉ p1 := fun hm => by
      rcases hp1mem ';' hm with h | h
      · exact absurd h (by decide)
      · exact hpth_semi h
    have hcleanA : ∀ c, c ∈ s ∨ c ∈ n ∨ c ∈ p1 ∨ c ∈ q →
        (c == '\t' || c == '\r' || c == '\n') = false := by
      intro c hc
      rcases hc with h | h | h | h
      · exact hclean4 c (Or.inl h)
      · exact hclean4 c (Or.inr (Or.inl h))
      · rcases hp1mem c h with h1 | h1
        · rw [h1]
          decide
        · exact hclean4 c (Or.inr (Or.inr (Or.inl h1)))
      · exact hclean4 c (Or.inr (Or.inr (Or.inr h)))
    have hUA : urlunsplitM ⟨s, n, pth, [], q, []⟩ =
        (if s ≠ [] then s ++ ':' :: ('/' :: '/' :: (n ++ p1))
         else '/' :: '/' :: (n ++ p1)) ++ (if q ≠ [] then '?' :: q else []) := by
      rw [unsplit_ins_form s n pth q hins, hp1def]
    have happ : urlsplitM (urlunsplitM ⟨s, n, pth, [], q, []⟩) = ⟨s, n, p1, [], q, []⟩ := by
      rw [hUA]
      exact reparse_core s n p1 q hs_shape hslow hn_delim hp1h hp1hash hp1q hq_hash hcleanA
    have hUne : ¬(urlunsplitM ⟨s, n, pth, [], q, []⟩ = []) := by
      rw [hUA]
      intro he
      obtain ⟨hl, _⟩ := List.append_eq_nil.mp he
      revert hl
      split
      · intro hl
        rw [List.append_eq_nil] at hl
        simp at hl
      · intro hl
        simp at hl
    have hparseU : urlparseM (urlunsplitM ⟨s, n, pth, [], q, []⟩) = ⟨s, n, p1, [], q, []⟩ := by
      rw [urlparseM, happ, if_neg]
      intro hc
      exact hp1semi hc.2
    have hnormal_pth : rstripSlash pth = pth ∨ pth = ['/'] := by
      rw [hpthdef]
      split
      · exact Or.inr rfl
      · exact Or.inl (rstripSlash_idem pa)
    have hnormP1 : (if rstripSlash p1 = [] then ['/'] else rstripSlash p1) = p1 := by
      rcases hp1cases with he | ⟨he, htk⟩
      · rw [he, hpthdef]
        exact normPath_idem pa
      · have hpthn : rstripSlash pth = pth := by
          rcases hnormal_pth with h | h
          · exact h
          · exfalso
            rw [h] at htk
            exact htk rfl
        rw [he, rstripSlash_cons_slash hpne hpthn, if_neg (by simp)]
    have hqs : urlencodeM (filterTracking (parse_qsM q)) = q := by
      rw [hqdef]
      exact query_stable qu
    have hback : urlunsplitM ⟨s, n, p1, [], q, []⟩ = urlunsplitM ⟨s, n, pth, [], q, []⟩ := by
      rcases hp1cases with he | ⟨he, htk⟩
      · rw [he]
      · have hinsB : n ≠ [] ∨ (s ≠ [] ∧ s ∈ uses_netloc ∧ p1.take 2 ≠ ['/', '/']) := by
          rcases hins with h | ⟨ha, hb, _⟩
          · exact Or.inl h
          · right
            refine ⟨ha, hb, ?_⟩
            rw [he]
            intro hee
            rw [List.take_succ_cons] at hee
            exact htk (List.cons.inj hee).2
        rw [unsplit_ins_form s n p1 q hinsB, unsplit_ins_form s n pth q hins, ← hp1def]
        have hif : (if p1 ≠ [] ∧ p1.take 1 ≠ ['/'] then '/' :: p1 else p1) = p1 := by
          rw [if_neg]
          intro hcc
          obtain ⟨t1, ht1⟩ := hp1h
          rw [ht1] at hcc
          exact hcc.2 rfl
        rw [hif]
    have hfin : normalize_url (urlunsplitM ⟨s, n, pth, [], q, []⟩) =
        urlunsplitM ⟨s, n, p1, [], q, []⟩ := by
      rw [normalize_of_parts _ hUne ⟨s, n, p1, [], q, []⟩ hparseU,
        urlunparse_no_params _ rfl]
      show urlunsplitM ⟨pyLower s, pyLower n,
        (if rstripSlash p1 = [] then ['/'] else rstripSlash p1), [],
        urlencodeM (filterTracking (parse_qsM q)), []⟩ = urlunsplitM ⟨s, n, p1, [], q, []⟩
      rw [hslow, hnlow, hnormP1, hqs]
    rw [hnu, hfin, hback]
  · have hinspush : n = [] := by
      by_cases hnn : n = []
      · exact hnn
      · exact absurd (Or.inl hnn) hins
    have ht2 : pth.take 2 ≠ ['/', '/'] := hslash2 hinspush
    have hUB : urlunsplitM ⟨s, n, pth, [], q, []⟩ =
        (if s ≠ [] then s ++ ':' :: pth else pth) ++ (if q ≠ [] then '?' :: q else []) :=
      unsplit_noins_form s n pth q hins
    have happ : urlsplitM (urlunsplitM ⟨s, n, pth, [], q, []⟩) = ⟨s, [], pth, [], q, []⟩ := by
      rw [hUB]
      exact reparse_noins s pth q hs_shape hslow hpne ht2 hpth_hash hpth_q hq_hash hq_colon
        (fun hsnil => hhead hsnil hinspush)
        (fun hsnil => hmiss hsnil hinspush)
        (fun c hc => by
          rcases hc with h | h | h
          · exact hclean4 c (Or.inl h)
          · exact hclean4 c (Or.inr (Or.inr (Or.inl h)))
          · exact hclean4 c (Or.inr (Or.inr (Or.inr h))))
    have hUne : ¬(urlunsplitM ⟨s, n, pth, [], q, []⟩ = []) := by
      rw [hUB]
      intro he
      obtain ⟨hl, _⟩ := List.append_eq_nil.mp he
      revert hl
      split
      · intro hl
        rw [List.append_eq_nil] at hl
        simp at hl
      · intro hl
        exact hpne hl
    have hparseU : urlparseM (urlunsplitM ⟨s, n, pth, [], q, []⟩) = ⟨s, [], pth, [], q, []⟩ := by
      rw [urlparseM, happ, if_neg]
      intro hc
      exact hpth_semi hc.2
    have hnormPth : (if rstripSlash pth = [] then ['/'] else rstripSlash pth) = pth := by
      rw [hpthdef]
      exact normPath_idem pa
    have hqs : urlencodeM (filterTracking (parse_qsM q)) = q := by
      rw [hqdef]
      exact query_stable qu
    have hfin : normalize_url (urlunsplitM ⟨s, n, pth, [], q, []⟩) =
        urlunsplitM ⟨s, [], pth, [], q, []⟩ := by
      rw [normalize_of_parts _ hUne ⟨s, [], pth, [], q, []⟩ hparseU,
        urlunparse_no_params _ rfl]
      show urlunsplitM ⟨pyLower s, pyLower [],
        (if rstripSlash pth = [] then ['/'] else rstripSlash pth), [],
        urlencodeM (filterTracking (parse_qsM q)), []⟩ = urlunsplitM ⟨s, [], pth, [], q, []⟩
      rw [hslow, hnormPth, hqs]
      rfl
    rw [hnu, hfin, hinspush]

/-- C3 counterexample: `normalize_url` is not idempotent on every URL.  The
URL `http://h/a;/` normalizes to `http://h/a;` (the `;` makes the final
segment a params field, which survives the first pass because its path part
is re-joined), and normalizing again yields `http://h/a`. -/
theorem normalize_url_idempotent_cx :
    ¬(normalize_url (normalize_url ("http://h/a;/".data)) =
      normalize_url ("http://h/a;/".data)) := by decide

/-- Witness for C3: a concrete URL in the amended domain, with both
hypotheses discharged by evaluation and the idempotence conclusion obtained
from the theorem. -/
theorem normalize_url_idempotent_witness :
    ';' ∉ ("http://Ex.com/a/b?x=1&utm_source=news".data) ∧
    ¬((urlparseM ("http://Ex.com/a/b?x=1&utm_source=news".data)).netloc = [] ∧
      (urlparseM ("http://Ex.com/a/b?x=1&utm_source=news".data)).path.take 2 =
        ['/', '/']) ∧
    normalize_url (normalize_url ("http://Ex.com/a/b?x=1&utm_source=news".data)) =
      normalize_url ("http://Ex.com/a/b?x=1&utm_source=news".data) :=
  ⟨by decide, by decide,
    normalize_url_idempotent ("http://Ex.com/a/b?x=1&utm_source=news".data)
      (by decide) (by decide)⟩
